import Mathlib

/-!
# Image-Filter: chunked filter pipeline

A shallow embedding of the Go packages `png` (png.go, effects.go), `imagetask`
(imagetask.go) and of the sequential and parallel drivers of `editor`
(editor.go), followed by theorems about the splitting, filtering and
reassembly of images.

Conventions of the embedding.

* Go `float64` values are modelled exactly: a finite binary64 number is an
  integer count of units of `2^-1074` (the spacing of the smallest binade), and
  every arithmetic operation rounds the exact result to nearest, ties to even,
  at 53 significant bits. A product and the sum it is added to are rounded
  separately, as the statements of `Convolute` are written (Go allows a fused
  multiply-add on some architectures; with the integer kernels every
  intermediate value is an exact integer and fusing changes nothing).
  Infinities and NaN are not represented: with the kernels of this program they
  arise only from a division by a zero thread count.
* Go `image` values are modelled by their bounds, their `At` function inside
  the bounds and the colour their `At` returns outside the bounds, which
  depends on the image type (zero for an `*image.RGBA64`, the first palette
  entry for the `*image.Paletted` that an indexed PNG decodes to).
  Coordinates are Go `int`s, modelled as `Int`.
* A Go panic is modelled by `none`.
* The parallel worker is modelled twice. `workerEffects` and `reassemble` give
  the images it computes: each effect is applied to every chunk before the next
  effect starts, and the chunks are kept in stream order. `workerStep` gives the
  order of its steps: the goroutines and channel operations of `filter` as a
  transition system in which the scheduler interleaves the steps freely.
-/

set_option exponentiation.threshold 5000
set_option maxRecDepth 20000
set_option autoImplicit false

namespace ImageFilter

/-! ## binary64 arithmetic -/

/-- Nearest integer to `num / den`, ties to the even integer. -/
def rne (num den : Nat) : Nat :=
  let q := num / den
  let r := num % den
  if 2 * r < den then q
  else if den < 2 * r then q + 1
  else if q % 2 = 0 then q else q + 1

/-- Binary search for the position of the leading bit: `log2Go j n` is
`floor (log2 n)` for `1 ≤ n < 2 ^ 2 ^ j`. -/
def log2Go : Nat → Nat → Nat
  | 0, _ => 0
  | j + 1, n => if 2 ^ 2 ^ j ≤ n then 2 ^ j + log2Go j (n / 2 ^ 2 ^ j) else log2Go j n

/-- Position of the leading bit of `n`, for `n < 2 ^ 4096` (every magnitude a
binary64 operation can produce, counted in units of `2^-1074`, is far below). -/
def ilog2 (n : Nat) : Nat := log2Go 12 n

/-- Round the non-negative exact value `num / den` (in units of `2^-1074`) to
binary64: values below `2^53` units lie on the unit grid (subnormals and the
first binades), larger values keep 53 significant bits. -/
def roundUnits (num den : Nat) : Nat :=
  let k := ilog2 (num / den) - 52
  rne num (den * 2 ^ k) * 2 ^ k

/-- Round the signed exact value `num / den` to binary64 (rounding is symmetric
about zero). -/
def roundInt (num : Int) (den : Nat) : Int :=
  if 0 ≤ num then (roundUnits num.toNat den : Nat) else -(roundUnits (-num).toNat den : Nat)

/-- Number of units of `2^-1074` in `1.0`. -/
def unitsPerOne : Nat := 2 ^ 1074

/-- A finite Go `float64`, as a count of units of `2^-1074`. -/
structure F64 where
  units : Int
deriving DecidableEq

/-- Go conversion `float64(n)` of an integer. -/
def F64.ofInt (n : Int) : F64 := ⟨roundInt (n * unitsPerOne) 1⟩

/-- Go `a + b` on `float64`. -/
def F64.add (a b : F64) : F64 := ⟨roundInt (a.units + b.units) 1⟩

/-- Go `a * b` on `float64`. -/
def F64.mul (a b : F64) : F64 := ⟨roundInt (a.units * b.units) unitsPerOne⟩

/-- Go `a / b` on `float64`, for `b` non-zero (Go yields an infinity or NaN for
a zero divisor, which this model does not represent). -/
def F64.div (a b : F64) : F64 :=
  ⟨roundInt (a.units * unitsPerOne * b.units.sign) b.units.natAbs⟩

/-- Go `math.Max` on finite values. -/
def F64.max (a b : F64) : F64 := if a.units ≤ b.units then b else a

/-- Go `math.Min` on finite values. -/
def F64.min (a b : F64) : F64 := if a.units ≤ b.units then a else b

/-- Go `math.Ceil` on finite values. -/
def F64.ceil (a : F64) : F64 := ⟨-((-a.units) / (unitsPerOne : Int)) * unitsPerOne⟩

/-- Go conversion `int(f)`: the fraction is discarded (truncation towards
zero). -/
def F64.toInt (a : F64) : Int := Int.tdiv a.units unitsPerOne

/-- A Go `uint16`. -/
abbrev U16 := Fin 65536

/-- Go conversion `uint16(n)` of an unsigned integer. -/
def U16.ofNat (n : Nat) : U16 := ⟨n % 65536, Nat.mod_lt _ (by decide)⟩

/-- Go conversion `uint16(f)`: the fraction is discarded. Go leaves the result
implementation-dependent when the value is outside `[0, 65535]`; `clamp` never
passes such a value. -/
def F64.toUint16 (a : F64) : U16 := U16.ofNat a.toInt.toNat

/-! ## Go `image` geometry, colours and surfaces -/

/-- Go `image.Point`. -/
structure Point where
  X : Int
  Y : Int
deriving DecidableEq

/-- Go `image.Rectangle`: the points with `Min.X ≤ x < Max.X`, `Min.Y ≤ y < Max.Y`. -/
structure Rectangle where
  Min : Point
  Max : Point
deriving DecidableEq

/-- Go `image.ZR`, the zero rectangle. -/
def ZR : Rectangle := ⟨⟨0, 0⟩, ⟨0, 0⟩⟩

/-- Go `image.Rect`: the rectangle with the given corners, swapping
coordinates so that it is well-formed. -/
def Rect (x0 y0 x1 y1 : Int) : Rectangle :=
  let xs := if x0 > x1 then (x1, x0) else (x0, x1)
  let ys := if y0 > y1 then (y1, y0) else (y0, y1)
  ⟨⟨xs.1, ys.1⟩, ⟨xs.2, ys.2⟩⟩

/-- Go `Rectangle.Empty`. -/
def Rectangle.Empty (r : Rectangle) : Bool :=
  decide (r.Min.X ≥ r.Max.X) || decide (r.Min.Y ≥ r.Max.Y)

/-- Go `Rectangle.Intersect`: the largest rectangle contained in both, or `ZR`
when they do not overlap. -/
def Rectangle.Intersect (r s : Rectangle) : Rectangle :=
  let r1 : Rectangle :=
    ⟨⟨if r.Min.X < s.Min.X then s.Min.X else r.Min.X,
      if r.Min.Y < s.Min.Y then s.Min.Y else r.Min.Y⟩,
     ⟨if r.Max.X > s.Max.X then s.Max.X else r.Max.X,
      if r.Max.Y > s.Max.Y then s.Max.Y else r.Max.Y⟩⟩
  if r1.Empty then ZR else r1

/-- Go `Point.Sub`. -/
def Point.Sub (p q : Point) : Point := ⟨p.X - q.X, p.Y - q.Y⟩

/-- Go `Rectangle.Add`: translation by `p`. -/
def Rectangle.Add (r : Rectangle) (p : Point) : Rectangle :=
  ⟨⟨r.Min.X + p.X, r.Min.Y + p.Y⟩, ⟨r.Max.X + p.X, r.Max.Y + p.Y⟩⟩

/-- Go `Point.In`. -/
def Point.In (p : Point) (r : Rectangle) : Bool :=
  decide (r.Min.X ≤ p.X) && decide (p.X < r.Max.X) &&
    decide (r.Min.Y ≤ p.Y) && decide (p.Y < r.Max.Y)

/-- Go `color.RGBA64`; also the four values returned by `Color.RGBA()`, each of
which lies in `[0, 65535]`. -/
structure RGBA64 where
  R : U16
  G : U16
  B : U16
  A : U16
deriving DecidableEq

/-- The zero colour: the pixels of a new `*image.RGBA64`, and what `At` returns
outside the bounds of an RGBA or NRGBA image of either depth. -/
def RGBA64.zero : RGBA64 := ⟨0, 0, 0, 0⟩

/-- A Go image (decoded PNG or `*image.RGBA64`), by its bounds, the colour
values `At(x, y).RGBA()` of its pixels and the colour value that its `At`
returns outside the bounds. That colour depends on the image type: it is zero
for `*image.RGBA`, `*image.NRGBA`, `*image.RGBA64` and `*image.NRGBA64`, opaque
black `(0, 0, 0, 65535)` for `*image.Gray` and `*image.Gray16`, and the first
palette entry for `*image.Paletted` (an indexed PNG). A sub-image shares `Pix`
and `Outside` with its parent and narrows `Rect`. -/
structure Surface where
  Rect : Rectangle
  Pix : Int → Int → RGBA64
  Outside : RGBA64

/-- Go `Image.Bounds`. -/
def Surface.Bounds (s : Surface) : Rectangle := s.Rect

/-- Go `Image.At(x, y).RGBA()`: the stored colour inside the bounds, the
colour of the image type outside. -/
def Surface.At (s : Surface) (x y : Int) : RGBA64 :=
  if (Point.mk x y).In s.Rect then s.Pix x y else s.Outside

/-- Go `(*image.RGBA64).Set`: a write outside the bounds is ignored. -/
def Surface.Set (s : Surface) (x y : Int) (c : RGBA64) : Surface :=
  if (Point.mk x y).In s.Rect then
    { s with Pix := fun x2 y2 => if x2 = x ∧ y2 = y then c else s.Pix x2 y2 }
  else s

/-- Go `SubImage`: the part of the image visible through `r`; an empty
intersection yields an empty image of the same type (a paletted one keeps
its palette). -/
def Surface.SubImage (s : Surface) (r : Rectangle) : Surface :=
  let r1 := r.Intersect s.Rect
  if r1.Empty then ⟨ZR, fun _ _ => RGBA64.zero, s.Outside⟩ else ⟨r1, s.Pix, s.Outside⟩

/-- Go `image.NewRGBA64`: a blank (all zero) image with the given bounds. -/
def NewRGBA64 (r : Rectangle) : Surface := ⟨r, fun _ _ => RGBA64.zero, RGBA64.zero⟩

/-- Go `draw.Draw(dst, r, src, sp, draw.Src)`: clip `r` to the bounds of `dst`
and to the bounds of `src` translated so that `sp` lands on `r.Min`, then copy
the source pixels aligned with the clipped rectangle. -/
def Draw (dst : Surface) (r : Rectangle) (src : Surface) (sp : Point) : Surface :=
  let orig := r.Min
  let r1 := r.Intersect dst.Bounds
  let r2 := r1.Intersect (src.Bounds.Add (orig.Sub sp))
  let sp2 : Point := ⟨sp.X + (r2.Min.X - orig.X), sp.Y + (r2.Min.Y - orig.Y)⟩
  if r2.Empty then dst
  else
    { dst with
      Pix := fun x y =>
        if (Point.mk x y).In r2 then src.At (sp2.X + (x - r2.Min.X)) (sp2.Y + (y - r2.Min.Y))
        else dst.Pix x y }

/-- The clipped destination rectangle of `Draw`: the pixels it overwrites. -/
def DrawRect (dst : Surface) (r : Rectangle) (src : Surface) (sp : Point) : Rectangle :=
  (r.Intersect dst.Bounds).Intersect (src.Bounds.Add (r.Min.Sub sp))

/-- Go `for v := lo; v < hi; v++ { body }`, threading the state. -/
def forRange {σ : Type} (lo hi : Int) (body : Int → σ → σ) (s : σ) : σ :=
  (List.range (hi - lo).toNat).foldl (fun st (i : Nat) => body (lo + (i : Int)) st) s

/-! ## package png -/

/-- The `Image` of png.go: the surface being read and the surface being
written. -/
structure Image where
  in_ : Surface
  out : Surface

/-- The `Load` of png.go after decoding: the decoded image and a blank output
of the same bounds. -/
def Load (inImg : Surface) : Image := ⟨inImg, NewRGBA64 inImg.Bounds⟩

/-- The `clamp` of png.go: `uint16(math.Min(65535, math.Max(0, comp)))`. -/
def clamp (comp : F64) : U16 :=
  (F64.min (F64.ofInt 65535) (F64.max (F64.ofInt 0) comp)).toUint16

/-- The `getSKernel` of png.go. -/
def getSKernel : List (List F64) :=
  [[F64.ofInt 0, F64.ofInt (-1), F64.ofInt 0],
   [F64.ofInt (-1), F64.ofInt 5, F64.ofInt (-1)],
   [F64.ofInt 0, F64.ofInt (-1), F64.ofInt 0]]

/-- The `getEKernel` of png.go. -/
def getEKernel : List (List F64) :=
  [[F64.ofInt (-1), F64.ofInt (-1), F64.ofInt (-1)],
   [F64.ofInt (-1), F64.ofInt 8, F64.ofInt (-1)],
   [F64.ofInt (-1), F64.ofInt (-1), F64.ofInt (-1)]]

/-- The `getBKernel` of png.go: three rows of three copies of
`float64(1)/float64(9)`. -/
def getBKernel : List (List F64) :=
  let oneNinth := F64.div (F64.ofInt 1) (F64.ofInt 9)
  let row := forRange 0 3 (fun _ row => row ++ [oneNinth]) ([] : List F64)
  forRange 0 3 (fun _ kernel => kernel ++ [row]) ([] : List (List F64))

/-- Go `kernel[kernelY][kernelX]`; an index out of range panics. -/
def kernelAt (kernel : List (List F64)) (kernelY kernelX : Int) : Option F64 :=
  if kernelY < 0 ∨ kernelX < 0 then none
  else (kernel[kernelY.toNat]?).bind fun row => row[kernelX.toNat]?

/-- The accumulators `rConvoluted`, `gConvoluted`, `bConvoluted` of `Convolute`. -/
structure Acc where
  r : F64
  g : F64
  b : F64
deriving DecidableEq

/-- The kernel loops of `Convolute` (effects.go) for the pixel `(x, y)`. -/
def convAccumulate (inImg : Surface) (kernel : List (List F64)) (kernelLength : Int)
    (x y : Int) : Option Acc :=
  forRange 0 kernelLength (fun kernelY st =>
    forRange 0 kernelLength (fun kernelX st =>
      st.bind fun acc =>
        let xOfImage := x + kernelX - 1
        let yOfImage := y + kernelY - 1
        let c := if xOfImage < 0 ∨ yOfImage < 0 then RGBA64.zero
                 else inImg.At xOfImage yOfImage
        (kernelAt kernel kernelY kernelX).map fun k =>
          { r := F64.add acc.r (F64.mul (F64.ofInt c.R.val) k)
            g := F64.add acc.g (F64.mul (F64.ofInt c.G.val) k)
            b := F64.add acc.b (F64.mul (F64.ofInt c.B.val) k) }) st)
    (some ⟨F64.ofInt 0, F64.ofInt 0, F64.ofInt 0⟩)

/-- The `Convolute` of effects.go. -/
def Image.Convolute (img : Image) (kernel : List (List F64)) (kernelLength : Int) :
    Option Image :=
  let bounds := img.out.Bounds
  forRange bounds.Min.Y bounds.Max.Y (fun y st =>
    forRange bounds.Min.X bounds.Max.X (fun x st =>
      st.bind fun im =>
        let a := (im.in_.At x y).A
        (convAccumulate im.in_ kernel kernelLength x y).map fun acc =>
          { im with
            out := im.out.Set x y
              ⟨clamp acc.r, clamp acc.g, clamp acc.b, U16.ofNat a.val⟩ }) st)
    (some img)

/-- The `Grayscale` of effects.go. The sum `r+g+b` is a Go `uint32`. -/
def Image.Grayscale (img : Image) : Image :=
  let bounds := img.out.Bounds
  forRange bounds.Min.Y bounds.Max.Y (fun y st =>
    forRange bounds.Min.X bounds.Max.X (fun x im =>
      let c := im.in_.At x y
      let greyC := clamp (F64.div
        (F64.ofInt (((c.R.val + c.G.val + c.B.val) % 4294967296 : Nat) : Int)) (F64.ofInt 3))
      { im with out := im.out.Set x y ⟨greyC, greyC, greyC, U16.ofNat c.A.val⟩ }) st)
    img

/-- The `ApplyConvolution` of png.go: an effect other than S, E and B leaves
the kernel nil, of length zero. -/
def Image.ApplyConvolution (img : Image) (effect : String) : Option Image :=
  let kernel : List (List F64) :=
    if effect = "S" then getSKernel
    else if effect = "E" then getEKernel
    else if effect = "B" then getBKernel
    else []
  img.Convolute kernel kernel.length

/-- The `UpdateInImg` of png.go. -/
def Image.UpdateInImg (img : Image) : Image :=
  ⟨img.out, NewRGBA64 img.out.Bounds⟩

/-- The `GetYPixels` of png.go. -/
def Image.GetYPixels (img : Image) : Int := img.in_.Bounds.Max.Y

/-- The `GrabChunk` of png.go (every decoded image type has `SubImage`; the
error result is always nil). -/
def Image.GrabChunk (img : Image) (yMin yMax : Int) : Image :=
  let xMax := img.in_.Bounds.Max.X
  let subImg := img.in_.SubImage (Rect 0 yMin xMax yMax)
  ⟨subImg, NewRGBA64 subImg.Bounds⟩

/-- The `NewImage` of png.go. -/
def Image.NewImage (img : Image) : Image :=
  let xMax := img.in_.Bounds.Max.X
  let yMax := img.in_.Bounds.Max.Y
  ⟨img.in_, NewRGBA64 (Rect 0 0 xMax yMax)⟩

/-- The role-dependent trimming of `ReAddChunk` (png.go): the destination
rectangle and the adjusted `yMin`. -/
def reAddTrim (bounds : Rectangle) (yMin : Int) (chunkPart : String) : Rectangle × Int :=
  if chunkPart = "first" then
    (⟨bounds.Min, ⟨bounds.Max.X, bounds.Max.Y - 4⟩⟩, yMin)
  else if chunkPart = "middle" then
    (⟨⟨bounds.Min.X, bounds.Min.Y + 4⟩, ⟨bounds.Max.X, bounds.Max.Y - 4⟩⟩, yMin + 4)
  else if chunkPart = "end" then
    (⟨⟨bounds.Min.X, bounds.Min.Y + 4⟩, bounds.Max⟩, yMin + 4)
  else (bounds, yMin)

/-- The `ReAddChunk` of png.go. -/
def Image.ReAddChunk (img img2 : Image) (yMin : Int) (chunkPart : String) : Image :=
  let t := reAddTrim img2.out.Bounds yMin chunkPart
  let bounds := t.1
  let yMin := t.2
  let subImg := img2.out.SubImage (Rect 0 yMin bounds.Max.X bounds.Max.Y)
  { img with out := Draw img.out bounds subImg ⟨0, yMin⟩ }

/-- The rectangle of the output that `ReAddChunk` overwrites. -/
def reAddRect (img img2 : Image) (yMin : Int) (chunkPart : String) : Rectangle :=
  let t := reAddTrim img2.out.Bounds yMin chunkPart
  let subImg := img2.out.SubImage (Rect 0 t.2 t.1.Max.X t.1.Max.Y)
  DrawRect img.out t.1 subImg ⟨0, t.2⟩

/-! ## package imagetask -/

/-- The `ImageTask` of imagetask.go. -/
structure ImageTask where
  InPath : String
  OutPath : String
  Effects : List String
  Img : Image
  YPixelStart : Int
  YPixelEnd : Int
  ChunkPart : String

/-- The `pixelChunk` of `SplitImage`:
`int(math.Ceil(float64(yPixels)/float64(threads)))`. -/
def pixelChunkOf (yPixels threads : Int) : Int :=
  (F64.ceil (F64.div (F64.ofInt yPixels) (F64.ofInt threads))).toInt

/-- The row range of chunk `i` before padding (imagetask.go lines 61-66). -/
def chunkUnpadded (yPixels pixelChunk threads i : Int) : Int × Int :=
  let yChunkMin := i * pixelChunk
  if i = threads - 1 then (yChunkMin, yPixels) else (yChunkMin, yChunkMin + pixelChunk)

/-- The role of chunk `i` and its padded row range (imagetask.go lines 68-82). -/
def chunkPadded (threads i : Int) (range : Int × Int) : String × Int × Int :=
  if threads > 1 then
    if i = 0 then ("first", range.1, range.2 + 4)
    else if i > 0 ∧ i < threads - 1 then ("middle", range.1 - 4, range.2 + 4)
    else ("end", range.1 - 4, range.2)
  else ("na", range.1, range.2)

/-- The `SplitImage` of imagetask.go. -/
def ImageTask.SplitImage (imgTask : ImageTask) (threads : Int) : List ImageTask :=
  let yPixels := imgTask.Img.GetYPixels
  let pixelChunk := pixelChunkOf yPixels threads
  forRange 0 threads (fun i imageChunks =>
    let p := chunkPadded threads i (chunkUnpadded yPixels pixelChunk threads i)
    let chunk := imgTask.Img.GrabChunk p.2.1 p.2.2
    imageChunks ++
      [⟨imgTask.InPath, imgTask.OutPath, imgTask.Effects, chunk, p.2.1, p.2.2, p.1⟩]) []

/-- The surface that `SaveImageTaskOut` hands to the encoder: the input
surface when the effect list is empty, the output surface otherwise. -/
def ImageTask.SaveImageTaskOut (imgTask : ImageTask) : Surface :=
  if imgTask.Effects.length = 0 then imgTask.Img.in_ else imgTask.Img.out

/-! ## package main (editor.go) -/

/-- One effect applied to an image, as both drivers do it:
`if effect != "G" { ApplyConvolution(effect) } else { Grayscale() }`. -/
def applyEffect (effect : String) (img : Image) : Option Image :=
  if effect ≠ "G" then img.ApplyConvolution effect else some img.Grayscale

/-- The effect loop of the sequential driver (editor.go lines 173-182), from
effect number `i` on. -/
def sequentialEffects : Nat → List String → Image → Option Image
  | _, [], img => some img
  | i, effect :: rest, img =>
    (applyEffect effect (if i > 0 then img.UpdateInImg else img)).bind
      (sequentialEffects (i + 1) rest)

/-- The sequential driver for one task: the surface that is saved. -/
def runSequential (imgTask : ImageTask) : Option Surface :=
  (sequentialEffects 0 imgTask.Effects imgTask.Img).map fun img =>
    ({ imgTask with Img := img } : ImageTask).SaveImageTaskOut

/-- The `filter` stage of the worker for one effect: every chunk of the stream
swaps its surfaces when this is not the first effect and is then filtered. The
chunks are kept in stream order. -/
def filterStage (effect : String) (effectNum : Nat) :
    List ImageTask → Option (List ImageTask)
  | [] => some []
  | chunk :: rest =>
    (applyEffect effect (if effectNum > 0 then chunk.Img.UpdateInImg else chunk.Img)).bind
      fun img => (filterStage effect effectNum rest).map
        fun done => { chunk with Img := img } :: done

/-- The effect loop of the worker (editor.go lines 84-88), from effect number
`i` on. -/
def workerEffects : Nat → List String → List ImageTask → Option (List ImageTask)
  | _, [], chunkStream => some chunkStream
  | i, effect :: rest, chunkStream =>
    (filterStage effect i chunkStream).bind (workerEffects (i + 1) rest)

/-- The reassembly loop of the worker (editor.go lines 91-95). -/
def reassemble (imgTask : ImageTask) (chunkStream : List ImageTask) : ImageTask :=
  let reconstructedImage := chunkStream.foldl
    (fun acc imgChunk => acc.ReAddChunk imgChunk.Img imgChunk.YPixelStart imgChunk.ChunkPart)
    imgTask.Img.NewImage
  { imgTask with Img := reconstructedImage }

/-- The parallel worker for one task: the surface that is saved. -/
def runParallel (threads : Int) (imgTask : ImageTask) : Option Surface :=
  (workerEffects 0 imgTask.Effects (imgTask.SplitImage threads)).map fun chunkStream =>
    (reassemble imgTask chunkStream).SaveImageTaskOut

/-- A decoded PNG of the given width and height: its bounds start at the
origin, `pix` gives its pixels and `outside` the colour that the `At` of its
image type returns outside the bounds (the first palette entry for an indexed
PNG, zero for a truecolour PNG). -/
def decodedPNG (w h : Nat) (pix : Int → Int → RGBA64) (outside : RGBA64) : Surface :=
  ⟨⟨⟨0, 0⟩, ⟨w, h⟩⟩, pix, outside⟩

/-- The task that `CreateImageTask` builds for a decoded image and an effect
list. -/
def CreateImageTask (inPath outPath : String) (effects : List String) (inImg : Surface) :
    ImageTask :=
  ⟨inPath, outPath, effects, Load inImg, 0, 0, ""⟩

/-! ## Reference definitions taken from the specification -/

/-- The spec's `round((inR+inG+inB)/3)`: the nearest integer to a third of the
channel sum `n` (a third is never half-way between two integers). -/
def roundThird (n : Nat) : Nat := (2 * n + 3) / 6

/-- The spec's read of the current surface at a kernel cell: the pixel, or
nothing when a coordinate is negative or the position is outside the bounds. -/
def specRead (cur : Surface) (x y : Int) : Option RGBA64 :=
  if x < 0 ∨ y < 0 then none
  else if cur.Rect.Min.X ≤ x ∧ x < cur.Rect.Max.X ∧ cur.Rect.Min.Y ≤ y ∧ y < cur.Rect.Max.Y then
    some (cur.Pix x y)
  else none

/-- The spec's contribution of one kernel cell of weight `k` to one channel: the
weighted channel value, or zero when there is nothing to read. -/
def specTerm (cur : Surface) (chan : RGBA64 → U16) (k : F64) (x y : Int) : F64 :=
  match specRead cur x y with
  | some c => F64.mul (F64.ofInt (chan c).val) k
  | none => F64.ofInt 0

/-- The spec's weighted sum of one channel over the nine kernel cells, read at
`(x + kx - 1, y + ky - 1)` and accumulated row by row. -/
def specConvSum (cur : Surface) (chan : RGBA64 → U16) (K : Fin 3 → Fin 3 → F64)
    (x y : Int) : F64 :=
  (List.finRange 3).foldl (fun acc ky =>
    (List.finRange 3).foldl (fun acc kx =>
      F64.add acc (specTerm cur chan (K ky kx) (x + (kx.val : Int) - 1) (y + (ky.val : Int) - 1)))
      acc) (F64.ofInt 0)

/-- A 3x3 kernel as the slice of rows that `Convolute` receives. -/
def kernelRows (K : Fin 3 → Fin 3 → F64) : List (List F64) :=
  [[K 0 0, K 0 1, K 0 2], [K 1 0, K 1 1, K 1 2], [K 2 0, K 2 1, K 2 2]]

/-- The spec's clamping `max(0, min(maxValue, value))` with `maxValue = 65535`,
on a value counted in units of `2^-1074`. -/
def specSaturate (v : Int) : Int := max 0 (min (65535 * (unitsPerOne : Int)) v)

/-- The rectangle of the reassembled output that the worker's `ReAddChunk` call
overwrites for a chunk of the task. -/
def chunkDstRect (imgTask chunk : ImageTask) : Rectangle :=
  reAddRect imgTask.Img.NewImage chunk.Img chunk.YPixelStart chunk.ChunkPart

/-- The number of chunks of `SplitImage(threads)` whose `ReAddChunk` call writes
row `y` of the reassembled output. -/
def rowWriters (imgTask : ImageTask) (threads : Int) (y : Int) : Nat :=
  ((imgTask.SplitImage threads).filter fun chunk =>
    !(chunkDstRect imgTask chunk).Empty &&
      decide ((chunkDstRect imgTask chunk).Min.Y ≤ y) &&
      decide (y < (chunkDstRect imgTask chunk).Max.Y)).length

/-! ## Closed forms used in the proofs -/

/-- The colour that `Convolute` uses for the kernel cell at `(x, y)`
(effects.go lines 52-58): zero when a coordinate is negative, `At` otherwise. -/
def codeRead (cur : Surface) (x y : Int) : RGBA64 :=
  if x < 0 ∨ y < 0 then RGBA64.zero else cur.At x y

/-- The contribution of one kernel cell of weight `k` to one accumulator of
`Convolute`. -/
def codeTerm (cur : Surface) (chan : RGBA64 → U16) (k : F64) (x y : Int) : F64 :=
  F64.mul (F64.ofInt (chan (codeRead cur x y)).val) k

/-- The value of one accumulator of `Convolute` after the nine kernel cells of
a 3x3 kernel, added row by row. -/
def codeConvSum (cur : Surface) (chan : RGBA64 → U16) (K : Fin 3 → Fin 3 → F64)
    (x y : Int) : F64 :=
  (List.finRange 3).foldl (fun acc ky =>
    (List.finRange 3).foldl (fun acc kx =>
      F64.add acc (codeTerm cur chan (K ky kx) (x + (kx.val : Int) - 1) (y + (ky.val : Int) - 1)))
      acc) (F64.ofInt 0)

/-- The kernel that `ApplyConvolution` selects for an effect code. -/
def kernelOf (effect : String) : List (List F64) :=
  if effect = "S" then getSKernel
  else if effect = "E" then getEKernel
  else if effect = "B" then getBKernel
  else []

/-- The pixel that one effect stores at `(x, y)` when it reads the surface
`cur`: the grey pixel for `G`, the clamped kernel sums with the alpha of
`cur` otherwise. -/
def effPixel (effect : String) (cur : Surface) (x y : Int) : RGBA64 :=
  if effect = "G" then
    let c := cur.At x y
    let greyC := clamp (F64.div
      (F64.ofInt (((c.R.val + c.G.val + c.B.val) % 4294967296 : Nat) : Int)) (F64.ofInt 3))
    ⟨greyC, greyC, greyC, U16.ofNat c.A.val⟩
  else
    let acc := (convAccumulate cur (kernelOf effect) (kernelOf effect).length x y).getD
      ⟨F64.ofInt 0, F64.ofInt 0, F64.ofInt 0⟩
    ⟨clamp acc.r, clamp acc.g, clamp acc.b, (cur.At x y).A⟩

/-- The image after one effect: every pixel of the output bounds is
overwritten, the rest of the image is kept. -/
def effImage (effect : String) (img : Image) : Image :=
  ⟨img.in_, ⟨img.out.Rect, fun x y =>
    if (Point.mk x y).In img.out.Rect then effPixel effect img.in_ x y else img.out.Pix x y,
    img.out.Outside⟩⟩

/-- The image after the effects of a list, from effect number `i` on: the
closed form of the effect loop of both drivers. -/
def chainImage : Nat → List String → Image → Image
  | _, [], img => img
  | i, effect :: rest, img =>
    chainImage (i + 1) rest (effImage effect (if i > 0 then img.UpdateInImg else img))

/-- The surface that effect number `i` reads: the input surface for the first
effect, the previous output afterwards. -/
def curSurface (i : Nat) (img : Image) : Surface := if i > 0 then img.out else img.in_

/-- The number of convolution effects (codes other than `G`) of an effect list. -/
def convCount (effects : List String) : Nat := (effects.filter (fun e => decide (e ≠ "G"))).length

/-- The source pixel that `ReAddChunk` copies to the output position `(x, y)`. -/
def reAddSource (img img2 : Image) (yMin : Int) (chunkPart : String) (x y : Int) : RGBA64 :=
  let t := reAddTrim img2.out.Bounds yMin chunkPart
  let subImg := img2.out.SubImage (Rect 0 t.2 t.1.Max.X t.1.Max.Y)
  let r2 := DrawRect img.out t.1 subImg ⟨0, t.2⟩
  subImg.At (0 + (r2.Min.X - t.1.Min.X) + (x - r2.Min.X)) (t.2 + (r2.Min.Y - t.1.Min.Y) + (y - r2.Min.Y))

/-- Whether a rectangle is non-empty and contains row `y`. -/
def Rectangle.hasRow (r : Rectangle) (y : Int) : Bool :=
  !r.Empty && decide (r.Min.Y ≤ y) && decide (y < r.Max.Y)

/-- Chunk number `i` of `SplitImage(threads)`: the element that iteration `i`
of its loop appends. -/
def splitChunk (imgTask : ImageTask) (threads : Int) (i : Nat) : ImageTask :=
  let p := chunkPadded threads i
    (chunkUnpadded imgTask.Img.GetYPixels (pixelChunkOf imgTask.Img.GetYPixels threads) threads i)
  ⟨imgTask.InPath, imgTask.OutPath, imgTask.Effects, imgTask.Img.GrabChunk p.2.1 p.2.2,
    p.2.1, p.2.2, p.1⟩

/-- Chunk number `i` after the effect loop of the worker. -/
def filteredChunk (imgTask : ImageTask) (threads : Int) (i : Nat) : ImageTask :=
  { splitChunk imgTask threads i with
    Img := chainImage 0 imgTask.Effects (splitChunk imgTask threads i).Img }

/-! ## The filter pipeline of the worker as a transition system

The worker of editor.go (lines 42-88) runs, for each effect, the function
`filter`: its range loop receives every chunk from `chunkStream`, swaps the
chunk's surfaces when this is not the first effect and spawns one goroutine per
chunk; each goroutine sends its chunk on the buffered `filterStream`, applies
the effect and sends on the unbuffered `donefilterChunk`; `filter` then
receives `threads` times from `donefilterChunk` and returns `filterStream`,
which the worker closes and hands to the next `filter` call as its
`chunkStream`. A goroutine, a channel send and a channel receive are atomic
steps that the scheduler may interleave in any order. The `done` channel is
closed only when the worker returns, so its `select` case is never ready while
a task is filtered. A filter task is named by its effect number and its chunk
number. -/

/-- The scheduling state of a worker while it filters one image task. -/
structure WorkerState where
  /-- The index `i` of the worker's effect loop (line 84). -/
  effectNum : Nat
  /-- The position of `filter`: `none` in its range loop (lines 45-63),
  `some i` in its wait loop after `i` receives (lines 64-66). -/
  waiting : Option Nat
  /-- The chunks still to be received from `chunkStream`. -/
  chunkStream : List Nat
  /-- The chunks sent on `filterStream` so far. -/
  filterStream : List Nat
  /-- The filter tasks started: swap of the surfaces and `go` (lines 46-49). -/
  spawnedLog : List (Nat × Nat)
  /-- The filter tasks that have sent their chunk on `filterStream` (line 54). -/
  sentLog : List (Nat × Nat)
  /-- The filter tasks that have applied their effect (lines 55-59). -/
  appliedLog : List (Nat × Nat)
  /-- The filter tasks that have signalled completion (line 60). -/
  signalledLog : List (Nat × Nat)
deriving DecidableEq

/-- The atomic steps of the worker and of its filter goroutines. -/
inductive WorkerEvent where
  /-- One iteration of the range loop of `filter`. -/
  | next
  /-- The range loop ends: `chunkStream` is closed and empty. -/
  | drained
  /-- The goroutine of a task sends its chunk on `filterStream`. -/
  | send (effect chunk : Nat)
  /-- The goroutine of a task applies its effect. -/
  | filtered (effect chunk : Nat)
  /-- The goroutine of a task sends on `donefilterChunk` and the wait loop
  receives. -/
  | signal (effect chunk : Nat)
  /-- The wait loop is over: `filter` returns, the worker closes the stream and
  moves to the next effect. -/
  | ret
deriving DecidableEq

/-- One step of the worker on a task with `numEffects` effects: the successor
state, or `none` when the step is not enabled. A goroutine can only send on
the channels of the `filter` call that spawned it; the buffer of
`filterStream` holds `threads` chunks; a send on `donefilterChunk` needs the
wait loop to receive. -/
def workerStep (threads numEffects : Nat) (s : WorkerState) : WorkerEvent → Option WorkerState
  | WorkerEvent.next =>
    match s.waiting, s.chunkStream with
    | none, chunk :: rest =>
      if s.effectNum < numEffects then
        some { s with chunkStream := rest, spawnedLog := s.spawnedLog ++ [(s.effectNum, chunk)] }
      else none
    | _, _ => none
  | WorkerEvent.drained =>
    match s.waiting, s.chunkStream with
    | none, [] => if s.effectNum < numEffects then some { s with waiting := some 0 } else none
    | _, _ => none
  | WorkerEvent.send effect chunk =>
    if effect = s.effectNum ∧ s.sentLog.count (effect, chunk) < s.spawnedLog.count (effect, chunk)
        ∧ s.filterStream.length < threads then
      some { s with sentLog := s.sentLog ++ [(effect, chunk)],
                    filterStream := s.filterStream ++ [chunk] }
    else none
  | WorkerEvent.filtered effect chunk =>
    if s.appliedLog.count (effect, chunk) < s.sentLog.count (effect, chunk) then
      some { s with appliedLog := s.appliedLog ++ [(effect, chunk)] }
    else none
  | WorkerEvent.signal effect chunk =>
    match s.waiting with
    | some i =>
      if effect = s.effectNum ∧ i < threads ∧
          s.signalledLog.count (effect, chunk) < s.appliedLog.count (effect, chunk) then
        some { s with signalledLog := s.signalledLog ++ [(effect, chunk)], waiting := some (i + 1) }
      else none
    | none => none
  | WorkerEvent.ret =>
    match s.waiting with
    | some i =>
      if ¬ (i < threads) then
        some { s with effectNum := s.effectNum + 1, waiting := none,
                      chunkStream := s.filterStream, filterStream := [] }
      else none
    | none => none

/-- The state after a schedule (a list of steps), or `none` when one of its
steps is not enabled. -/
def workerRun (threads numEffects : Nat) : WorkerState → List WorkerEvent → Option WorkerState
  | s, [] => some s
  | s, e :: rest => (workerStep threads numEffects s e).bind fun s2 =>
      workerRun threads numEffects s2 rest

/-- The state in which the worker enters its effect loop: the chunks of
`SplitImage(threads)` wait in the chunk stream, numbered in order. -/
def workerInit (imgTask : ImageTask) (threads : Nat) : WorkerState :=
  ⟨0, none, List.range (imgTask.SplitImage threads).length, [], [], [], [], []⟩

/-- The invariant of the worker's schedule. -/
structure WorkerInv (threads : Nat) (s : WorkerState) : Prop where
  chain : ∀ x : Nat × Nat, s.signalledLog.count x ≤ s.appliedLog.count x ∧
    s.appliedLog.count x ≤ s.sentLog.count x ∧ s.sentLog.count x ≤ s.spawnedLog.count x
  nodup : s.spawnedLog.Nodup
  bound : ∀ x ∈ s.spawnedLog, x.1 ≤ s.effectNum ∧ x.2 < threads
  stream : s.chunkStream.Nodup ∧
    ∀ c ∈ s.chunkStream, c < threads ∧ (s.effectNum, c) ∉ s.spawnedLog
  sent : s.filterStream = (s.sentLog.filter fun x => decide (x.1 = s.effectNum)).map Prod.snd
  count : match s.waiting with
    | none => ∀ c : Nat, (s.effectNum, c) ∉ s.signalledLog
    | some i => i = (s.signalledLog.filter fun x => decide (x.1 = s.effectNum)).length
  past : ∀ k : Nat, k < s.effectNum → ∀ c : Nat, c < threads → (k, c) ∈ s.signalledLog

/-! ## Sample inputs -/

/-- A colour from four channel values. -/
def px (r g b a : Nat) : RGBA64 := ⟨U16.ofNat r, U16.ofNat g, U16.ofNat b, U16.ofNat a⟩

/-- The uniform image of one colour `c`, decoded to an image type whose `At`
returns `outside` beyond the bounds. -/
def uniformImage (w h : Nat) (c outside : RGBA64) : Surface :=
  decodedPNG w h (fun _ _ => c) outside

/-- A 1x10 opaque truecolour image whose red channel grows down the rows. -/
def columnImage : Surface :=
  decodedPNG 1 10 (fun _ y => px (1000 * (y.toNat + 1)) 3000 3000 65535) RGBA64.zero

/-- A 2x1 truecolour image with one bright and one black pixel. -/
def twoPixelImage : Surface :=
  decodedPNG 2 1 (fun x _ => if x = 0 then px 900 900 900 65535 else px 0 0 0 65535)
    RGBA64.zero

/-- A 1x1 indexed PNG whose only palette entry is the opaque grey `0x28`
(`0x2828 = 10280` on the 16-bit scale): its `At` returns that grey outside the
bounds. -/
def palettedPixel : Surface :=
  decodedPNG 1 1 (fun _ _ => px 10280 10280 10280 65535) (px 10280 10280 10280 65535)

/-! ## Lemmas: binary64 rounding -/

theorem log2Go_spec (j n : Nat) (h1 : 1 ≤ n) (h2 : n < 2 ^ 2 ^ j) :
    2 ^ log2Go j n ≤ n ∧ n < 2 ^ (log2Go j n + 1) := by
  induction j generalizing n with
  | zero =>
    have : n = 1 := by simp at h2; omega
    subst this
    simp [log2Go]
  | succ j ih =>
    have hP : 0 < 2 ^ 2 ^ j := Nat.pow_pos (by decide)
    have hsq : 2 ^ 2 ^ (j + 1) = 2 ^ 2 ^ j * 2 ^ 2 ^ j := by
      rw [pow_succ, ← pow_add]; congr 1; omega
    rw [log2Go]
    split
    · rename_i hle
      have hm1 : 1 ≤ n / 2 ^ 2 ^ j := (Nat.one_le_div_iff hP).2 hle
      have hm2 : n / 2 ^ 2 ^ j < 2 ^ 2 ^ j := by
        rw [Nat.div_lt_iff_lt_mul hP]; rw [hsq] at h2; exact h2
      obtain ⟨ihl, ihu⟩ := ih _ hm1 hm2
      constructor
      · rw [pow_add]
        calc 2 ^ 2 ^ j * 2 ^ log2Go j (n / 2 ^ 2 ^ j)
            ≤ 2 ^ 2 ^ j * (n / 2 ^ 2 ^ j) := Nat.mul_le_mul_left _ ihl
          _ ≤ n := Nat.mul_div_le n _
      · have : n < 2 ^ 2 ^ j * (n / 2 ^ 2 ^ j + 1) := by
          have := Nat.lt_mul_div_succ n hP
          simpa [Nat.mul_comm] using this
        calc n < 2 ^ 2 ^ j * (n / 2 ^ 2 ^ j + 1) := this
          _ ≤ 2 ^ 2 ^ j * 2 ^ (log2Go j (n / 2 ^ 2 ^ j) + 1) := Nat.mul_le_mul_left _ ihu
          _ = 2 ^ (2 ^ j + log2Go j (n / 2 ^ 2 ^ j) + 1) := by rw [← pow_add]; congr 1
    · rename_i hlt
      exact ih n h1 (by omega)

theorem ilog2_spec (n : Nat) (h1 : 1 ≤ n) (h2 : n < 2 ^ 4096) :
    2 ^ ilog2 n ≤ n ∧ n < 2 ^ (ilog2 n + 1) :=
  log2Go_spec 12 n h1 (by simpa using h2)

theorem ilog2_zero : ilog2 0 = 0 := by decide

theorem ilog2_lt_of_lt (n t : Nat) (h2 : n < 2 ^ t) (ht : t ≤ 4096) : ilog2 n < t ∨ n = 0 := by
  rcases Nat.eq_zero_or_pos n with h | h
  · right; exact h
  · left
    have hb : n < 2 ^ 4096 := lt_of_lt_of_le h2 (Nat.pow_le_pow_right (by decide) ht)
    have := (ilog2_spec n h hb).1
    have h3 : 2 ^ ilog2 n < 2 ^ t := lt_of_le_of_lt this h2
    exact (Nat.pow_lt_pow_iff_right (by decide)).1 h3

theorem rne_mul (m den : Nat) (hd : 0 < den) : rne (m * den) den = m := by
  simp [rne, Nat.mul_div_cancel _ hd, hd]

theorem rne_ge (num den m : Nat) (hd : 0 < den) (h : m * den ≤ num) : m ≤ rne num den := by
  have hq : m ≤ num / den := (Nat.le_div_iff_mul_le hd).2 h
  unfold rne
  simp only
  split
  · exact hq
  · split
    · omega
    · split <;> omega

theorem rne_le (num den m : Nat) (hd : 0 < den) (h : num ≤ m * den) : rne num den ≤ m := by
  have hq : num / den ≤ m := by
    calc num / den ≤ m * den / den := Nat.div_le_div_right h
      _ = m := Nat.mul_div_cancel _ hd
  have hdm := Nat.div_add_mod num den
  have hr := Nat.mod_lt num hd
  by_cases hlt : num / den < m
  · unfold rne; simp only; split
    · omega
    · split
      · omega
      · split <;> omega
  · have hqm : num / den = m := by omega
    have hr0 : num % den = 0 := by
      rw [hqm] at hdm
      have : den * m = m * den := Nat.mul_comm _ _
      omega
    unfold rne; simp only [hr0]; simp [hd, hqm]

/-- twice the distance from `rne num den * den` to `num` is at most `den`. -/
theorem rne_err (num den : Nat) (hd : 0 < den) :
    2 * (rne num den * den) ≤ 2 * num + den ∧ 2 * num ≤ 2 * (rne num den * den) + den := by
  have hdm := Nat.div_add_mod num den
  have hr := Nat.mod_lt num hd
  have e1 : (num / den + 1) * den = den * (num / den) + den := by ring
  have e2 : (num / den) * den = den * (num / den) := by ring
  unfold rne; simp only
  split
  · rw [e2]; omega
  · split
    · rw [e1]; omega
    · split
      · rw [e2]; omega
      · rw [e1]; omega

theorem roundUnits_of_repr (n t d : Nat) (hn : n < 2 ^ 53) (ht : t + 53 ≤ 4096) (hd : 0 < d) :
    roundUnits (n * 2 ^ t * d) d = n * 2 ^ t := by
  unfold roundUnits
  simp only [Nat.mul_div_cancel _ hd]
  have hV : n * 2 ^ t < 2 ^ (53 + t) := by
    rw [pow_add]; exact Nat.mul_lt_mul_of_pos_right hn (Nat.pow_pos (by decide))
  rcases ilog2_lt_of_lt _ _ hV (by omega) with hlt | h0
  · have hk : ilog2 (n * 2 ^ t) - 52 ≤ t := by omega
    generalize ilog2 (n * 2 ^ t) - 52 = k at hk
    obtain ⟨s, rfl⟩ := Nat.exists_eq_add_of_le hk
    have e : n * 2 ^ (k + s) * d = (n * 2 ^ s) * (d * 2 ^ k) := by rw [pow_add]; ring
    rw [e, rne_mul _ _ (Nat.mul_pos hd (Nat.pow_pos (by decide)))]
    rw [pow_add]; ring
  · rw [h0]; simp [rne, ilog2_zero]

theorem roundUnits_rel (num d : Nat) (hd : 0 < d) (hq : 2 ^ 53 ≤ num / d)
    (hb : num / d < 2 ^ 4096) :
    2 ^ 53 * (roundUnits num d * d) ≤ (2 ^ 53 + 1) * num ∧
      (2 ^ 53 - 1) * num ≤ 2 ^ 53 * (roundUnits num d * d) := by
  have hq1 : 1 ≤ num / d := le_trans (Nat.one_le_two_pow) hq
  obtain ⟨hlo, hhi⟩ := ilog2_spec _ hq1 hb
  have he : 53 ≤ ilog2 (num / d) := by
    have : 2 ^ 53 < 2 ^ (ilog2 (num / d) + 1) := lt_of_le_of_lt hq hhi
    have := (Nat.pow_lt_pow_iff_right (by decide)).1 this
    omega
  unfold roundUnits
  simp only
  obtain ⟨k, hk⟩ : ∃ k, ilog2 (num / d) = k + 52 := ⟨ilog2 (num / d) - 52, by omega⟩
  have hk2 : ilog2 (num / d) - 52 = k := by omega
  rw [hk2]
  have hD : 0 < d * 2 ^ k := Nat.mul_pos hd (Nat.pow_pos (by decide))
  obtain ⟨h1, h2⟩ := rne_err num (d * 2 ^ k) hD
  have hnum : 2 ^ 52 * (d * 2 ^ k) ≤ num := by
    calc 2 ^ 52 * (d * 2 ^ k) = d * 2 ^ (k + 52) := by rw [pow_add]; ring
      _ ≤ d * (num / d) := Nat.mul_le_mul_left _ (by rw [← hk]; exact hlo)
      _ ≤ num := Nat.mul_div_le _ _
  have e : rne num (d * 2 ^ k) * 2 ^ k * d = rne num (d * 2 ^ k) * (d * 2 ^ k) := by ring
  rw [e]
  generalize rne num (d * 2 ^ k) * (d * 2 ^ k) = P at h1 h2 ⊢
  generalize d * 2 ^ k = D at h1 h2 hnum
  constructor <;> omega

theorem roundInt_of_nonneg (z : Int) (d : Nat) (hz : 0 ≤ z) :
    roundInt z d = (roundUnits z.toNat d : Nat) := by
  simp [roundInt, hz]

theorem roundInt_ofNat (n d : Nat) : roundInt (n : Int) d = (roundUnits n d : Nat) := by
  simp [roundInt]

theorem roundInt_neg_ofNat (n d : Nat) : roundInt (-(n : Int)) d = -(roundUnits n d : Nat) := by
  rcases Nat.eq_zero_or_pos n with h | h
  · subst h; simp [roundInt, roundUnits, rne, ilog2_zero]
  · have : ¬ (0 ≤ -(n : Int)) := by omega
    simp [roundInt, this]

theorem roundInt_exact (z : Int) (d : Nat) (hd : 0 < d) (hz : z.natAbs < 2 ^ 53) :
    roundInt (z * unitsPerOne * d) d = z * unitsPerOne := by
  obtain ⟨n, rfl | rfl⟩ := Int.eq_nat_or_neg z
  · have hn : n < 2 ^ 53 := by simpa using hz
    have key := roundUnits_of_repr n 1074 d hn (by decide) hd
    have e : (n : Int) * unitsPerOne * d = ((n * 2 ^ 1074 * d : Nat) : Int) := by
      simp [unitsPerOne]
    rw [e, roundInt_ofNat, key]; simp [unitsPerOne]
  · have hn : n < 2 ^ 53 := by simpa using hz
    have key := roundUnits_of_repr n 1074 d hn (by decide) hd
    have e : -(n : Int) * unitsPerOne * d = -((n * 2 ^ 1074 * d : Nat) : Int) := by
      simp [unitsPerOne]
    rw [e, roundInt_neg_ofNat, key]; simp [unitsPerOne]

theorem ofInt_units (z : Int) (hz : z.natAbs < 2 ^ 53) :
    (F64.ofInt z).units = z * unitsPerOne := by
  have := roundInt_exact z 1 (by decide) hz
  simpa [F64.ofInt] using this

theorem div_units_nat (a b : Nat) (ha : a < 2 ^ 53) (hb : b < 2 ^ 53) (hb0 : 0 < b) :
    (F64.div (F64.ofInt a) (F64.ofInt b)).units =
      (roundUnits (a * unitsPerOne * unitsPerOne) (b * unitsPerOne) : Nat) := by
  have hSpos : 0 < unitsPerOne := Nat.pow_pos (by decide)
  have ua := ofInt_units (a : Int) (by simpa using ha)
  have ub := ofInt_units (b : Int) (by simpa using hb)
  unfold F64.div
  simp only [ua, ub]
  have hpos : (0 : Int) < (b : Int) * (unitsPerOne : Int) := by positivity
  rw [Int.sign_eq_one_of_pos hpos]
  have e1 : (a : Int) * unitsPerOne * unitsPerOne * 1 = ((a * unitsPerOne * unitsPerOne : Nat) : Int) := by
    push_cast; ring
  have e2 : ((b : Int) * (unitsPerOne : Int)).natAbs = b * unitsPerOne := by
    rw [Int.natAbs_mul]; simp
  rw [e1, e2, roundInt_ofNat]

/-- the binary64 quotient of `n` by 3 lies in `[n / 3, n / 3 + 1)`. -/
theorem div3_bracket (n : Nat) (hn : n < 2 ^ 52) :
    (n / 3) * unitsPerOne ≤ roundUnits (n * unitsPerOne * unitsPerOne) (3 * unitsPerOne) ∧
    roundUnits (n * unitsPerOne * unitsPerOne) (3 * unitsPerOne) < (n / 3 + 1) * unitsPerOne := by
  have hSpos : 0 < unitsPerOne := Nat.pow_pos (by decide)
  have hd : 0 < 3 * unitsPerOne := by omega
  by_cases h0 : n % 3 = 0
  · have e : n * unitsPerOne * unitsPerOne = (n / 3) * 2 ^ 1074 * (3 * unitsPerOne) := by
      have : n = 3 * (n / 3) := by omega
      conv_lhs => rw [this]
      simp only [unitsPerOne]; ring
    rw [e, roundUnits_of_repr (n / 3) 1074 _ (by omega) (by decide) hd]
    simp only [unitsPerOne]; omega
  · have hq : n * unitsPerOne * unitsPerOne / (3 * unitsPerOne) = n * unitsPerOne / 3 := by
      rw [Nat.mul_comm 3 unitsPerOne, ← Nat.div_div_eq_div_mul, Nat.mul_div_cancel _ hSpos]
    have hq1 : 2 ^ 53 ≤ n * unitsPerOne / 3 := by
      have hn1 : 1 ≤ n := by omega
      have h3 : 1 * 2 ^ 1074 / 3 ≤ n * 2 ^ 1074 / 3 :=
        Nat.div_le_div_right (Nat.mul_le_mul_right _ hn1)
      have : 2 ^ 53 ≤ n * 2 ^ 1074 / 3 := le_trans (by decide) h3
      simpa only [unitsPerOne] using this
    have hq2 : n * unitsPerOne / 3 < 2 ^ 4096 := by
      have h3 : n * 2 ^ 1074 / 3 ≤ 2 ^ 52 * 2 ^ 1074 / 3 :=
        Nat.div_le_div_right (Nat.mul_le_mul_right _ hn.le)
      have : n * 2 ^ 1074 / 3 < 2 ^ 4096 := lt_of_le_of_lt h3 (by decide)
      simpa only [unitsPerOne] using this
    have hrel := roundUnits_rel (n * unitsPerOne * unitsPerOne) (3 * unitsPerOne) hd
      (by rw [hq]; exact hq1) (by rw [hq]; exact hq2)
    generalize roundUnits (n * unitsPerOne * unitsPerOne) (3 * unitsPerOne) = R at hrel ⊢
    obtain ⟨h1, h2⟩ := hrel
    have c1 : 2 ^ 53 * (R * 3) ≤ (2 ^ 53 + 1) * (n * unitsPerOne) := by
      have : 2 ^ 53 * (R * (3 * unitsPerOne)) = (2 ^ 53 * (R * 3)) * unitsPerOne := by ring
      rw [this] at h1
      have : (2 ^ 53 + 1) * (n * unitsPerOne * unitsPerOne)
          = ((2 ^ 53 + 1) * (n * unitsPerOne)) * unitsPerOne := by ring
      rw [this] at h1
      exact Nat.le_of_mul_le_mul_right h1 hSpos
    have c2 : (2 ^ 53 - 1) * (n * unitsPerOne) ≤ 2 ^ 53 * (R * 3) := by
      have : 2 ^ 53 * (R * (3 * unitsPerOne)) = (2 ^ 53 * (R * 3)) * unitsPerOne := by ring
      rw [this] at h2
      have : (2 ^ 53 - 1) * (n * unitsPerOne * unitsPerOne)
          = ((2 ^ 53 - 1) * (n * unitsPerOne)) * unitsPerOne := by ring
      rw [this] at h2
      exact Nat.le_of_mul_le_mul_right h2 hSpos
    clear hq hq1 hq2 h1 h2
    obtain ⟨m, r, hr, rfl⟩ : ∃ m r, (r = 1 ∨ r = 2) ∧ n = 3 * m + r :=
      ⟨n / 3, n % 3, by omega, by omega⟩
    have hm : (3 * m + r) / 3 = m := by omega
    rw [hm]
    simp only [unitsPerOne] at c1 c2 ⊢
    constructor <;> omega

theorem toInt_of_bracket (x : F64) (R m : Nat) (hx : x.units = (R : Int))
    (h1 : m * unitsPerOne ≤ R) (h2 : R < (m + 1) * unitsPerOne) : x.toInt = m := by
  unfold F64.toInt
  rw [hx, ← Int.ofNat_tdiv]
  congr 1
  simp only [unitsPerOne] at h1 h2 ⊢
  omega

theorem ofInt_zero_units : (F64.ofInt 0).units = 0 := by
  have := ofInt_units 0 (by decide); simpa using this

theorem ofInt_65535_units : (F64.ofInt 65535).units = 65535 * (unitsPerOne : Int) :=
  ofInt_units 65535 (by decide)

theorem clamp_inner_units (comp : F64) :
    (F64.min (F64.ofInt 65535) (F64.max (F64.ofInt 0) comp)).units =
      min (65535 * (unitsPerOne : Int)) (max 0 comp.units) := by
  unfold F64.min F64.max
  rw [ofInt_zero_units, ofInt_65535_units]
  by_cases h0 : 0 ≤ comp.units
  · simp only [h0, if_true, max_eq_right h0]
    by_cases h1 : 65535 * (unitsPerOne : Int) ≤ comp.units
    · simp [h1, ofInt_65535_units]
    · have : comp.units ≤ 65535 * (unitsPerOne : Int) := by omega
      simp [h1, min_eq_right this]
  · have hneg : comp.units ≤ 0 := by omega
    have hS : (0 : Int) ≤ 65535 * (unitsPerOne : Int) := by positivity
    simp only [h0, if_false, max_eq_left hneg, ofInt_zero_units]
    by_cases h1 : 65535 * (unitsPerOne : Int) ≤ 0
    · have : 65535 * (unitsPerOne : Int) = 0 := by omega
      simp [h1, ofInt_65535_units, this]
    · simp [h1, ofInt_zero_units, min_eq_right hS]

/-- value of `clamp`: the integer part of the saturated value. -/
theorem clamp_val (comp : F64) :
    (clamp comp).val =
      (min (65535 * (unitsPerOne : Int)) (max 0 comp.units)).toNat / unitsPerOne := by
  unfold clamp F64.toUint16 F64.toInt U16.ofNat
  rw [clamp_inner_units]
  generalize hv : min (65535 * (unitsPerOne : Int)) (max 0 comp.units) = v
  have hv0 : 0 ≤ v := by rw [← hv]; exact le_min (by positivity) (le_max_left _ _)
  have hv1 : v ≤ 65535 * (unitsPerOne : Int) := by rw [← hv]; exact min_le_left _ _
  obtain ⟨n, rfl⟩ := Int.eq_ofNat_of_zero_le hv0
  rw [← Int.ofNat_tdiv]
  simp only [Int.toNat_ofNat]
  have hSpos : 0 < unitsPerOne := Nat.pow_pos (by decide)
  have hn : n ≤ 65535 * unitsPerOne := by exact_mod_cast hv1
  have : n / unitsPerOne < 65536 := by
    rw [Nat.div_lt_iff_lt_mul hSpos]; omega
  exact Nat.mod_eq_of_lt this

theorem clamp_of_neg (comp : F64) (h : comp.units ≤ 0) : clamp comp = 0 := by
  apply Fin.ext
  rw [clamp_val, max_eq_left h]
  have hS : (0 : Int) ≤ 65535 * (unitsPerOne : Int) := by positivity
  rw [min_eq_right hS]; simp

theorem clamp_of_large (comp : F64) (h : 65535 * (unitsPerOne : Int) ≤ comp.units) :
    clamp comp = 65535 := by
  apply Fin.ext
  have hS : (0 : Int) ≤ 65535 * (unitsPerOne : Int) := by positivity
  rw [clamp_val, max_eq_right (le_trans hS h), min_eq_left h]
  have : (65535 * (unitsPerOne : Int)).toNat = 65535 * unitsPerOne := by
    have : 65535 * (unitsPerOne : Int) = ((65535 * unitsPerOne : Nat) : Int) := by push_cast; ring
    rw [this, Int.toNat_ofNat]
  have hSpos : 0 < unitsPerOne := Nat.pow_pos (by decide)
  rw [this, Nat.mul_div_cancel _ hSpos]
  rfl

theorem clamp_of_bracket (comp : F64) (R m : Nat) (hx : comp.units = (R : Int))
    (hm : m ≤ 65535) (h1 : m * unitsPerOne ≤ R) (h2 : R < (m + 1) * unitsPerOne) :
    (clamp comp).val = m := by
  rw [clamp_val, hx]
  have h0 : max (0 : Int) (R : Int) = R := max_eq_right (by positivity)
  rw [h0]
  have hR : (R : Int) ≤ 65535 * (unitsPerOne : Int) ∨ 65535 * (unitsPerOne : Int) < R := le_or_lt _ _
  simp only [unitsPerOne] at h1 h2 hR ⊢
  rcases hR with hR | hR
  · rw [min_eq_right hR]; simp only [Int.toNat_ofNat]; omega
  · have : m = 65535 := by omega
    subst this
    rw [min_eq_left hR.le]
    have e : (65535 * ((2 ^ 1074 : Nat) : Int)).toNat = 65535 * 2 ^ 1074 := by
      have : 65535 * ((2 ^ 1074 : Nat) : Int) = ((65535 * 2 ^ 1074 : Nat) : Int) := by push_cast
      rw [this, Int.toNat_ofNat]
    rw [e]; omega

/-- the grey level that `Grayscale` stores: the truncated mean. -/
theorem clamp_div3 (n : Nat) (hn : n ≤ 196605) :
    clamp (F64.div (F64.ofInt (n : Int)) (F64.ofInt 3)) = U16.ofNat (n / 3) := by
  have hb := div3_bracket n (by omega)
  have hu := div_units_nat n 3 (by omega) (by decide) (by decide)
  have := clamp_of_bracket _ _ (n / 3) hu (by omega) hb.1 hb.2
  simp only [Nat.cast_ofNat] at this
  apply Fin.ext
  rw [this]
  show n / 3 = n / 3 % 65536
  omega

theorem ceilDiv_cases (h N : Nat) (hN : 0 < N) :
    (h + N - 1) / N = if h % N = 0 then h / N else h / N + 1 := by
  have hdm := Nat.div_add_mod h N
  have hr := Nat.mod_lt h hN
  generalize h / N = m at hdm ⊢
  generalize h % N = r at hdm hr ⊢
  have e1 : (m + 1) * N = N * m + N := by ring
  have e2 : (m + 1 + 1) * N = N * m + N + N := by ring
  have e0 : m * N = N * m := by ring
  split
  · apply Nat.div_eq_of_lt_le
    · rw [e0]; omega
    · rw [e1]; omega
  · apply Nat.div_eq_of_lt_le
    · rw [e1]; omega
    · rw [e2]; omega

theorem ceil_toInt_of_exact (x : F64) (m : Nat) (hx : x.units = (m : Int) * unitsPerOne) :
    (F64.ceil x).toInt = m := by
  have hS : (unitsPerOne : Int) ≠ 0 := by
    have : 0 < unitsPerOne := Nat.pow_pos (by decide)
    omega
  unfold F64.toInt F64.ceil
  simp only [hx]
  have : -((m : Int) * unitsPerOne) = (-(m : Int)) * unitsPerOne := by ring
  rw [this, Int.mul_ediv_cancel _ hS, neg_neg, Int.mul_tdiv_cancel _ hS]

theorem ceil_toInt_of_bracket (x : F64) (R m : Nat) (hx : x.units = (R : Int))
    (h1 : m * unitsPerOne < R) (h2 : R ≤ (m + 1) * unitsPerOne) :
    (F64.ceil x).toInt = m + 1 := by
  have hS : (unitsPerOne : Int) ≠ 0 := by
    have : 0 < unitsPerOne := Nat.pow_pos (by decide)
    omega
  unfold F64.toInt F64.ceil
  simp only [hx]
  have : -(-(R : Int) / (unitsPerOne : Int)) = (m : Int) + 1 := by
    simp only [unitsPerOne] at h1 h2 ⊢
    push_cast
    omega
  rw [this, Int.mul_tdiv_cancel _ hS]

/-- the float computation of `pixelChunk` is the exact ceiling of `yPixels / threads`. -/
theorem pixelChunkOf_eq (h N : Nat) (hh : h < 2 ^ 52) (hN : 0 < N) (hN2 : N < 2 ^ 52) :
    pixelChunkOf h N = (((h + N - 1) / N : Nat) : Int) := by
  have hSpos : 0 < unitsPerOne := Nat.pow_pos (by decide)
  have hd : 0 < N * unitsPerOne := Nat.mul_pos hN hSpos
  have hu := div_units_nat h N (by omega) (by omega) hN
  unfold pixelChunkOf
  rw [ceilDiv_cases h N hN]
  have hdm := Nat.div_add_mod h N
  have hr := Nat.mod_lt h hN
  have hmle : h / N ≤ h := Nat.div_le_self _ _
  by_cases h0 : h % N = 0
  · rw [if_pos h0]
    have e : h * unitsPerOne * unitsPerOne = (h / N) * 2 ^ 1074 * (N * unitsPerOne) := by
      have : h = N * (h / N) := by omega
      conv_lhs => rw [this]
      simp only [unitsPerOne]; ring
    rw [e, roundUnits_of_repr (h / N) 1074 _ (by omega) (by decide) hd] at hu
    exact ceil_toInt_of_exact _ _ (by rw [hu]; simp [unitsPerOne])
  · rw [if_neg h0]
    have hh1 : 1 ≤ h := by
      rcases Nat.eq_zero_or_pos h with hz | hz
      · subst hz; simp at h0
      · exact hz
    have hq : h * unitsPerOne * unitsPerOne / (N * unitsPerOne) = h * unitsPerOne / N := by
      rw [Nat.mul_comm N unitsPerOne, ← Nat.div_div_eq_div_mul, Nat.mul_div_cancel _ hSpos]
    have hq1 : 2 ^ 53 ≤ h * unitsPerOne / N := by
      rw [Nat.le_div_iff_mul_le hN]
      calc 2 ^ 53 * N ≤ 2 ^ 53 * 2 ^ 52 := Nat.mul_le_mul_left _ hN2.le
        _ ≤ 1 * unitsPerOne := by simp only [unitsPerOne]; decide
        _ ≤ h * unitsPerOne := Nat.mul_le_mul_right _ hh1
    have hq2 : h * unitsPerOne / N < 2 ^ 4096 := by
      calc h * unitsPerOne / N ≤ h * unitsPerOne := Nat.div_le_self _ _
        _ ≤ 2 ^ 52 * unitsPerOne := Nat.mul_le_mul_right _ hh.le
        _ < 2 ^ 4096 := by simp only [unitsPerOne]; decide
    have hrel := roundUnits_rel (h * unitsPerOne * unitsPerOne) (N * unitsPerOne) hd
      (by rw [hq]; exact hq1) (by rw [hq]; exact hq2)
    generalize roundUnits (h * unitsPerOne * unitsPerOne) (N * unitsPerOne) = R at hrel hu
    obtain ⟨r1, r2⟩ := hrel
    have c1 : 2 ^ 53 * (R * N) ≤ (2 ^ 53 + 1) * (h * unitsPerOne) := by
      have e1 : 2 ^ 53 * (R * (N * unitsPerOne)) = (2 ^ 53 * (R * N)) * unitsPerOne := by ring
      have e2 : (2 ^ 53 + 1) * (h * unitsPerOne * unitsPerOne)
          = ((2 ^ 53 + 1) * (h * unitsPerOne)) * unitsPerOne := by ring
      rw [e1, e2] at r1
      exact Nat.le_of_mul_le_mul_right r1 hSpos
    have c2 : (2 ^ 53 - 1) * (h * unitsPerOne) ≤ 2 ^ 53 * (R * N) := by
      have e1 : 2 ^ 53 * (R * (N * unitsPerOne)) = (2 ^ 53 * (R * N)) * unitsPerOne := by ring
      have e2 : (2 ^ 53 - 1) * (h * unitsPerOne * unitsPerOne)
          = ((2 ^ 53 - 1) * (h * unitsPerOne)) * unitsPerOne := by ring
      rw [e1, e2] at r2
      exact Nat.le_of_mul_le_mul_right r2 hSpos
    clear r1 r2 hq hq1 hq2
    generalize h / N = m at hdm hmle ⊢
    generalize h % N = r at hdm hr h0
    have hr1 : 1 ≤ r := Nat.pos_of_ne_zero h0
    apply ceil_toInt_of_bracket _ R m hu
    · by_contra hcon
      have hle : R ≤ m * unitsPerOne := by omega
      have h3 : R * N ≤ (N * m) * unitsPerOne := by
        calc R * N ≤ m * unitsPerOne * N := Nat.mul_le_mul_right _ hle
          _ = (N * m) * unitsPerOne := by ring
      generalize R * N = RN at c1 c2 h3
      generalize N * m = Nm at hdm h3
      simp only [unitsPerOne] at c1 c2 h3
      omega
    · by_contra hcon
      have hle : (m + 1) * unitsPerOne + 1 ≤ R := by omega
      have h3 : (N * m + N) * unitsPerOne + N ≤ R * N := by
        calc (N * m + N) * unitsPerOne + N = ((m + 1) * unitsPerOne + 1) * N := by ring
          _ ≤ R * N := Nat.mul_le_mul_right _ hle
      generalize R * N = RN at c1 c2 h3
      generalize N * m = Nm at hdm h3
      simp only [unitsPerOne] at c1 c2 h3
      omega

/-! ## Lemmas: loops and filters -/

theorem forRange_of_le {σ : Type} (lo hi : Int) (body : Int → σ → σ) (s : σ) (h : hi ≤ lo) :
    forRange lo hi body s = s := by
  have : (hi - lo).toNat = 0 := by omega
  simp [forRange, this]

theorem forRange_succ {σ : Type} (lo hi : Int) (body : Int → σ → σ) (s : σ) (h : lo ≤ hi) :
    forRange lo (hi + 1) body s = body hi (forRange lo hi body s) := by
  have e : (hi + 1 - lo).toNat = (hi - lo).toNat + 1 := by omega
  have e2 : lo + ((hi - lo).toNat : Int) = hi := by omega
  unfold forRange
  rw [e, List.range_succ, List.foldl_append]
  simp only [List.foldl_cons, List.foldl_nil]
  rw [e2]

theorem forRange_induct {σ : Type} (P : Int → σ → Prop) (lo hi : Int) (body : Int → σ → σ)
    (s : σ) (hle : lo ≤ hi) (h0 : P lo s)
    (hstep : ∀ i st, lo ≤ i → i < hi → P i st → P (i + 1) (body i st)) :
    P hi (forRange lo hi body s) := by
  obtain ⟨n, rfl⟩ : ∃ n : Nat, hi = lo + n := ⟨(hi - lo).toNat, by omega⟩
  clear hle
  induction n with
  | zero => simpa [forRange_of_le] using h0
  | succ n ih =>
    have e : lo + ((n + 1 : Nat) : Int) = (lo + n) + 1 := by push_cast; ring
    rw [e, forRange_succ _ _ _ _ (by omega)]
    apply hstep _ _ (by omega) (by omega)
    exact ih (fun i st h1 h2 hp => hstep i st h1 (by omega) hp)

theorem forRange_some {σ : Type} (H : Int → Option σ → Option σ) (G : Int → σ → σ)
    (hH : ∀ i s, H i (some s) = some (G i s)) (lo hi : Int) (s : σ) :
    forRange lo hi H (some s) = some (forRange lo hi G s) := by
  rcases le_or_lt lo hi with hle | hlt
  · obtain ⟨n, rfl⟩ : ∃ n : Nat, hi = lo + n := ⟨(hi - lo).toNat, by omega⟩
    induction n with
    | zero => simp [forRange_of_le]
    | succ n ih =>
      have e : lo + ((n + 1 : Nat) : Int) = (lo + n) + 1 := by push_cast; ring
      rw [e, forRange_succ _ _ _ _ (by omega), forRange_succ _ _ _ _ (by omega),
        ih (by omega), hH]
  · rw [forRange_of_le _ _ _ _ hlt.le, forRange_of_le _ _ _ _ hlt.le]

theorem forRange_congr {σ : Type} (F G : Int → σ → σ) (lo hi : Int) (s : σ)
    (h : ∀ i st, lo ≤ i → i < hi → F i st = G i st) :
    forRange lo hi F s = forRange lo hi G s := by
  rcases le_or_lt lo hi with hle | hlt
  · obtain ⟨n, rfl⟩ : ∃ n : Nat, hi = lo + n := ⟨(hi - lo).toNat, by omega⟩
    induction n with
    | zero => simp [forRange_of_le]
    | succ n ih =>
      have e : lo + ((n + 1 : Nat) : Int) = (lo + n) + 1 := by push_cast; ring
      rw [e, forRange_succ _ _ _ _ (by omega), forRange_succ _ _ _ _ (by omega),
        ih (fun i st h1 h2 => h i st h1 (by omega)) (by omega), h _ _ (by omega) (by omega)]
  · rw [forRange_of_le _ _ _ _ hlt.le, forRange_of_le _ _ _ _ hlt.le]

theorem fill_row (im0 : Image) (f : Surface → Int → Int → RGBA64) (y : Int)
    (hy1 : im0.out.Rect.Min.Y ≤ y) (hy2 : y < im0.out.Rect.Max.Y) :
    forRange im0.out.Rect.Min.X im0.out.Rect.Max.X (fun x im =>
        { im with out := im.out.Set x y (f im.in_ x y) }) im0
    = ⟨im0.in_, ⟨im0.out.Rect, fun x2 y2 =>
        if y2 = y ∧ im0.out.Rect.Min.X ≤ x2 ∧ x2 < im0.out.Rect.Max.X then f im0.in_ x2 y2
        else im0.out.Pix x2 y2, im0.out.Outside⟩⟩ := by
  rcases le_or_lt im0.out.Rect.Min.X im0.out.Rect.Max.X with hle | hlt
  · have key := forRange_induct
      (fun x im => im = (⟨im0.in_, ⟨im0.out.Rect, fun x2 y2 =>
        if y2 = y ∧ im0.out.Rect.Min.X ≤ x2 ∧ x2 < x then f im0.in_ x2 y2
        else im0.out.Pix x2 y2, im0.out.Outside⟩⟩ : Image))
      im0.out.Rect.Min.X im0.out.Rect.Max.X
      (fun x im => { im with out := im.out.Set x y (f im.in_ x y) }) im0 hle
      (by
        show im0 = _
        have : (fun x2 y2 => if y2 = y ∧ im0.out.Rect.Min.X ≤ x2 ∧ x2 < im0.out.Rect.Min.X
            then f im0.in_ x2 y2 else im0.out.Pix x2 y2) = im0.out.Pix := by
          funext x2 y2
          rw [if_neg]; omega
        rw [this])
      (by
        intro x st hx1 hx2 hst
        subst hst
        have hin : (Point.mk x y).In im0.out.Rect = true := by
          simp [Point.In, hx1, hx2, hy1, hy2]
        simp only [Surface.Set, hin, if_true]
        congr 2
        funext x2 y2
        by_cases h1 : x2 = x ∧ y2 = y
        · obtain ⟨rfl, rfl⟩ := h1
          rw [if_pos ⟨rfl, rfl⟩, if_pos ⟨rfl, hx1, by omega⟩]
        · rw [if_neg h1]
          by_cases h2 : y2 = y ∧ im0.out.Rect.Min.X ≤ x2 ∧ x2 < x
          · rw [if_pos h2, if_pos ⟨h2.1, h2.2.1, by omega⟩]
          · rw [if_neg h2, if_neg]
            intro h3
            apply h2
            refine ⟨h3.1, h3.2.1, ?_⟩
            have : x2 ≠ x := fun hx => h1 ⟨hx, h3.1⟩
            omega)
    exact key
  · rw [forRange_of_le _ _ _ _ hlt.le]
    have : (fun x2 y2 => if y2 = y ∧ im0.out.Rect.Min.X ≤ x2 ∧ x2 < im0.out.Rect.Max.X
        then f im0.in_ x2 y2 else im0.out.Pix x2 y2) = im0.out.Pix := by
      funext x2 y2
      rw [if_neg]; omega
    rw [this]

/-- The nested pixel loops of both filters: every pixel of the output bounds is
set to `f x y`. -/
theorem fill_loops (img : Image) (f : Surface → Int → Int → RGBA64) :
    forRange img.out.Rect.Min.Y img.out.Rect.Max.Y (fun y st =>
      forRange img.out.Rect.Min.X img.out.Rect.Max.X (fun x im =>
        { im with out := im.out.Set x y (f im.in_ x y) }) st) img
    = ⟨img.in_, ⟨img.out.Rect, fun x y =>
        if (Point.mk x y).In img.out.Rect then f img.in_ x y else img.out.Pix x y, img.out.Outside⟩⟩ := by
  rcases le_or_lt img.out.Rect.Min.Y img.out.Rect.Max.Y with hle | hlt
  · have key := forRange_induct
      (fun y im => im = (⟨img.in_, ⟨img.out.Rect, fun x2 y2 =>
        if (img.out.Rect.Min.Y ≤ y2 ∧ y2 < y) ∧ img.out.Rect.Min.X ≤ x2 ∧
            x2 < img.out.Rect.Max.X then f img.in_ x2 y2
        else img.out.Pix x2 y2, img.out.Outside⟩⟩ : Image))
      img.out.Rect.Min.Y img.out.Rect.Max.Y
      (fun y st => forRange img.out.Rect.Min.X img.out.Rect.Max.X (fun x im =>
        { im with out := im.out.Set x y (f im.in_ x y) }) st) img hle
      (by
        show img = _
        have : (fun x2 y2 => if (img.out.Rect.Min.Y ≤ y2 ∧ y2 < img.out.Rect.Min.Y) ∧
            img.out.Rect.Min.X ≤ x2 ∧ x2 < img.out.Rect.Max.X
            then f img.in_ x2 y2 else img.out.Pix x2 y2) = img.out.Pix := by
          funext x2 y2
          rw [if_neg]; omega
        rw [this])
      (by
        intro y st hy1 hy2 hst
        subst hst
        have := fill_row (⟨img.in_, ⟨img.out.Rect, fun x2 y2 =>
          if (img.out.Rect.Min.Y ≤ y2 ∧ y2 < y) ∧ img.out.Rect.Min.X ≤ x2 ∧
            x2 < img.out.Rect.Max.X then f img.in_ x2 y2
          else img.out.Pix x2 y2, img.out.Outside⟩⟩ : Image) f y hy1 hy2
        simp only at this
        show forRange _ _ _ _ = _
        rw [this]
        congr 2
        funext x2 y2
        by_cases h1 : y2 = y ∧ img.out.Rect.Min.X ≤ x2 ∧ x2 < img.out.Rect.Max.X
        · rw [if_pos h1, if_pos ⟨⟨by omega, by omega⟩, h1.2⟩]
        · rw [if_neg h1]
          by_cases h2 : (img.out.Rect.Min.Y ≤ y2 ∧ y2 < y) ∧ img.out.Rect.Min.X ≤ x2 ∧
              x2 < img.out.Rect.Max.X
          · rw [if_pos h2, if_pos ⟨⟨h2.1.1, by omega⟩, h2.2⟩]
          · rw [if_neg h2, if_neg]
            intro h3
            by_cases h4 : y2 = y
            · exact h1 ⟨h4, h3.2⟩
            · exact h2 ⟨⟨h3.1.1, by omega⟩, h3.2⟩)
    rw [key]
    congr 2
    funext x2 y2
    have : (Point.mk x2 y2).In img.out.Rect = true ↔
        ((img.out.Rect.Min.Y ≤ y2 ∧ y2 < img.out.Rect.Max.Y) ∧ img.out.Rect.Min.X ≤ x2 ∧
          x2 < img.out.Rect.Max.X) := by
      simp [Point.In]; tauto
    by_cases h : (Point.mk x2 y2).In img.out.Rect = true
    · rw [if_pos h, if_pos (this.1 h)]
    · rw [if_neg h, if_neg (fun h2 => h (this.2 h2))]
  · rw [forRange_of_le _ _ _ _ hlt.le]
    have : (fun x y => if (Point.mk x y).In img.out.Rect then f img.in_ x y else img.out.Pix x y)
        = img.out.Pix := by
      funext x2 y2
      rw [if_neg]
      simp [Point.In]; intros; omega
    rw [this]

theorem roundUnits_zero (d : Nat) : roundUnits 0 d = 0 := by
  simp [roundUnits, rne, ilog2_zero]

theorem mul_zero_left (k : F64) : F64.mul (F64.ofInt 0) k = F64.ofInt 0 := by
  have h0 := ofInt_zero_units
  have : (F64.ofInt 0) = ⟨0⟩ := by
    cases h : F64.ofInt 0; simp_all
  rw [this]
  simp [F64.mul, roundInt, roundUnits_zero]

theorem forRange_three {σ : Type} (body : Int → σ → σ) (s : σ) :
    forRange 0 3 body s = body 2 (body 1 (body 0 s)) := rfl

theorem forRange_zero {σ : Type} (body : Int → σ → σ) (s : σ) :
    forRange 0 0 body s = s := rfl

theorem kernelAt_rows (K : Fin 3 → Fin 3 → F64) :
    kernelAt (kernelRows K) 0 0 = some (K 0 0) ∧ kernelAt (kernelRows K) 0 1 = some (K 0 1) ∧
    kernelAt (kernelRows K) 0 2 = some (K 0 2) ∧ kernelAt (kernelRows K) 1 0 = some (K 1 0) ∧
    kernelAt (kernelRows K) 1 1 = some (K 1 1) ∧ kernelAt (kernelRows K) 1 2 = some (K 1 2) ∧
    kernelAt (kernelRows K) 2 0 = some (K 2 0) ∧ kernelAt (kernelRows K) 2 1 = some (K 2 1) ∧
    kernelAt (kernelRows K) 2 2 = some (K 2 2) :=
  ⟨rfl, rfl, rfl, rfl, rfl, rfl, rfl, rfl, rfl⟩

theorem convAccumulate_three (s : Surface) (K : Fin 3 → Fin 3 → F64) (x y : Int) :
    convAccumulate s (kernelRows K) 3 x y =
      some ⟨codeConvSum s (fun c => c.R) K x y, codeConvSum s (fun c => c.G) K x y,
        codeConvSum s (fun c => c.B) K x y⟩ := by
  obtain ⟨k00, k01, k02, k10, k11, k12, k20, k21, k22⟩ := kernelAt_rows K
  unfold convAccumulate
  simp only [forRange_three, k00, k01, k02, k10, k11, k12, k20, k21, k22,
    Option.map_some', Option.some_bind]
  rfl

theorem U16_ofNat_val (c : U16) : U16.ofNat c.val = c := by
  apply Fin.ext
  show c.val % 65536 = c.val
  exact Nat.mod_eq_of_lt c.isLt

theorem Grayscale_eq (img : Image) :
    img.Grayscale = ⟨img.in_, ⟨img.out.Rect, fun x y =>
      if (Point.mk x y).In img.out.Rect then
        (let c := img.in_.At x y
         let greyC := clamp (F64.div
           (F64.ofInt (((c.R.val + c.G.val + c.B.val) % 4294967296 : Nat) : Int)) (F64.ofInt 3))
         (⟨greyC, greyC, greyC, U16.ofNat c.A.val⟩ : RGBA64))
      else img.out.Pix x y, img.out.Outside⟩⟩ :=
  fill_loops img (fun s x y =>
    let c := s.At x y
    let greyC := clamp (F64.div
      (F64.ofInt (((c.R.val + c.G.val + c.B.val) % 4294967296 : Nat) : Int)) (F64.ofInt 3))
    ⟨greyC, greyC, greyC, U16.ofNat c.A.val⟩)

theorem Convolute_eq (img : Image) (kernel : List (List F64)) (kernelLength : Int)
    (A : Surface → Int → Int → Acc)
    (hA : ∀ s x y, convAccumulate s kernel kernelLength x y = some (A s x y)) :
    img.Convolute kernel kernelLength = some ⟨img.in_, ⟨img.out.Rect, fun x y =>
      if (Point.mk x y).In img.out.Rect then
        ⟨clamp (A img.in_ x y).r, clamp (A img.in_ x y).g, clamp (A img.in_ x y).b,
          (img.in_.At x y).A⟩
      else img.out.Pix x y, img.out.Outside⟩⟩ := by
  unfold Image.Convolute
  simp only [Surface.Bounds]
  rw [forRange_some _
    (fun y st => forRange img.out.Rect.Min.X img.out.Rect.Max.X (fun x im =>
      (Image.mk im.in_ (im.out.Set x y
          (RGBA64.mk (clamp (A im.in_ x y).r) (clamp (A im.in_ x y).g) (clamp (A im.in_ x y).b)
            (im.in_.At x y).A)))) st)]
  · rw [fill_loops img (fun s x y =>
      ⟨clamp (A s x y).r, clamp (A s x y).g, clamp (A s x y).b, (s.At x y).A⟩)]
  · intro y st
    rw [forRange_some]
    intro x im
    simp only [Option.some_bind, hA, Option.map_some', U16_ofNat_val]

/-! ## Lemmas: splitting -/

theorem foldl_append_singleton {α β : Type} (f : α → β) (l : List α) (init : List β) :
    l.foldl (fun st i => st ++ [f i]) init = init ++ l.map f := by
  induction l generalizing init with
  | nil => simp
  | cons a l ih => simp [ih]

theorem forRange_collect {β : Type} (g : Int → β) (n : Nat) :
    forRange 0 (n : Int) (fun i acc => acc ++ [g i]) [] = (List.range n).map (fun i : Nat => g i) := by
  unfold forRange
  have e : ((n : Int) - 0).toNat = n := by omega
  rw [e]
  have := foldl_append_singleton (fun i : Nat => g (0 + (i : Int))) (List.range n) []
  simp only [List.nil_append] at this
  rw [this]
  apply List.map_congr_left
  intro i _
  simp

/-- the chunk that `SplitImage` builds for index `i`. -/
theorem SplitImage_eq (imgTask : ImageTask) (n : Nat) :
    imgTask.SplitImage n = (List.range n).map (fun i : Nat =>
      let p := chunkPadded n i
        (chunkUnpadded imgTask.Img.GetYPixels (pixelChunkOf imgTask.Img.GetYPixels n) n i)
      (⟨imgTask.InPath, imgTask.OutPath, imgTask.Effects, imgTask.Img.GrabChunk p.2.1 p.2.2,
        p.2.1, p.2.2, p.1⟩ : ImageTask)) := by
  unfold ImageTask.SplitImage
  exact forRange_collect _ n

theorem SplitImage_length (imgTask : ImageTask) (n : Nat) :
    (imgTask.SplitImage n).length = n := by
  rw [SplitImage_eq]; simp

theorem SplitImage_get (imgTask : ImageTask) (n i : Nat) (hi : i < n) :
    (imgTask.SplitImage n)[i]? = some
      (let p := chunkPadded n i
        (chunkUnpadded imgTask.Img.GetYPixels (pixelChunkOf imgTask.Img.GetYPixels n) n i)
      (⟨imgTask.InPath, imgTask.OutPath, imgTask.Effects, imgTask.Img.GrabChunk p.2.1 p.2.2,
        p.2.1, p.2.2, p.1⟩ : ImageTask)) := by
  rw [SplitImage_eq]
  simp [List.getElem?_map, List.getElem?_range hi]

theorem cover_nat (h N p y : Nat) (hN : 1 ≤ N) (hp : 0 < p) (hy : y < h) :
    ∃! i, i < N ∧ i * p ≤ y ∧ y < (if i = N - 1 then h else (i + 1) * p) := by
  have hle : ∀ j, j * p ≤ y ↔ j ≤ y / p := fun j => (Nat.le_div_iff_mul_le hp).symm
  have hlt : ∀ j, y < (j + 1) * p ↔ y / p < j + 1 := fun j => (Nat.div_lt_iff_lt_mul hp).symm
  by_cases hc : y / p < N - 1
  · refine ⟨y / p, ⟨by omega, (hle _).2 le_rfl, ?_⟩, ?_⟩
    · rw [if_neg (by omega)]; exact (hlt _).2 (by omega)
    · rintro j ⟨hj, hj1, hj2⟩
      have h1 := (hle j).1 hj1
      by_cases hjl : j = N - 1
      · omega
      · rw [if_neg hjl] at hj2
        have := (hlt j).1 hj2
        omega
  · refine ⟨N - 1, ⟨by omega, (hle _).2 (by omega), ?_⟩, ?_⟩
    · rw [if_pos rfl]; exact hy
    · rintro j ⟨hj, hj1, hj2⟩
      by_cases hjl : j = N - 1
      · exact hjl
      · rw [if_neg hjl] at hj2
        have := (hlt j).1 hj2
        omega

theorem ceilDiv_pos (h N : Nat) (hN : 0 < N) (hh : 0 < h) : 0 < (h + N - 1) / N := by
  apply Nat.div_pos (by omega) hN

/-! ## Parallel against sequential (C1, C2) -/

/-- C1 (failing inputs): the parallel pipeline differs from the sequential one.
On the 1x10 column image with effect list `[G]` and 4 chunks, row 3 of the
parallel output is left blank while the sequential output holds grey level
3333. On the uniform 1x10 image of colour 1 with five Sharpen effects and 2
chunks (no chunk is clipped), row 4 is 245 in parallel and 244 sequentially. -/
theorem parallel_differs_from_sequential :
    (runParallel 4 (CreateImageTask "in.png" "out.png" ["G"] columnImage)).map
        (fun s => s.At 0 3) = some RGBA64.zero ∧
    (runSequential (CreateImageTask "in.png" "out.png" ["G"] columnImage)).map
        (fun s => s.At 0 3) = some (px 3333 3333 3333 65535) ∧
    (runParallel 2 (CreateImageTask "in.png" "out.png" ["S", "S", "S", "S", "S"]
        (uniformImage 1 10 (px 1 1 1 65535) RGBA64.zero))).map
        (fun s => s.At 0 4) = some (px 245 245 245 65535) ∧
    (runSequential (CreateImageTask "in.png" "out.png" ["S", "S", "S", "S", "S"]
        (uniformImage 1 10 (px 1 1 1 65535) RGBA64.zero))).map
        (fun s => s.At 0 4) = some (px 244 244 244 65535) :=
  ⟨by decide, by decide, by decide, by decide⟩

theorem ReAddChunk_outside (img img2 : Image) (yMin : Int) (chunkPart : String) (x y : Int)
    (h : (Point.mk x y).In (reAddRect img img2 yMin chunkPart) = false) :
    (img.ReAddChunk img2 yMin chunkPart).out.Pix x y = img.out.Pix x y := by
  unfold Image.ReAddChunk Draw
  unfold reAddRect DrawRect at h
  simp only
  split
  · rfl
  · simp only [h, Bool.false_eq_true, if_false]

/-- C2 (failing input): for the height-10 image split into 4 chunks, the rows
that `ReAddChunk` writes are 0, 1, 2, 4, 5 and 9; rows 3, 6, 7 and 8 are written
by no chunk. -/
theorem reassembly_rows_unwritten :
    (List.range 10).map (fun y : Nat =>
        rowWriters (CreateImageTask "in.png" "out.png" ["G"] columnImage) 4 y)
      = [1, 1, 1, 0, 1, 1, 0, 0, 0, 1] := by
  decide

/-! ## Splitting (C3, C4) -/

theorem chunkUnpadded_eq (h p : Int) (N i : Nat) :
    chunkUnpadded h p N i =
      ((i : Int) * p, if i + 1 = N then h else ((i : Int) + 1) * p) := by
  unfold chunkUnpadded
  by_cases hi : i + 1 = N
  · have : (i : Int) = (N : Int) - 1 := by omega
    simp [hi, this]
  · have : ¬ ((i : Int) = (N : Int) - 1) := by omega
    simp [hi, this]
    ring

/-- C3: for every image height `h` and chunk count `N ≥ 1` (both below `2^52`,
the range in which `float64` holds them exactly), `SplitImage(N)` yields exactly
`N` chunks, its base chunk height is `p = ceil(h / N)`, chunk `i` is built from
the unpadded row range `[i*p, (i+1)*p)` (`[(N-1)*p, h)` for the last chunk), and
every row of `[0, h)` lies in the unpadded range of exactly one chunk. -/
theorem splitImage_unpadded_cover (inPath outPath : String) (effects : List String)
    (w h : Nat) (pix : Int → Int → RGBA64) (outside : RGBA64) (N : Nat)
    (hN : 1 ≤ N) (hh : h < 2 ^ 52) (hN2 : N < 2 ^ 52) :
    ((CreateImageTask inPath outPath effects (decodedPNG w h pix outside)).SplitImage N).length = N ∧
    pixelChunkOf (CreateImageTask inPath outPath effects (decodedPNG w h pix outside)).Img.GetYPixels N
      = (((h + N - 1) / N : Nat) : Int) ∧
    (∀ i : Nat, i < N → ∃ c,
      ((CreateImageTask inPath outPath effects (decodedPNG w h pix outside)).SplitImage N)[i]? = some c ∧
      (c.ChunkPart, c.YPixelStart, c.YPixelEnd)
        = chunkPadded N i (chunkUnpadded h (pixelChunkOf h N) N i) ∧
      chunkUnpadded h (pixelChunkOf h N) N i
        = ((i : Int) * (((h + N - 1) / N : Nat) : Int),
            if i + 1 = N then (h : Int) else ((i : Int) + 1) * (((h + N - 1) / N : Nat) : Int))) ∧
    (∀ y : Int, 0 ≤ y → y < h → ∃! i : Nat, i < N ∧
      (chunkUnpadded h (pixelChunkOf h N) N i).1 ≤ y ∧
      y < (chunkUnpadded h (pixelChunkOf h N) N i).2) := by
  have hp := pixelChunkOf_eq h N hh (by omega) hN2
  have hY : (CreateImageTask inPath outPath effects (decodedPNG w h pix outside)).Img.GetYPixels
      = (h : Int) := rfl
  refine ⟨SplitImage_length _ _, by rw [hY]; exact hp, ?_, ?_⟩
  · intro i hi
    refine ⟨_, SplitImage_get _ N i hi, ?_, ?_⟩
    · rw [hY]
    · rw [hp]; exact chunkUnpadded_eq _ _ _ _
  · intro y hy0 hyh
    obtain ⟨yn, rfl⟩ := Int.eq_ofNat_of_zero_le hy0
    have hyn : yn < h := by exact_mod_cast hyh
    have hpos : 0 < (h + N - 1) / N := ceilDiv_pos h N (by omega) (by omega)
    have key := cover_nat h N ((h + N - 1) / N) yn hN hpos hyn
    have conv : ∀ i : Nat, ((chunkUnpadded h (pixelChunkOf h N) N i).1 ≤ (yn : Int) ∧
        (yn : Int) < (chunkUnpadded h (pixelChunkOf h N) N i).2) ↔
        (i * ((h + N - 1) / N) ≤ yn ∧
          yn < (if i = N - 1 then h else (i + 1) * ((h + N - 1) / N))) := by
      intro i
      rw [hp, chunkUnpadded_eq]
      by_cases hi : i + 1 = N
      · have hi2 : i = N - 1 := by omega
        simp only [if_pos hi, if_pos hi2]
        constructor
        · rintro ⟨a, b⟩; exact ⟨by exact_mod_cast a, by exact_mod_cast b⟩
        · rintro ⟨a, b⟩; exact ⟨by exact_mod_cast a, by exact_mod_cast b⟩
      · have hi2 : ¬ i = N - 1 := by omega
        simp only [if_neg hi, if_neg hi2]
        constructor
        · rintro ⟨a, b⟩; exact ⟨by exact_mod_cast a, by exact_mod_cast b⟩
        · rintro ⟨a, b⟩; exact ⟨by exact_mod_cast a, by exact_mod_cast b⟩
    obtain ⟨i, ⟨hi, hr⟩, huniq⟩ := key
    refine ⟨i, ⟨hi, (conv i).2 hr⟩, ?_⟩
    rintro j ⟨hj, hjr⟩
    exact huniq j ⟨hj, (conv j).1 hjr⟩

/-- Witness for C3: the 1x10 column image split into 4 chunks. -/
theorem splitImage_unpadded_cover_witness :
    (1 ≤ 4 ∧ 10 < 2 ^ 52 ∧ 4 < 2 ^ 52) ∧
    ((CreateImageTask "in.png" "out.png" ["G"]
        (decodedPNG 1 10 (fun _ _ => RGBA64.zero) RGBA64.zero)).SplitImage (4 : Nat)).length = 4 ∧
    ∀ y : Int, 0 ≤ y → y < (10 : Nat) → ∃! i : Nat, i < 4 ∧
      (chunkUnpadded (10 : Nat) (pixelChunkOf (10 : Nat) (4 : Nat)) (4 : Nat) i).1 ≤ y ∧
      y < (chunkUnpadded (10 : Nat) (pixelChunkOf (10 : Nat) (4 : Nat)) (4 : Nat) i).2 :=
  ⟨⟨by decide, by decide, by decide⟩,
    (splitImage_unpadded_cover "in.png" "out.png" ["G"] 1 10 (fun _ _ => RGBA64.zero) RGBA64.zero 4
      (by decide) (by decide) (by decide)).1,
    (splitImage_unpadded_cover "in.png" "out.png" ["G"] 1 10 (fun _ _ => RGBA64.zero) RGBA64.zero 4
      (by decide) (by decide) (by decide)).2.2.2⟩

/-- C4: for every chunk count `N ≥ 1` (heights and counts below `2^52`) with
`p = ceil(h / N)`, chunk `i` of `SplitImage(N)` records the row range it requests
from `GrabChunk`, and that range and its role are: for `N = 1` role `na` and
`[0, h)`; otherwise chunk 0 has role `first` and `[0, p+4)`, a chunk with
`0 < i < N-1` has role `middle` and `[i*p-4, (i+1)*p+4)`, and chunk `N-1` has
role `end` and `[(N-1)*p-4, h)`. -/
theorem splitImage_padding (inPath outPath : String) (effects : List String)
    (w h : Nat) (pix : Int → Int → RGBA64) (outside : RGBA64) (N i : Nat)
    (hN : 1 ≤ N) (hi : i < N) (hh : h < 2 ^ 52) (hN2 : N < 2 ^ 52) :
    ∃ c, ((CreateImageTask inPath outPath effects (decodedPNG w h pix outside)).SplitImage N)[i]? = some c ∧
      c.Img = (Load (decodedPNG w h pix outside)).GrabChunk c.YPixelStart c.YPixelEnd ∧
      (c.ChunkPart, c.YPixelStart, c.YPixelEnd) =
        (if N = 1 then ("na", (0 : Int), (h : Int))
         else if i = 0 then ("first", (0 : Int), (((h + N - 1) / N : Nat) : Int) + 4)
         else if i < N - 1 then
           ("middle", (i : Int) * (((h + N - 1) / N : Nat) : Int) - 4,
             ((i : Int) + 1) * (((h + N - 1) / N : Nat) : Int) + 4)
         else ("end", ((N : Int) - 1) * (((h + N - 1) / N : Nat) : Int) - 4, (h : Int))) := by
  have hp := pixelChunkOf_eq h N hh (by omega) hN2
  have hY : (CreateImageTask inPath outPath effects (decodedPNG w h pix outside)).Img.GetYPixels
      = (h : Int) := rfl
  refine ⟨_, SplitImage_get _ N i hi, rfl, ?_⟩
  simp only [hY, hp, chunkUnpadded_eq]
  unfold chunkPadded
  by_cases h1 : N = 1
  · subst h1
    have hi0 : i = 0 := by omega
    subst hi0
    simp
  · have hN1 : (N : Int) > 1 := by omega
    rw [if_pos hN1, if_neg h1]
    by_cases h0 : i = 0
    · subst h0
      have : ¬ (0 + 1 = N) := by omega
      simp [this]
    · have h0i : ¬ ((i : Int) = 0) := by omega
      rw [if_neg h0i, if_neg h0]
      by_cases hl : i < N - 1
      · have hc : (i : Int) > 0 ∧ (i : Int) < (N : Int) - 1 := by omega
        have : ¬ (i + 1 = N) := by omega
        simp [hl, hc, this]
      · have hc : ¬ ((i : Int) > 0 ∧ (i : Int) < (N : Int) - 1) := by omega
        have hlast : i + 1 = N := by omega
        have hiN : (i : Int) = (N : Int) - 1 := by omega
        simp [hl, hc, hlast, hiN]

/-- Witness for C4: the middle chunk 1 of a height-40 image split in 4 has
role `middle` and rows `[6, 24)`. -/
theorem splitImage_padding_witness :
    (1 ≤ 4 ∧ 1 < 4 ∧ 40 < 2 ^ 52 ∧ 4 < 2 ^ 52) ∧
    ∃ c, ((CreateImageTask "in.png" "out.png" ["S"]
        (decodedPNG 3 40 (fun _ _ => RGBA64.zero) RGBA64.zero)).SplitImage (4 : Nat))[1]? = some c ∧
      (c.ChunkPart, c.YPixelStart, c.YPixelEnd) = ("middle", (6 : Int), (24 : Int)) := by
  refine ⟨⟨by decide, by decide, by decide, by decide⟩, ?_⟩
  obtain ⟨c, hc, _, hr⟩ := splitImage_padding "in.png" "out.png" ["S"] 3 40
    (fun _ _ => RGBA64.zero) RGBA64.zero 4 1 (by decide) (by decide) (by decide) (by decide)
  exact ⟨c, hc, by rw [hr]; decide⟩

/-! ## Grayscale (C5, C6) -/

theorem Grayscale_At (img : Image) (x y : Int) (hin : (Point.mk x y).In img.out.Rect = true) :
    img.Grayscale.out.At x y =
      ⟨U16.ofNat (((img.in_.At x y).R.val + (img.in_.At x y).G.val + (img.in_.At x y).B.val) / 3),
       U16.ofNat (((img.in_.At x y).R.val + (img.in_.At x y).G.val + (img.in_.At x y).B.val) / 3),
       U16.ofNat (((img.in_.At x y).R.val + (img.in_.At x y).G.val + (img.in_.At x y).B.val) / 3),
       (img.in_.At x y).A⟩ := by
  rw [Grayscale_eq]
  simp only [Surface.At, hin, if_true]
  generalize (if (Point.mk x y).In img.in_.Rect = true then img.in_.Pix x y else img.in_.Outside) = c
  have hr := c.R.isLt
  have hg := c.G.isLt
  have hb := c.B.isLt
  have hs : (c.R.val + c.G.val + c.B.val) % 4294967296 = c.R.val + c.G.val + c.B.val :=
    Nat.mod_eq_of_lt (by omega)
  rw [hs, clamp_div3 _ (by omega), U16_ofNat_val]

theorem mean_lt (c : RGBA64) : (c.R.val + c.G.val + c.B.val) / 3 < 65536 := by
  have hr := c.R.isLt
  have hg := c.G.isLt
  have hb := c.B.isLt
  omega

/-- The nearest-integer reading of `roundThird`: `roundThird n` is the integer
at distance at most one third from `n / 3`. -/
theorem roundThird_nearest (n : Nat) :
    3 * roundThird n ≤ n + 1 ∧ n ≤ 3 * roundThird n + 1 := by
  unfold roundThird
  omega

/-- The spec's rounding: `roundThird n` is Mathlib's `round` of `n / 3`. -/
theorem roundThird_eq_round (n : Nat) : (roundThird n : Int) = round ((n : ℚ) / 3) := by
  rw [round_eq]
  have e : (n : ℚ) / 3 + 1 / 2 = ((2 * n + 3 : ℕ) : ℚ) / ((6 : ℕ) : ℚ) := by
    push_cast; ring
  rw [e]
  unfold roundThird
  rw [← Int.natCast_floor_eq_floor (by positivity), Nat.floor_div_eq_div]

/-- C5 (counterexample): on the 1x1 image with pixel `(1, 1, 0, 65535)` the
spec's `round((1+1+0)/3)` is 1, and `Grayscale` stores 0. -/
theorem grayscale_not_rounded :
    roundThird (1 + 1 + 0) = 1 ∧
    ((Load (uniformImage 1 1 (px 1 1 0 65535) RGBA64.zero)).Grayscale.out.At 0 0).R.val = 0 ∧
    ((Load (uniformImage 1 1 (px 1 1 0 65535) RGBA64.zero)).Grayscale.out.At 0 0).R.val
      ≠ roundThird (1 + 1 + 0) := by
  have h := Grayscale_At (Load (uniformImage 1 1 (px 1 1 0 65535) RGBA64.zero)) 0 0 (by decide)
  rw [h]
  decide

/-- C5 (amended): for every pixel inside the output of every image, after
`Grayscale` the pixel has R = G = B = floor((inR + inG + inB) / 3), the channel
mean truncated to an integer (which lies in [0, 65535]), and the alpha of the
input pixel. -/
theorem grayscale_floor_mean (img : Image) (x y : Int)
    (hin : (Point.mk x y).In img.out.Rect = true) :
    (img.Grayscale.out.At x y).R.val
      = ((img.in_.At x y).R.val + (img.in_.At x y).G.val + (img.in_.At x y).B.val) / 3 ∧
    (img.Grayscale.out.At x y).G = (img.Grayscale.out.At x y).R ∧
    (img.Grayscale.out.At x y).B = (img.Grayscale.out.At x y).R ∧
    (img.Grayscale.out.At x y).R.val ≤ 65535 ∧
    (img.Grayscale.out.At x y).A = (img.in_.At x y).A := by
  rw [Grayscale_At img x y hin]
  have := mean_lt (img.in_.At x y)
  refine ⟨?_, rfl, rfl, ?_, rfl⟩
  · exact Nat.mod_eq_of_lt this
  · show _ % 65536 ≤ 65535
    omega

/-- Witness for the amended C5: the pixel `(7, 8, 9, 65535)` becomes grey level 8. -/
theorem grayscale_floor_mean_witness :
    (Point.mk 0 0).In (Load (uniformImage 1 1 (px 7 8 9 65535) RGBA64.zero)).out.Rect = true ∧
    ((Load (uniformImage 1 1 (px 7 8 9 65535) RGBA64.zero)).Grayscale.out.At 0 0).R.val = 8 ∧
    ((Load (uniformImage 1 1 (px 7 8 9 65535) RGBA64.zero)).Grayscale.out.At 0 0).A
      = (px 7 8 9 65535).A :=
  ⟨by decide,
    (grayscale_floor_mean (Load (uniformImage 1 1 (px 7 8 9 65535) RGBA64.zero)) 0 0 (by decide)).1,
    (grayscale_floor_mean (Load (uniformImage 1 1 (px 7 8 9 65535) RGBA64.zero)) 0 0 (by decide)).2.2.2.2⟩

theorem Load_out_Rect (inImg : Surface) : (Load inImg).out.Rect = inImg.Rect := rfl

theorem runSequential_G (inPath outPath : String) (inImg : Surface) :
    runSequential (CreateImageTask inPath outPath ["G"] inImg)
      = some (Load inImg).Grayscale.out := by
  simp [runSequential, sequentialEffects, applyEffect, CreateImageTask,
    ImageTask.SaveImageTaskOut]

theorem div3_toInt (n : Nat) (hn : n ≤ 196605) :
    (F64.div (F64.ofInt (n : Int)) (F64.ofInt 3)).toInt = ((n / 3 : Nat) : Int) := by
  have hb := div3_bracket n (by omega)
  have hu := div_units_nat n 3 (by omega) (by decide) (by decide)
  have := toInt_of_bracket _ _ (n / 3) hu hb.1 hb.2
  simpa using this

/-- C6: for every pixel `(r, g, b, a)` of every image, the sequential job with
effect list `[G]` succeeds and outputs `(q, q, q, a)` with
`q = floor((r + g + b) / 3)`; the float quotient passed to `clamp` already
truncates to `q`, so clamping does not change it. -/
theorem grayscale_job_integer_division (inPath outPath : String) (inImg : Surface)
    (x y : Int) (hin : (Point.mk x y).In inImg.Rect = true) :
    ∃ s, runSequential (CreateImageTask inPath outPath ["G"] inImg) = some s ∧
      s.At x y =
        ⟨U16.ofNat (((inImg.Pix x y).R.val + (inImg.Pix x y).G.val + (inImg.Pix x y).B.val) / 3),
         U16.ofNat (((inImg.Pix x y).R.val + (inImg.Pix x y).G.val + (inImg.Pix x y).B.val) / 3),
         U16.ofNat (((inImg.Pix x y).R.val + (inImg.Pix x y).G.val + (inImg.Pix x y).B.val) / 3),
         (inImg.Pix x y).A⟩ ∧
      (s.At x y).R.val
        = ((inImg.Pix x y).R.val + (inImg.Pix x y).G.val + (inImg.Pix x y).B.val) / 3 ∧
      (F64.div (F64.ofInt (((inImg.Pix x y).R.val + (inImg.Pix x y).G.val
          + (inImg.Pix x y).B.val : Nat) : Int)) (F64.ofInt 3)).toInt
        = ((((inImg.Pix x y).R.val + (inImg.Pix x y).G.val + (inImg.Pix x y).B.val) / 3 : Nat) : Int)
        := by
  have hAt : inImg.At x y = inImg.Pix x y := by simp [Surface.At, hin]
  have hg := Grayscale_At (Load inImg) x y (by rw [Load_out_Rect]; exact hin)
  have hin2 : (Load inImg).in_ = inImg := rfl
  rw [hin2, hAt] at hg
  have hlt := mean_lt (inImg.Pix x y)
  refine ⟨_, runSequential_G inPath outPath inImg, hg, ?_, ?_⟩
  · rw [hg]; exact Nat.mod_eq_of_lt hlt
  · exact div3_toInt _ (by omega)

/-- Witness for C6 (scenario A): the 1x1 image with pixel `(65535, 0, 0, 65535)`
and effect list `[G]` yields `(21845, 21845, 21845, 65535)`. -/
theorem grayscale_job_integer_division_witness :
    (Point.mk 0 0).In (uniformImage 1 1 (px 65535 0 0 65535) RGBA64.zero).Rect = true ∧
    ∃ s, runSequential (CreateImageTask "in.png" "out.png" ["G"]
        (uniformImage 1 1 (px 65535 0 0 65535) RGBA64.zero)) = some s ∧
      s.At 0 0 = px 21845 21845 21845 65535 := by
  refine ⟨by decide, ?_⟩
  obtain ⟨s, hs, hpix, _, _⟩ := grayscale_job_integer_division "in.png" "out.png"
    (uniformImage 1 1 (px 65535 0 0 65535) RGBA64.zero) 0 0 (by decide)
  exact ⟨s, hs, by rw [hpix]; decide⟩

/-! ## Convolution (C7, C8, C9) -/

theorem Convolute_three (img : Image) (K : Fin 3 → Fin 3 → F64) :
    img.Convolute (kernelRows K) 3 = some ⟨img.in_, ⟨img.out.Rect, fun x y =>
      if (Point.mk x y).In img.out.Rect then
        ⟨clamp (codeConvSum img.in_ (fun c => c.R) K x y),
         clamp (codeConvSum img.in_ (fun c => c.G) K x y),
         clamp (codeConvSum img.in_ (fun c => c.B) K x y),
         (img.in_.At x y).A⟩
      else img.out.Pix x y, img.out.Outside⟩⟩ :=
  Convolute_eq img (kernelRows K) 3
    (fun s x y => ⟨codeConvSum s (fun c => c.R) K x y, codeConvSum s (fun c => c.G) K x y,
      codeConvSum s (fun c => c.B) K x y⟩)
    (fun s x y => convAccumulate_three s K x y)

/-- The code's kernel cell and the spec's agree when the position is inside the
bounds, when a coordinate is negative, or when the channel of the colour that
`At` returns outside the bounds is zero. -/
theorem codeTerm_eq_specTerm (s : Surface) (chan : RGBA64 → U16) (hz : chan RGBA64.zero = 0)
    (k : F64) (x y : Int)
    (h : chan s.Outside = 0 ∨ x < 0 ∨ y < 0 ∨ (Point.mk x y).In s.Rect = true) :
    codeTerm s chan k x y = specTerm s chan k x y := by
  unfold codeTerm codeRead specTerm specRead Surface.At
  by_cases h1 : x < 0 ∨ y < 0
  · simp only [if_pos h1, hz]
    exact mul_zero_left k
  · simp only [if_neg h1]
    by_cases h2 : s.Rect.Min.X ≤ x ∧ x < s.Rect.Max.X ∧ s.Rect.Min.Y ≤ y ∧ y < s.Rect.Max.Y
    · have : (Point.mk x y).In s.Rect = true := by
        simp [Point.In, h2.1, h2.2.1, h2.2.2.1, h2.2.2.2]
      simp only [if_pos h2, this, if_true]
    · have hn : ¬ ((Point.mk x y).In s.Rect = true) := by
        simp only [Point.In, Bool.and_eq_true, decide_eq_true_eq]
        tauto
      have ho : chan s.Outside = 0 := by
        rcases h with h | h | h | h
        · exact h
        · exact absurd (Or.inl h) h1
        · exact absurd (Or.inr h) h1
        · exact absurd h hn
      simp only [if_neg h2, if_neg hn, ho]
      exact mul_zero_left k

/-- For an image whose `At` returns zero R, G, B outside the bounds (every
image but an indexed PNG before the first effect), the accumulated sum of
`Convolute` is the spec's sum, in which every read outside the bounds
contributes zero. -/
theorem codeConvSum_eq_spec (s : Surface) (chan : RGBA64 → U16) (hz : chan RGBA64.zero = 0)
    (ho : chan s.Outside = 0) (K : Fin 3 → Fin 3 → F64) (x y : Int) :
    codeConvSum s chan K x y = specConvSum s chan K x y := by
  unfold codeConvSum specConvSum
  simp only [codeTerm_eq_specTerm s chan hz _ _ _ (Or.inl ho)]

/-- With zero R, G, B outside the bounds of the input, `Convolute` with a 3x3
kernel writes at every pixel of the output the `clamp` of the spec's weighted
sums and the alpha of the input pixel. -/
theorem Convolute_zero_outside (img : Image) (K : Fin 3 → Fin 3 → F64) (x y : Int)
    (ho : img.in_.Outside.R = 0 ∧ img.in_.Outside.G = 0 ∧ img.in_.Outside.B = 0)
    (hin : (Point.mk x y).In img.out.Rect = true) :
    ∃ img2, img.Convolute (kernelRows K) 3 = some img2 ∧
      img2.out.At x y =
        ⟨clamp (specConvSum img.in_ (fun c => c.R) K x y),
         clamp (specConvSum img.in_ (fun c => c.G) K x y),
         clamp (specConvSum img.in_ (fun c => c.B) K x y),
         (img.in_.At x y).A⟩ := by
  refine ⟨_, Convolute_three img K, ?_⟩
  simp only [Surface.At, hin, if_true]
  rw [codeConvSum_eq_spec img.in_ (fun c => c.R) rfl ho.1,
    codeConvSum_eq_spec img.in_ (fun c => c.G) rfl ho.2.1,
    codeConvSum_eq_spec img.in_ (fun c => c.B) rfl ho.2.2]

/-- C7 (failing input): on the 1x1 indexed PNG whose palette entry 0 is the
grey 10280, the Sharpen kernel gives `5*10280 - 10280 - 10280 = 30840` at the
only pixel: `Convolute` zeroes the reads at `x = -1` and `y = -1` but takes the
reads at `(1, 0)` and `(0, 1)`, beyond the right and bottom edge, from `At`,
which returns the palette entry. The claimed pixel, with every read outside
the bounds contributing zero, is `5*10280 = 51400`. The sequential job `[S]`
saves the pixel 30840. -/
theorem convolute_pads_with_palette_entry :
    (Point.mk 0 0).In (Load palettedPixel).out.Rect = true ∧
    (Load palettedPixel).in_.At 1 0 = px 10280 10280 10280 65535 ∧
    (Load palettedPixel).in_.At 0 1 = px 10280 10280 10280 65535 ∧
    getSKernel = kernelRows (fun ky kx =>
      if ky = 1 ∧ kx = 1 then F64.ofInt 5
      else if ky = 1 ∨ kx = 1 then F64.ofInt (-1) else F64.ofInt 0) ∧
    ((Load palettedPixel).Convolute getSKernel 3).map (fun img2 => img2.out.At 0 0)
      = some (px 30840 30840 30840 65535) ∧
    (⟨clamp (specConvSum (Load palettedPixel).in_ (fun c => c.R) (fun ky kx =>
        if ky = 1 ∧ kx = 1 then F64.ofInt 5
        else if ky = 1 ∨ kx = 1 then F64.ofInt (-1) else F64.ofInt 0) 0 0),
      clamp (specConvSum (Load palettedPixel).in_ (fun c => c.G) (fun ky kx =>
        if ky = 1 ∧ kx = 1 then F64.ofInt 5
        else if ky = 1 ∨ kx = 1 then F64.ofInt (-1) else F64.ofInt 0) 0 0),
      clamp (specConvSum (Load palettedPixel).in_ (fun c => c.B) (fun ky kx =>
        if ky = 1 ∧ kx = 1 then F64.ofInt 5
        else if ky = 1 ∨ kx = 1 then F64.ofInt (-1) else F64.ofInt 0) 0 0),
      ((Load palettedPixel).in_.At 0 0).A⟩ : RGBA64) = px 51400 51400 51400 65535 ∧
    (runSequential (CreateImageTask "in.png" "out.png" ["S"] palettedPixel)).map
        (fun s => s.At 0 0) = some (px 30840 30840 30840 65535) :=
  ⟨by decide, by decide, by decide, by decide, by decide, by decide, by decide⟩

theorem kernelRows_list (a b c d e f g h i : F64) :
    [[a, b, c], [d, e, f], [g, h, i]] = kernelRows (fun ky kx => ![![a, b, c], ![d, e, f], ![g, h, i]] ky kx) :=
  rfl

theorem getSKernel_rows : ∃ K, getSKernel = kernelRows K := ⟨_, kernelRows_list _ _ _ _ _ _ _ _ _⟩

theorem getEKernel_rows : ∃ K, getEKernel = kernelRows K := ⟨_, kernelRows_list _ _ _ _ _ _ _ _ _⟩

theorem getBKernel_rows : ∃ K, getBKernel = kernelRows K := ⟨_, kernelRows_list _ _ _ _ _ _ _ _ _⟩

theorem ApplyConvolution_S (img : Image) :
    img.ApplyConvolution "S" = img.Convolute getSKernel 3 := by
  simp [Image.ApplyConvolution, getSKernel]

theorem ApplyConvolution_E (img : Image) :
    img.ApplyConvolution "E" = img.Convolute getEKernel 3 := by
  have h1 : ¬ ("E" = "S") := by decide
  simp [Image.ApplyConvolution, h1, getEKernel]

theorem ApplyConvolution_B (img : Image) :
    img.ApplyConvolution "B" = img.Convolute getBKernel 3 := by
  have h1 : ¬ ("B" = "S") := by decide
  have h2 : ¬ ("B" = "E") := by decide
  have h3 : getBKernel.length = 3 := rfl
  simp [Image.ApplyConvolution, h1, h2, h3]

theorem specSaturate_eq (v : Int) :
    specSaturate v = min (65535 * (unitsPerOne : Int)) (max 0 v) := by
  unfold specSaturate
  have hS : (0 : Int) ≤ 65535 * (unitsPerOne : Int) := by positivity
  rcases le_total v 0 with h | h
  · rw [max_eq_left h, min_eq_right (le_trans h hS), max_eq_left h, min_eq_right hS]
  · rw [max_eq_right h, max_eq_right (le_min hS h)]

theorem clamp_val_int (v : F64) :
    ((clamp v).val : Int) = specSaturate v.units / (unitsPerOne : Int) := by
  rw [clamp_val, specSaturate_eq]
  have h0 : 0 ≤ min (65535 * (unitsPerOne : Int)) (max 0 v.units) :=
    le_min (by positivity) (le_max_left _ _)
  obtain ⟨n, hn⟩ := Int.eq_ofNat_of_zero_le h0
  rw [hn]
  simp

theorem clamp_le (v : F64) : (clamp v).val ≤ 65535 := by
  have := (clamp v).isLt
  omega

/-- C8: for every image, each of the Sharpen, Edge and Blur kernels and every
pixel inside the output, `ApplyConvolution` succeeds and the R, G, B channels it
writes are `clamp` of the accumulated sums and lie in `[0, 65535]`; and for
every accumulated value `v`, `clamp(v)` is `max(0, min(65535, v))` converted to
`uint16` (the integer part), which is 0 when `v` is negative and 65535 when `v`
exceeds 65535. -/
theorem convolution_channels_clamped (img : Image) (effect : String) (x y : Int)
    (heff : effect = "S" ∨ effect = "E" ∨ effect = "B")
    (hin : (Point.mk x y).In img.out.Rect = true) :
    (∃ img2 kernel acc, img.ApplyConvolution effect = some img2 ∧
      kernel ∈ [getSKernel, getEKernel, getBKernel] ∧
      convAccumulate img.in_ kernel 3 x y = some acc ∧
      (img2.out.At x y).R = clamp acc.r ∧ (img2.out.At x y).G = clamp acc.g ∧
      (img2.out.At x y).B = clamp acc.b ∧
      (img2.out.At x y).R.val ≤ 65535 ∧ (img2.out.At x y).G.val ≤ 65535 ∧
      (img2.out.At x y).B.val ≤ 65535) ∧
    (∀ v : F64, ((clamp v).val : Int) = specSaturate v.units / (unitsPerOne : Int) ∧
      (v.units < 0 → clamp v = 0) ∧
      (65535 * (unitsPerOne : Int) < v.units → clamp v = 65535)) := by
  constructor
  · have key : ∀ kernel, (∃ K, kernel = kernelRows K) →
        ∃ img2 acc, img.Convolute kernel 3 = some img2 ∧
          convAccumulate img.in_ kernel 3 x y = some acc ∧
          (img2.out.At x y).R = clamp acc.r ∧ (img2.out.At x y).G = clamp acc.g ∧
          (img2.out.At x y).B = clamp acc.b := by
      rintro kernel ⟨K, rfl⟩
      refine ⟨_, _, Convolute_three img K, convAccumulate_three img.in_ K x y, ?_⟩
      simp only [Surface.At, hin, if_true, and_self]
    rcases heff with rfl | rfl | rfl
    · obtain ⟨img2, acc, h1, h2, h3, h4, h5⟩ := key getSKernel getSKernel_rows
      exact ⟨img2, getSKernel, acc, by rw [ApplyConvolution_S]; exact h1, by simp, h2, h3, h4, h5,
        by rw [h3]; exact clamp_le _, by rw [h4]; exact clamp_le _,
        by rw [h5]; exact clamp_le _⟩
    · obtain ⟨img2, acc, h1, h2, h3, h4, h5⟩ := key getEKernel getEKernel_rows
      exact ⟨img2, getEKernel, acc, by rw [ApplyConvolution_E]; exact h1, by simp, h2, h3, h4, h5,
        by rw [h3]; exact clamp_le _, by rw [h4]; exact clamp_le _,
        by rw [h5]; exact clamp_le _⟩
    · obtain ⟨img2, acc, h1, h2, h3, h4, h5⟩ := key getBKernel getBKernel_rows
      exact ⟨img2, getBKernel, acc, by rw [ApplyConvolution_B]; exact h1, by simp, h2, h3, h4, h5,
        by rw [h3]; exact clamp_le _, by rw [h4]; exact clamp_le _,
        by rw [h5]; exact clamp_le _⟩
  · intro v
    exact ⟨clamp_val_int v, fun h => clamp_of_neg v h.le, fun h => clamp_of_large v h.le⟩

/-- Witness for C8: the Edge kernel on the 2x1 image. At the black pixel the
sum is `8 * 0 - 900 < 0` and the channels are clamped to 0; at the bright pixel
of a saturated image the sum `8 * 65535` is clamped to 65535. -/
theorem convolution_channels_clamped_witness :
    (("E" = "S" ∨ "E" = "E" ∨ "E" = "B") ∧
      (Point.mk 1 0).In (Load twoPixelImage).out.Rect = true) ∧
    (∃ img2, (Load twoPixelImage).ApplyConvolution "E" = some img2 ∧
      (img2.out.At 1 0).R.val ≤ 65535) ∧
    clamp (F64.ofInt (-900)) = 0 ∧ clamp (F64.ofInt (8 * 65535)) = 65535 := by
  have h := convolution_channels_clamped (Load twoPixelImage) "E" 1 0
    (Or.inr (Or.inl rfl)) (by decide)
  obtain ⟨⟨img2, _, _, h1, _, _, _, _, _, h2, _, _⟩, hc⟩ := h
  refine ⟨⟨Or.inr (Or.inl rfl), by decide⟩, ⟨img2, h1, h2⟩, ?_, ?_⟩
  · exact (hc (F64.ofInt (-900))).2.1 (by decide)
  · exact (hc (F64.ofInt (8 * 65535))).2.2 (by decide)

theorem getBKernel_const :
    getBKernel = kernelRows (fun _ _ => F64.div (F64.ofInt 1) (F64.ofInt 9)) := rfl

theorem oneNinth_units :
    (F64.div (F64.ofInt 1) (F64.ofInt 9)).units = ((8006399337547548 * 2 ^ 1018 : Nat) : Int) := by
  decide

theorem codeTerm_uniform (w h : Nat) (c outside : RGBA64) (chan : RGBA64 → U16) (k : F64)
    (x y : Int) (hx0 : 0 ≤ x) (hx1 : x < w) (hy0 : 0 ≤ y) (hy1 : y < h) :
    codeTerm (uniformImage w h c outside) chan k x y = F64.mul (F64.ofInt (chan c).val) k := by
  unfold codeTerm codeRead Surface.At uniformImage decodedPNG
  have h1 : ¬ (x < 0 ∨ y < 0) := by omega
  have h2 : (Point.mk x y).In (Rectangle.mk ⟨0, 0⟩ ⟨(w : Int), (h : Int)⟩) = true := by
    simp only [Point.In, Bool.and_eq_true, decide_eq_true_eq]
    omega
  simp only [if_neg h1, h2, if_true]

/-- nine additions of the same product, as the blur of a constant neighbourhood computes. -/
theorem codeConvSum_uniform (w h : Nat) (c outside : RGBA64) (chan : RGBA64 → U16) (k : F64)
    (x y : Int) (hx0 : 1 ≤ x) (hx1 : x + 1 < w) (hy0 : 1 ≤ y) (hy1 : y + 1 < h) :
    codeConvSum (uniformImage w h c outside) chan (fun _ _ => k) x y =
      (List.range 9).foldl (fun acc _ => F64.add acc (F64.mul (F64.ofInt (chan c).val) k))
        (F64.ofInt 0) := by
  have e : List.finRange 3 = [0, 1, 2] := rfl
  have e9 : List.range 9 = [0, 1, 2, 3, 4, 5, 6, 7, 8] := rfl
  simp only [codeConvSum, e, e9, List.foldl_cons, List.foldl_nil]
  have v0 : (((0 : Fin 3) : Nat) : Int) = 0 := rfl
  have v1 : (((1 : Fin 3) : Nat) : Int) = 1 := rfl
  have v2 : (((2 : Fin 3) : Nat) : Int) = 2 := rfl
  simp only [v0, v1, v2]
  rw [codeTerm_uniform w h c outside chan k (x + 0 - 1) (y + 0 - 1) (by omega) (by omega) (by omega) (by omega),
    codeTerm_uniform w h c outside chan k (x + 1 - 1) (y + 0 - 1) (by omega) (by omega) (by omega) (by omega),
    codeTerm_uniform w h c outside chan k (x + 2 - 1) (y + 0 - 1) (by omega) (by omega) (by omega) (by omega),
    codeTerm_uniform w h c outside chan k (x + 0 - 1) (y + 1 - 1) (by omega) (by omega) (by omega) (by omega),
    codeTerm_uniform w h c outside chan k (x + 1 - 1) (y + 1 - 1) (by omega) (by omega) (by omega) (by omega),
    codeTerm_uniform w h c outside chan k (x + 2 - 1) (y + 1 - 1) (by omega) (by omega) (by omega) (by omega),
    codeTerm_uniform w h c outside chan k (x + 0 - 1) (y + 2 - 1) (by omega) (by omega) (by omega) (by omega),
    codeTerm_uniform w h c outside chan k (x + 1 - 1) (y + 2 - 1) (by omega) (by omega) (by omega) (by omega),
    codeTerm_uniform w h c outside chan k (x + 2 - 1) (y + 2 - 1) (by omega) (by omega) (by omega) (by omega)]

theorem add_units_nat (acc P : F64) (a pn : Nat) (ha : acc.units = (a : Int))
    (hP : P.units = (pn : Int)) :
    (F64.add acc P).units = ((roundUnits (a + pn) 1 : Nat) : Int) := by
  unfold F64.add
  simp only [ha, hP]
  rw [← Nat.cast_add, roundInt_ofNat]

theorem mul_units_nat (v kn : Nat) (hv : v < 2 ^ 53) (k : F64) (hk : k.units = (kn : Int)) :
    (F64.mul (F64.ofInt (v : Int)) k).units
      = ((roundUnits (v * unitsPerOne * kn) unitsPerOne : Nat) : Int) := by
  have uv := ofInt_units (v : Int) (by simpa using hv)
  unfold F64.mul
  simp only [uv, hk]
  rw [← Nat.cast_mul, ← Nat.cast_mul, roundInt_ofNat]

/-- relative error of one rounding, for a sum of two values. -/
theorem round_sum_rel (t : Nat) (h1 : 2 ^ 53 ≤ t) (h2 : t < 2 ^ 4096) :
    2 ^ 53 * roundUnits t 1 ≤ (2 ^ 53 + 1) * t ∧ (2 ^ 53 - 1) * t ≤ 2 ^ 53 * roundUnits t 1 := by
  have := roundUnits_rel t 1 (by decide) (by simpa using h1) (by simpa using h2)
  simpa using this

/-- the product of a channel value and one ninth, within one part in `2^53`. -/
theorem blur_product_bounds (v : Nat) (hv1 : 1 ≤ v) (hv2 : v < 65536) :
    2 ^ 53 * roundUnits (v * unitsPerOne * (8006399337547548 * 2 ^ 1018)) unitsPerOne
        ≤ (2 ^ 53 + 1) * (v * (8006399337547548 * 2 ^ 1018)) ∧
    (2 ^ 53 - 1) * (v * (8006399337547548 * 2 ^ 1018))
        ≤ 2 ^ 53 * roundUnits (v * unitsPerOne * (8006399337547548 * 2 ^ 1018)) unitsPerOne := by
  have hSpos : 0 < unitsPerOne := Nat.pow_pos (by decide)
  have e : v * unitsPerOne * (8006399337547548 * 2 ^ 1018)
      = v * (8006399337547548 * 2 ^ 1018) * unitsPerOne := by ring
  have hq : v * unitsPerOne * (8006399337547548 * 2 ^ 1018) / unitsPerOne
      = v * (8006399337547548 * 2 ^ 1018) := by
    rw [e, Nat.mul_div_cancel _ hSpos]
  have hrel := roundUnits_rel (v * unitsPerOne * (8006399337547548 * 2 ^ 1018)) unitsPerOne hSpos
    (by rw [hq]; omega) (by rw [hq]; omega)
  generalize roundUnits (v * unitsPerOne * (8006399337547548 * 2 ^ 1018)) unitsPerOne = R at hrel ⊢
  obtain ⟨r1, r2⟩ := hrel
  rw [e] at r1 r2
  constructor
  · have e1 : 2 ^ 53 * (R * unitsPerOne) = (2 ^ 53 * R) * unitsPerOne := by ring
    have e2 : (2 ^ 53 + 1) * (v * (8006399337547548 * 2 ^ 1018) * unitsPerOne)
        = ((2 ^ 53 + 1) * (v * (8006399337547548 * 2 ^ 1018))) * unitsPerOne := by ring
    rw [e1, e2] at r1
    exact Nat.le_of_mul_le_mul_right r1 hSpos
  · have e1 : 2 ^ 53 * (R * unitsPerOne) = (2 ^ 53 * R) * unitsPerOne := by ring
    have e2 : (2 ^ 53 - 1) * (v * (8006399337547548 * 2 ^ 1018) * unitsPerOne)
        = ((2 ^ 53 - 1) * (v * (8006399337547548 * 2 ^ 1018))) * unitsPerOne := by ring
    rw [e1, e2] at r2
    exact Nat.le_of_mul_le_mul_right r2 hSpos

/-- one accumulation step of the blur of a constant neighbourhood: after `i + 1`
additions the accumulator is within `(i + 1) * v * 2^1022` units of `(i + 1) * p`. -/
theorem blur_step (v p a : Nat) (i : Nat) (hi : i ≤ 8) (hv1 : 1 ≤ v) (hv2 : v < 65536)
    (hp1 : 2 ^ 53 * p ≤ (2 ^ 53 + 1) * (v * (8006399337547548 * 2 ^ 1018)))
    (hp2 : (2 ^ 53 - 1) * (v * (8006399337547548 * 2 ^ 1018)) ≤ 2 ^ 53 * p)
    (ha1 : a ≤ i * p + i * (v * 2 ^ 1022)) (ha2 : i * p ≤ a + i * (v * 2 ^ 1022)) :
    roundUnits (a + p) 1 ≤ (i + 1) * p + (i + 1) * (v * 2 ^ 1022) ∧
    (i + 1) * p ≤ roundUnits (a + p) 1 + (i + 1) * (v * 2 ^ 1022) := by
  have hr := round_sum_rel (a + p) (by interval_cases i <;> omega) (by interval_cases i <;> omega)
  generalize roundUnits (a + p) 1 = a2 at hr ⊢
  obtain ⟨r1, r2⟩ := hr
  interval_cases i <;> constructor <;> omega

theorem blur_iter (v pn : Nat) (P : F64) (hP : P.units = (pn : Int))
    (hv1 : 1 ≤ v) (hv2 : v < 65536)
    (hp1 : 2 ^ 53 * pn ≤ (2 ^ 53 + 1) * (v * (8006399337547548 * 2 ^ 1018)))
    (hp2 : (2 ^ 53 - 1) * (v * (8006399337547548 * 2 ^ 1018)) ≤ 2 ^ 53 * pn) (i : Nat)
    (hi : i ≤ 9) :
    ∃ a : Nat, ((List.range i).foldl (fun acc _ => F64.add acc P) (F64.ofInt 0)).units = (a : Int) ∧
      a ≤ i * pn + i * (v * 2 ^ 1022) ∧ i * pn ≤ a + i * (v * 2 ^ 1022) := by
  induction i with
  | zero => exact ⟨0, by simpa using ofInt_zero_units, by simp, by simp⟩
  | succ i ih =>
    obtain ⟨a, ha, ha1, ha2⟩ := ih (by omega)
    rw [List.range_succ, List.foldl_append]
    simp only [List.foldl_cons, List.foldl_nil]
    have hs := blur_step v pn a i (by omega) hv1 hv2 hp1 hp2 ha1 ha2
    exact ⟨_, add_units_nat _ P a pn ha hP, hs.1, hs.2⟩

/-- the blurred value of a constant neighbourhood of channel value `v`: `v` or `v - 1`. -/
theorem blur_clamp_uniform (v : Nat) (hv : v < 65536) :
    (clamp ((List.range 9).foldl
        (fun acc _ => F64.add acc (F64.mul (F64.ofInt (v : Int)) (F64.div (F64.ofInt 1) (F64.ofInt 9))))
        (F64.ofInt 0))).val = v ∨
    (clamp ((List.range 9).foldl
        (fun acc _ => F64.add acc (F64.mul (F64.ofInt (v : Int)) (F64.div (F64.ofInt 1) (F64.ofInt 9))))
        (F64.ofInt 0))).val + 1 = v := by
  rcases Nat.eq_zero_or_pos v with h0 | hpos
  · subst h0
    left
    decide
  · have hP := mul_units_nat v (8006399337547548 * 2 ^ 1018) (by omega)
      (F64.div (F64.ofInt 1) (F64.ofInt 9)) oneNinth_units
    obtain ⟨hp1, hp2⟩ := blur_product_bounds v hpos hv
    generalize roundUnits (v * unitsPerOne * (8006399337547548 * 2 ^ 1018)) unitsPerOne = pn
      at hP hp1 hp2
    obtain ⟨a, ha, ha1, ha2⟩ := blur_iter v pn _ hP hpos hv hp1 hp2 9 (le_refl 9)
    have hlo : (v - 1) * unitsPerOne ≤ a := by
      simp only [unitsPerOne]
      obtain ⟨u, rfl⟩ : ∃ u, v = u + 1 := ⟨v - 1, by omega⟩
      simp only [Nat.add_sub_cancel]
      omega
    have hhi : a < (v + 1) * unitsPerOne := by
      simp only [unitsPerOne]
      omega
    by_cases hc : a < v * unitsPerOne
    · right
      have hv' : v - 1 + 1 = v := by omega
      have := clamp_of_bracket _ a (v - 1) ha (by omega) hlo (by rw [hv']; exact hc)
      rw [this]; exact hv'
    · left
      exact clamp_of_bracket _ a v ha (by omega) (by omega) hhi

theorem runSequential_B (inPath outPath : String) (inImg : Surface) :
    runSequential (CreateImageTask inPath outPath ["B"] inImg)
      = ((Load inImg).Convolute getBKernel 3).map (fun img => img.out) := by
  have h1 : "B" ≠ "G" := by decide
  have h0 : ¬ ((0 : Nat) > 0) := by decide
  have hl : ¬ (["B"].length = 0) := by decide
  simp only [runSequential, sequentialEffects, applyEffect, CreateImageTask, h1, ne_eq,
    not_false_eq_true, if_true, ApplyConvolution_B, ImageTask.SaveImageTaskOut, h0, hl, if_false]
  cases (Load inImg).Convolute getBKernel 3 <;> rfl

/-- C9 (counterexample): on the uniform truecolour 3x3 image of colour
`(5, 5, 5, 65535)` the effect list `[B]` yields 2 at the corner `(0, 0)`, which
convolves against zero padding, and 4 at the centre `(1, 1)`, where the nine float products of 5
and `1/9` add up to just below 5 and are truncated. -/
theorem blur_uniform_not_identity :
    (uniformImage 3 3 (px 5 5 5 65535) RGBA64.zero).At 0 0 = px 5 5 5 65535 ∧
    (uniformImage 3 3 (px 5 5 5 65535) RGBA64.zero).At 1 1 = px 5 5 5 65535 ∧
    (runSequential (CreateImageTask "in.png" "out.png" ["B"]
        (uniformImage 3 3 (px 5 5 5 65535) RGBA64.zero))).map (fun s => s.At 0 0)
      = some (px 2 2 2 65535) ∧
    (runSequential (CreateImageTask "in.png" "out.png" ["B"]
        (uniformImage 3 3 (px 5 5 5 65535) RGBA64.zero))).map (fun s => s.At 1 1)
      = some (px 4 4 4 65535) :=
  ⟨by decide, by decide, by decide, by decide⟩

/-- C9 (amended): for every width, height and colour (and every image type,
whatever its `At` returns outside the bounds), the effect list `[B]` on the
uniform image of that colour succeeds, every pixel of the output keeps the
alpha of the input, and at every interior pixel (one that has all eight
neighbours inside the image) each of R, G, B equals the input channel or is
one less. -/
theorem blur_uniform_interior (inPath outPath : String) (w h : Nat) (c outside : RGBA64)
    (x y : Int)
    (hx0 : 1 ≤ x) (hx1 : x + 1 < w) (hy0 : 1 ≤ y) (hy1 : y + 1 < h) :
    ∃ s, runSequential (CreateImageTask inPath outPath ["B"] (uniformImage w h c outside)) = some s ∧
      (∀ x2 y2 : Int, (Point.mk x2 y2).In (uniformImage w h c outside).Rect = true →
        (s.At x2 y2).A = c.A) ∧
      ((s.At x y).R.val = c.R.val ∨ (s.At x y).R.val + 1 = c.R.val) ∧
      ((s.At x y).G.val = c.G.val ∨ (s.At x y).G.val + 1 = c.G.val) ∧
      ((s.At x y).B.val = c.B.val ∨ (s.At x y).B.val + 1 = c.B.val) := by
  have hrun := runSequential_B inPath outPath (uniformImage w h c outside)
  rw [getBKernel_const, Convolute_three] at hrun
  simp only [Option.map_some'] at hrun
  refine ⟨_, hrun, ?_, ?_⟩
  · intro x2 y2 hin
    have hin2 : (Point.mk x2 y2).In (Load (uniformImage w h c outside)).out.Rect = true := hin
    have hin3 : (Point.mk x2 y2).In (Load (uniformImage w h c outside)).in_.Rect = true := hin
    simp only [Surface.At, hin2, hin3, if_true]
    rfl
  · have hin : (Point.mk x y).In (Load (uniformImage w h c outside)).out.Rect = true := by
      simp only [Load, NewRGBA64, Surface.Bounds, uniformImage, decodedPNG, Point.In,
        Bool.and_eq_true, decide_eq_true_eq]
      omega
    have hload : (Load (uniformImage w h c outside)).in_ = uniformImage w h c outside := rfl
    simp only [Surface.At, hin, if_true, hload]
    rw [codeConvSum_uniform w h c outside (fun c => c.R) _ x y hx0 hx1 hy0 hy1,
      codeConvSum_uniform w h c outside (fun c => c.G) _ x y hx0 hx1 hy0 hy1,
      codeConvSum_uniform w h c outside (fun c => c.B) _ x y hx0 hx1 hy0 hy1]
    exact ⟨blur_clamp_uniform _ c.R.isLt, blur_clamp_uniform _ c.G.isLt,
      blur_clamp_uniform _ c.B.isLt⟩

/-- Witness for the amended C9: the centre of the uniform 3x3 image of colour
`(5, 5, 5, 65535)`. -/
theorem blur_uniform_interior_witness :
    ((1 : Int) ≤ 1 ∧ (1 : Int) + 1 < (3 : Nat)) ∧
    ∃ s, runSequential (CreateImageTask "in.png" "out.png" ["B"]
        (uniformImage 3 3 (px 5 5 5 65535) RGBA64.zero)) = some s ∧
      (s.At 1 1).A = (px 5 5 5 65535).A ∧
      ((s.At 1 1).R.val = 5 ∨ (s.At 1 1).R.val + 1 = 5) := by
  refine ⟨⟨by decide, by decide⟩, ?_⟩
  obtain ⟨s, hs, ha, hr, _, _⟩ := blur_uniform_interior "in.png" "out.png" 3 3
    (px 5 5 5 65535) RGBA64.zero 1 1 (by decide) (by decide) (by decide) (by decide)
  exact ⟨s, hs, ha 1 1 (by decide), hr⟩

/-! ## Chaining (C10) -/

theorem sequentialEffects_two (img : Image) (e1 e2 : String) :
    sequentialEffects 0 [e1, e2] img
      = (applyEffect e1 img).bind (fun img1 => applyEffect e2 img1.UpdateInImg) := by
  have h0 : ¬ ((0 : Nat) > 0) := by decide
  have h1 : (0 + 1 : Nat) > 0 := by decide
  simp only [sequentialEffects, h0, h1, if_false, if_true]
  congr 1
  funext img1
  cases applyEffect e2 img1.UpdateInImg <;> rfl

/-- C10: for every image and every two effects `e1`, `e2`, the sequential
pipeline on `[e1, e2]` is `e2` applied after `UpdateInImg` to the result of `e1`
(and the surface saved is the output of that second effect), where
`UpdateInImg` makes the previous output the surface that is read and allocates
a blank output of the same bounds; and on the non-uniform 2x1 image the output
of `[S, B]` (500 at the first pixel) differs from the output of `[B]` alone
(100). -/
theorem chaining_uses_previous_output :
    (∀ (img : Image) (e1 e2 : String),
      sequentialEffects 0 [e1, e2] img
        = (applyEffect e1 img).bind (fun img1 => applyEffect e2 img1.UpdateInImg)) ∧
    (∀ (inPath outPath : String) (inImg : Surface) (e1 e2 : String),
      runSequential (CreateImageTask inPath outPath [e1, e2] inImg)
        = ((applyEffect e1 (Load inImg)).bind
            (fun img1 => applyEffect e2 img1.UpdateInImg)).map (fun img2 => img2.out)) ∧
    (∀ img1 : Image, img1.UpdateInImg.in_ = img1.out ∧
      img1.UpdateInImg.out = NewRGBA64 img1.out.Bounds ∧
      img1.UpdateInImg.out.Bounds = img1.out.Bounds) ∧
    twoPixelImage.At 0 0 ≠ twoPixelImage.At 1 0 ∧
    (runSequential (CreateImageTask "in.png" "out.png" ["S", "B"] twoPixelImage)).map
        (fun s => s.At 0 0) = some (px 500 500 500 65535) ∧
    (runSequential (CreateImageTask "in.png" "out.png" ["B"] twoPixelImage)).map
        (fun s => s.At 0 0) = some (px 100 100 100 65535) := by
  refine ⟨sequentialEffects_two, ?_, ?_, by decide, by decide, by decide⟩
  · intro inPath outPath inImg e1 e2
    have hl : ¬ ([e1, e2].length = 0) := by simp
    simp only [runSequential, CreateImageTask, sequentialEffects_two,
      ImageTask.SaveImageTaskOut, hl, if_false]
  · intro img1
    exact ⟨rfl, rfl, rfl⟩

/-! ## Lemmas: closed forms of the effect loops -/

theorem convAccumulate_empty (s : Surface) (x y : Int) :
    convAccumulate s [] 0 x y = some ⟨F64.ofInt 0, F64.ofInt 0, F64.ofInt 0⟩ := rfl

theorem kernelOf_cases (effect : String) :
    (∃ K, kernelOf effect = kernelRows K) ∨ kernelOf effect = [] := by
  unfold kernelOf
  split
  · exact Or.inl getSKernel_rows
  · split
    · exact Or.inl getEKernel_rows
    · split
      · exact Or.inl getBKernel_rows
      · exact Or.inr rfl

theorem convAccumulate_kernelOf (effect : String) (s : Surface) (x y : Int) :
    convAccumulate s (kernelOf effect) (kernelOf effect).length x y =
      some ((convAccumulate s (kernelOf effect) (kernelOf effect).length x y).getD
        ⟨F64.ofInt 0, F64.ofInt 0, F64.ofInt 0⟩) := by
  rcases kernelOf_cases effect with ⟨K, hK⟩ | hK
  · rw [hK]
    have : ((kernelRows K).length : Int) = 3 := rfl
    rw [this, convAccumulate_three]
    rfl
  · rw [hK]
    rfl

theorem ApplyConvolution_eq (img : Image) (effect : String) :
    img.ApplyConvolution effect = img.Convolute (kernelOf effect) (kernelOf effect).length := rfl

/-- Every effect code is applied without a panic, and writes `effPixel` at each
pixel of the output bounds. -/
theorem applyEffect_eq (effect : String) (img : Image) :
    applyEffect effect img = some (effImage effect img) := by
  unfold applyEffect effImage
  by_cases hG : effect = "G"
  · subst hG
    simp only [ne_eq, not_true_eq_false, if_false, Grayscale_eq]
    rfl
  · simp only [ne_eq, hG, not_false_eq_true, if_true, ApplyConvolution_eq]
    rw [Convolute_eq img _ _ (fun s x y =>
      (convAccumulate s (kernelOf effect) (kernelOf effect).length x y).getD
        ⟨F64.ofInt 0, F64.ofInt 0, F64.ofInt 0⟩) (convAccumulate_kernelOf effect)]
    simp only [effPixel, hG, if_false]

theorem sequentialEffects_eq (i : Nat) (effects : List String) (img : Image) :
    sequentialEffects i effects img = some (chainImage i effects img) := by
  induction effects generalizing i img with
  | nil => rfl
  | cons e rest ih =>
    simp only [sequentialEffects, chainImage, applyEffect_eq, Option.some_bind, ih]

theorem filterStage_eq (effect : String) (effectNum : Nat) (chunks : List ImageTask) :
    filterStage effect effectNum chunks = some (chunks.map fun chunk =>
      { chunk with
        Img := effImage effect (if effectNum > 0 then chunk.Img.UpdateInImg else chunk.Img) }) := by
  induction chunks with
  | nil => rfl
  | cons c rest ih =>
    simp only [filterStage, applyEffect_eq, Option.some_bind, ih, Option.map_some', List.map_cons]

theorem workerEffects_eq (i : Nat) (effects : List String) (chunks : List ImageTask) :
    workerEffects i effects chunks = some (chunks.map fun chunk =>
      { chunk with Img := chainImage i effects chunk.Img }) := by
  induction effects generalizing i chunks with
  | nil => simp [workerEffects, chainImage]
  | cons e rest ih =>
    simp only [workerEffects, filterStage_eq, Option.some_bind, ih, List.map_map, chainImage]
    rfl

theorem effImage_out_Rect (effect : String) (img : Image) :
    (effImage effect img).out.Rect = img.out.Rect := rfl

theorem chainImage_out_Rect (i : Nat) (effects : List String) (img : Image) :
    (chainImage i effects img).out.Rect = img.out.Rect := by
  induction effects generalizing i img with
  | nil => rfl
  | cons e rest ih =>
    simp only [chainImage, ih, effImage_out_Rect]
    split <;> rfl

/-! ## Lemmas: rectangles and reassembly -/

theorem In_ZR (x y : Int) : (Point.mk x y).In ZR = false := by
  simp [Point.In, ZR]

theorem In_iff (x y : Int) (r : Rectangle) :
    (Point.mk x y).In r = true ↔ r.Min.X ≤ x ∧ x < r.Max.X ∧ r.Min.Y ≤ y ∧ y < r.Max.Y := by
  simp [Point.In, and_assoc]

theorem Empty_iff (r : Rectangle) :
    r.Empty = true ↔ (r.Max.X ≤ r.Min.X ∨ r.Max.Y ≤ r.Min.Y) := by
  simp [Rectangle.Empty]

theorem In_of_not_Empty (x y : Int) (r1 : Rectangle) :
    (Point.mk x y).In (if r1.Empty = true then ZR else r1) = (Point.mk x y).In r1 := by
  by_cases he : r1.Empty = true
  · rw [if_pos he, In_ZR]
    rw [Empty_iff] at he
    symm
    rw [Bool.eq_false_iff]
    intro h
    rw [In_iff] at h
    omega
  · rw [if_neg he]

theorem Intersect_of_empty (r s : Rectangle) (h : (r.Intersect s).Empty = true) :
    r.Intersect s = ZR := by
  have key : ∀ r1 : Rectangle, (if r1.Empty = true then ZR else r1).Empty = true →
      (if r1.Empty = true then ZR else r1) = ZR := by
    intro r1 h1
    by_cases he : r1.Empty = true
    · rw [if_pos he]
    · rw [if_neg he] at h1
      exact absurd h1 he
  exact key _ h

theorem In_Intersect (x y : Int) (r s : Rectangle) :
    (Point.mk x y).In (r.Intersect s) = true ↔
      ((Point.mk x y).In r = true ∧ (Point.mk x y).In s = true) := by
  unfold Rectangle.Intersect
  simp only
  rw [In_of_not_Empty]
  simp only [In_iff]
  constructor
  · rintro ⟨a, b, c, d⟩
    split_ifs at a b c d <;> omega
  · rintro ⟨⟨a, b, c, d⟩, ⟨e, f, g, h⟩⟩
    refine ⟨?_, ?_, ?_, ?_⟩ <;> split_ifs <;> omega

theorem ReAddChunk_eq (img img2 : Image) (yMin : Int) (chunkPart : String) :
    img.ReAddChunk img2 yMin chunkPart = ⟨img.in_, ⟨img.out.Rect, fun x y =>
      if (Point.mk x y).In (reAddRect img img2 yMin chunkPart) then
        reAddSource img img2 yMin chunkPart x y
      else img.out.Pix x y, img.out.Outside⟩⟩ := by
  unfold Image.ReAddChunk Draw reAddRect reAddSource DrawRect
  simp only [Point.Sub, Surface.Bounds]
  split
  · rename_i he
    have hz := Intersect_of_empty _ _ he
    simp only [Point.Sub, Surface.Bounds] at hz
    simp only [hz, In_ZR, Bool.false_eq_true, if_false]
  · rfl

theorem ReAddChunk_in (img img2 : Image) (yMin : Int) (chunkPart : String) :
    (img.ReAddChunk img2 yMin chunkPart).in_ = img.in_ := rfl

theorem ReAddChunk_out_Rect (img img2 : Image) (yMin : Int) (chunkPart : String) :
    (img.ReAddChunk img2 yMin chunkPart).out.Rect = img.out.Rect := by
  rw [ReAddChunk_eq]

theorem ReAddChunk_out_Outside (img img2 : Image) (yMin : Int) (chunkPart : String) :
    (img.ReAddChunk img2 yMin chunkPart).out.Outside = img.out.Outside := by
  rw [ReAddChunk_eq]

theorem reAddRect_congr (img img3 img2 : Image) (yMin : Int) (chunkPart : String)
    (h : img.out.Rect = img3.out.Rect) :
    reAddRect img img2 yMin chunkPart = reAddRect img3 img2 yMin chunkPart := by
  unfold reAddRect DrawRect Surface.Bounds
  rw [h]

theorem reAddSource_congr (img img3 img2 : Image) (yMin : Int) (chunkPart : String) (x y : Int)
    (h : img.out.Rect = img3.out.Rect) :
    reAddSource img img2 yMin chunkPart x y = reAddSource img3 img2 yMin chunkPart x y := by
  unfold reAddSource DrawRect Surface.Bounds
  rw [h]

theorem reAddRect_subset (img img2 : Image) (yMin : Int) (chunkPart : String) (x y : Int)
    (h : (Point.mk x y).In (reAddRect img img2 yMin chunkPart) = true) :
    (Point.mk x y).In img.out.Rect = true ∧
      (Point.mk x y).In (reAddTrim img2.out.Bounds yMin chunkPart).1 = true := by
  unfold reAddRect DrawRect at h
  simp only [In_Intersect] at h
  exact ⟨h.1.2, h.1.1⟩

theorem ReAddChunk_At (img img2 : Image) (yMin : Int) (chunkPart : String) (x y : Int) :
    (img.ReAddChunk img2 yMin chunkPart).out.At x y =
      if (Point.mk x y).In (reAddRect img img2 yMin chunkPart) then
        reAddSource img img2 yMin chunkPart x y
      else img.out.At x y := by
  rw [ReAddChunk_eq]
  unfold Surface.At
  simp only
  by_cases h : (Point.mk x y).In (reAddRect img img2 yMin chunkPart) = true
  · simp only [h, if_true, (reAddRect_subset _ _ _ _ _ _ h).1]
  · simp only [h, if_false, Bool.false_eq_true]

/-- The reassembly loop keeps the input surface and the output bounds. -/
theorem reassemble_fold_in (chunks : List ImageTask) (dst : Image) :
    (chunks.foldl (fun acc c => acc.ReAddChunk c.Img c.YPixelStart c.ChunkPart) dst).in_ = dst.in_ ∧
    (chunks.foldl (fun acc c => acc.ReAddChunk c.Img c.YPixelStart c.ChunkPart) dst).out.Rect
      = dst.out.Rect := by
  induction chunks generalizing dst with
  | nil => exact ⟨rfl, rfl⟩
  | cons c rest ih =>
    simp only [List.foldl_cons]
    obtain ⟨h1, h2⟩ := ih (dst.ReAddChunk c.Img c.YPixelStart c.ChunkPart)
    exact ⟨by rw [h1, ReAddChunk_in], by rw [h2, ReAddChunk_out_Rect]⟩

theorem reassemble_fold_out_Outside (chunks : List ImageTask) (dst : Image) :
    (chunks.foldl (fun acc c => acc.ReAddChunk c.Img c.YPixelStart c.ChunkPart) dst).out.Outside
      = dst.out.Outside := by
  induction chunks generalizing dst with
  | nil => rfl
  | cons c rest ih =>
    simp only [List.foldl_cons]
    rw [ih, ReAddChunk_out_Outside]

/-! ## Lemmas: locality of the effects -/

theorem SubImage_Rect (s : Surface) (r : Rectangle) :
    (s.SubImage r).Rect = r.Intersect s.Rect := by
  unfold Surface.SubImage
  simp only
  split
  · rename_i he
    exact (Intersect_of_empty _ _ he).symm
  · rfl

theorem SubImage_At (s : Surface) (r : Rectangle) (x y : Int) :
    (s.SubImage r).At x y =
      if (Point.mk x y).In (r.Intersect s.Rect) then s.Pix x y else s.Outside := by
  unfold Surface.SubImage Surface.At
  simp only
  split
  · rename_i he
    rw [Intersect_of_empty _ _ he]
    simp only [In_ZR, Bool.false_eq_true, if_false]
  · rfl

theorem SubImage_At_of_In (s : Surface) (r : Rectangle) (x y : Int)
    (hr : (Point.mk x y).In r = true) : (s.SubImage r).At x y = s.At x y := by
  rw [SubImage_At]
  unfold Surface.At
  by_cases hs : (Point.mk x y).In s.Rect = true
  · rw [if_pos ((In_Intersect _ _ _ _).2 ⟨hr, hs⟩), if_pos hs]
  · rw [if_neg (fun h => hs ((In_Intersect _ _ _ _).1 h).2), if_neg hs]

theorem convAccumulate_congr (cur1 cur2 : Surface) (K : Fin 3 → Fin 3 → F64) (x y : Int)
    (h : ∀ kx ky : Int, 0 ≤ kx → kx ≤ 2 → 0 ≤ ky → ky ≤ 2 →
      cur1.At (x + kx - 1) (y + ky - 1) = cur2.At (x + kx - 1) (y + ky - 1)) :
    convAccumulate cur1 (kernelRows K) 3 x y = convAccumulate cur2 (kernelRows K) 3 x y := by
  unfold convAccumulate
  simp only [forRange_three]
  rw [h 0 0 (by decide) (by decide) (by decide) (by decide),
    h 1 0 (by decide) (by decide) (by decide) (by decide),
    h 2 0 (by decide) (by decide) (by decide) (by decide),
    h 0 1 (by decide) (by decide) (by decide) (by decide),
    h 1 1 (by decide) (by decide) (by decide) (by decide),
    h 2 1 (by decide) (by decide) (by decide) (by decide),
    h 0 2 (by decide) (by decide) (by decide) (by decide),
    h 1 2 (by decide) (by decide) (by decide) (by decide),
    h 2 2 (by decide) (by decide) (by decide) (by decide)]

/-- A pixel written by `Grayscale` depends on the input pixel at the same
position only. -/
theorem effPixel_congr_G (cur1 cur2 : Surface) (x y : Int)
    (h : cur1.At x y = cur2.At x y) : effPixel "G" cur1 x y = effPixel "G" cur2 x y := by
  have e : ∀ cur : Surface, effPixel "G" cur x y =
      (let c := cur.At x y
       let greyC := clamp (F64.div
        (F64.ofInt (((c.R.val + c.G.val + c.B.val) % 4294967296 : Nat) : Int)) (F64.ofInt 3))
       (⟨greyC, greyC, greyC, U16.ofNat c.A.val⟩ : RGBA64)) := by
    intro cur
    unfold effPixel
    rw [if_pos rfl]
  rw [e, e, h]

/-- A pixel written by a convolution depends on the 3x3 neighbourhood of the
input only. -/
theorem effPixel_congr (effect : String) (cur1 cur2 : Surface) (x y : Int)
    (h : ∀ kx ky : Int, 0 ≤ kx → kx ≤ 2 → 0 ≤ ky → ky ≤ 2 →
      cur1.At (x + kx - 1) (y + ky - 1) = cur2.At (x + kx - 1) (y + ky - 1)) :
    effPixel effect cur1 x y = effPixel effect cur2 x y := by
  have h0 : cur1.At x y = cur2.At x y := by
    have := h 1 1 (by decide) (by decide) (by decide) (by decide)
    simpa using this
  by_cases hG : effect = "G"
  · subst hG
    exact effPixel_congr_G _ _ _ _ h0
  · unfold effPixel
    rw [if_neg hG, if_neg hG, h0]
    rcases kernelOf_cases effect with ⟨K, hK⟩ | hK
    · rw [hK]
      have e3 : ((kernelRows K).length : Int) = 3 := rfl
      rw [e3, convAccumulate_congr cur1 cur2 K x y h]
    · rw [hK]
      have e0 : ((([] : List (List F64)).length : Nat) : Int) = 0 := rfl
      rw [e0, convAccumulate_empty, convAccumulate_empty]

theorem effImage_step_At (effect : String) (i : Nat) (img : Image) (x y : Int)
    (ho : img.out.Outside = RGBA64.zero) :
    (effImage effect (if i > 0 then img.UpdateInImg else img)).out.At x y =
      if (Point.mk x y).In img.out.Rect then effPixel effect (curSurface i img) x y
      else RGBA64.zero := by
  unfold effImage Surface.At curSurface
  by_cases hi : i > 0
  · simp only [hi, if_true, Image.UpdateInImg, NewRGBA64, Surface.Bounds]
    split <;> rfl
  · simp only [hi, if_false]
    split
    · rfl
    · exact ho

theorem effImage_step_Outside (effect : String) (i : Nat) (img : Image)
    (ho : img.out.Outside = RGBA64.zero) :
    (effImage effect (if i > 0 then img.UpdateInImg else img)).out.Outside = RGBA64.zero := by
  by_cases hi : i > 0
  · simp only [hi, if_true]
    rfl
  · simp only [hi, if_false]
    exact ho

theorem chainImage_out_Outside (i : Nat) (effects : List String) (img : Image)
    (ho : img.out.Outside = RGBA64.zero) :
    (chainImage i effects img).out.Outside = RGBA64.zero := by
  induction effects generalizing i img with
  | nil => exact ho
  | cons e rest ih =>
    simp only [chainImage]
    exact ih _ _ (effImage_step_Outside e i img ho)

theorem effImage_step_Rect (effect : String) (i : Nat) (img : Image) :
    (effImage effect (if i > 0 then img.UpdateInImg else img)).out.Rect = img.out.Rect := by
  by_cases hi : i > 0
  · simp only [hi, if_true]; rfl
  · simp only [hi, if_false]; rfl

theorem convCount_cons (e : String) (rest : List String) :
    convCount (e :: rest) = (if e = "G" then 0 else 1) + convCount rest := by
  unfold convCount
  by_cases h : e = "G"
  · simp [h]
  · simp [h]
    omega

/-- The chunk invariant of the effect loop. Two images whose output bounds
agree on the rows at distance `m` from the padded edges `lo`, `hi` (an edge
flagged `top` or `bot` is an edge of the whole image and needs no distance),
whose outputs are `*image.RGBA64` (zero outside the bounds), and whose read
surfaces agree on those rows, still agree after the effects,
on the rows at distance `m` plus the number of convolutions. -/
theorem chain_inv (RC RS : Rectangle) (top bot : Prop) (lo hi : Int)
    (hgeo : ∀ (m : Nat) (x y : Int), (top ∨ lo + m ≤ y) → (bot ∨ y < hi - m) →
      (Point.mk x y).In RC = (Point.mk x y).In RS)
    (effects : List String) :
    ∀ (i m : Nat) (C S : Image), C.out.Rect = RC → S.out.Rect = RS →
      C.out.Outside = RGBA64.zero → S.out.Outside = RGBA64.zero →
      (∀ x y : Int, (top ∨ lo + m ≤ y) → (bot ∨ y < hi - m) →
        (curSurface i C).At x y = (curSurface i S).At x y) →
      ∀ x y : Int, (top ∨ lo + ((m + convCount effects : Nat) : Int) ≤ y) →
        (bot ∨ y < hi - ((m + convCount effects : Nat) : Int)) →
        (curSurface (i + effects.length) (chainImage i effects C)).At x y
          = (curSurface (i + effects.length) (chainImage i effects S)).At x y := by
  induction effects with
  | nil =>
    intro i m C S _ _ _ _ hinv x y h1 h2
    simpa [convCount, chainImage] using hinv x y (by simpa [convCount] using h1)
      (by simpa [convCount] using h2)
  | cons e rest ih =>
    intro i m C S hC hS hCo hSo hinv x y h1 h2
    have hlen : i + (e :: rest).length = (i + 1) + rest.length := by
      simp only [List.length_cons]; omega
    rw [hlen]
    simp only [chainImage]
    rw [convCount_cons] at h1 h2
    refine ih (i + 1) (m + (if e = "G" then 0 else 1)) _ _
      ((effImage_step_Rect e i C).trans hC) ((effImage_step_Rect e i S).trans hS)
      (effImage_step_Outside e i C hCo) (effImage_step_Outside e i S hSo) ?_ x y
      (by rcases h1 with h | h
          · exact Or.inl h
          · right; push_cast at h ⊢; split_ifs at h ⊢ <;> omega)
      (by rcases h2 with h | h
          · exact Or.inl h
          · right; push_cast at h ⊢; split_ifs at h ⊢ <;> omega)
    intro x2 y2 g1 g2
    have hcur : ∀ img : Image, curSurface (i + 1) img = img.out := by
      intro img; simp [curSurface]
    rw [hcur, hcur, effImage_step_At e i C x2 y2 hCo, effImage_step_At e i S x2 y2 hSo, hC, hS,
      hgeo (m + (if e = "G" then 0 else 1)) x2 y2 g1 g2]
    split
    · by_cases hG : e = "G"
      · rw [if_pos hG] at g1 g2
        rw [hG]
        apply effPixel_congr_G
        apply hinv
        · rcases g1 with h | h
          · exact Or.inl h
          · right; push_cast at h; omega
        · rcases g2 with h | h
          · exact Or.inl h
          · right; push_cast at h; omega
      · rw [if_neg hG] at g1 g2
        apply effPixel_congr
        intro kx ky hk1 hk2 hk3 hk4
        apply hinv
        · rcases g1 with h | h
          · exact Or.inl h
          · right; push_cast at h; omega
        · rcases g2 with h | h
          · exact Or.inl h
          · right; push_cast at h; omega
    · rfl

/-! ## Lemmas: reassembly of an unclipped chunk -/

theorem Rect_of_le (x0 y0 x1 y1 : Int) (hx : x0 ≤ x1) (hy : y0 ≤ y1) :
    Rect x0 y0 x1 y1 = ⟨⟨x0, y0⟩, ⟨x1, y1⟩⟩ := by
  unfold Rect
  have h1 : ¬ (x0 > x1) := by omega
  have h2 : ¬ (y0 > y1) := by omega
  simp only [h1, h2, if_false]

theorem In_Add_zero (x y : Int) (r : Rectangle) :
    (Point.mk x y).In (r.Add ⟨0, 0⟩) = (Point.mk x y).In r := by
  unfold Rectangle.Add Point.In
  simp

theorem Bool_eq_of_iff {a b : Bool} (h : a = true ↔ b = true) : a = b := by
  cases a <;> cases b <;> simp_all

theorem aligned_Rect (T : Rectangle) (hX : T.Min.X = 0) (hwy : T.Min.Y ≤ T.Max.Y)
    (hwx : T.Min.X ≤ T.Max.X) : Rect 0 T.Min.Y T.Max.X T.Max.Y = T := by
  rw [Rect_of_le _ _ _ _ (by omega) hwy]
  cases T with
  | mk mn mx =>
    cases mn with
    | mk a b =>
      simp only at hX
      subst hX
      rfl

/-- When the trimmed rectangle `T` of a chunk starts at column 0 and the source
point is its upper-left corner, `ReAddChunk` overwrites exactly the pixels of
`T` that lie in both images. -/
theorem reAddRect_aligned (img img2 : Image) (yMin : Int) (chunkPart : String)
    (T : Rectangle) (x y : Int)
    (hT : reAddTrim img2.out.Bounds yMin chunkPart = (T, T.Min.Y))
    (hX : T.Min.X = 0) (hwx : T.Min.X ≤ T.Max.X) (hwy : T.Min.Y ≤ T.Max.Y) :
    (Point.mk x y).In (reAddRect img img2 yMin chunkPart) = true ↔
      ((Point.mk x y).In T = true ∧ (Point.mk x y).In img.out.Rect = true ∧
        (Point.mk x y).In img2.out.Rect = true) := by
  have hT2 : reAddTrim img2.out.Rect yMin chunkPart = (T, T.Min.Y) := hT
  have hRect := aligned_Rect T hX hwy hwx
  have hsub : T.Min.Sub ⟨0, T.Min.Y⟩ = ⟨0, 0⟩ := by
    unfold Point.Sub
    simp [hX]
  unfold reAddRect DrawRect
  simp only [Surface.Bounds, hT2, hRect, hsub, In_Intersect, In_Add_zero, SubImage_Rect]
  tauto

/-- Under the same alignment, the pixel copied to an overwritten position is
the chunk's pixel at that position. -/
theorem reAddSource_aligned (img img2 : Image) (yMin : Int) (chunkPart : String)
    (T : Rectangle) (x y : Int)
    (hT : reAddTrim img2.out.Bounds yMin chunkPart = (T, T.Min.Y))
    (hX : T.Min.X = 0) (hwx : T.Min.X ≤ T.Max.X) (hwy : T.Min.Y ≤ T.Max.Y)
    (hin : (Point.mk x y).In T = true) :
    reAddSource img img2 yMin chunkPart x y = img2.out.At x y := by
  have hT2 : reAddTrim img2.out.Rect yMin chunkPart = (T, T.Min.Y) := hT
  have hRect := aligned_Rect T hX hwy hwx
  unfold reAddSource
  simp only [Surface.Bounds, hT2, hRect, hX]
  have e1 : ∀ a : Int, 0 + (a - 0) + (x - a) = x := by intro a; ring
  have e2 : ∀ a : Int, T.Min.Y + (a - T.Min.Y) + (y - a) = y := by intro a; ring
  rw [e1, e2]
  exact SubImage_At_of_In _ _ _ _ hin

/-- Under the same alignment, `ReAddChunk` copies the chunk's pixel at the same
position onto every pixel of `T` that lies in both images. -/
theorem ReAddChunk_At_aligned (img img2 : Image) (yMin : Int) (chunkPart : String)
    (T : Rectangle) (x y : Int)
    (hT : reAddTrim img2.out.Bounds yMin chunkPart = (T, T.Min.Y))
    (hX : T.Min.X = 0) (hwx : T.Min.X ≤ T.Max.X) (hwy : T.Min.Y ≤ T.Max.Y) :
    (img.ReAddChunk img2 yMin chunkPart).out.At x y =
      if (Point.mk x y).In T = true ∧ (Point.mk x y).In img.out.Rect = true ∧
          (Point.mk x y).In img2.out.Rect = true then img2.out.At x y
      else img.out.At x y := by
  rw [ReAddChunk_At]
  have hrect := reAddRect_aligned img img2 yMin chunkPart T x y hT hX hwx hwy
  by_cases hin : (Point.mk x y).In (reAddRect img img2 yMin chunkPart) = true
  · rw [if_pos hin, if_pos (hrect.1 hin)]
    exact reAddSource_aligned img img2 yMin chunkPart T x y hT hX hwx hwy (hrect.1 hin).1
  · rw [if_neg hin, if_neg (fun h => hin (hrect.2 h))]

theorem reAddTrim_na (bounds : Rectangle) (yMin : Int) :
    reAddTrim bounds yMin "na" = (bounds, yMin) := by
  unfold reAddTrim
  have h1 : ¬ ("na" = "first") := by decide
  have h2 : ¬ ("na" = "middle") := by decide
  have h3 : ¬ ("na" = "end") := by decide
  rw [if_neg h1, if_neg h2, if_neg h3]

theorem reAddTrim_first (bounds : Rectangle) (yMin : Int) :
    reAddTrim bounds yMin "first" = (⟨bounds.Min, ⟨bounds.Max.X, bounds.Max.Y - 4⟩⟩, yMin) := by
  unfold reAddTrim
  rw [if_pos rfl]

theorem reAddTrim_middle (bounds : Rectangle) (yMin : Int) :
    reAddTrim bounds yMin "middle" =
      (⟨⟨bounds.Min.X, bounds.Min.Y + 4⟩, ⟨bounds.Max.X, bounds.Max.Y - 4⟩⟩, yMin + 4) := by
  unfold reAddTrim
  have h1 : ¬ ("middle" = "first") := by decide
  rw [if_neg h1, if_pos rfl]

theorem reAddTrim_end (bounds : Rectangle) (yMin : Int) :
    reAddTrim bounds yMin "end" = (⟨⟨bounds.Min.X, bounds.Min.Y + 4⟩, bounds.Max⟩, yMin + 4) := by
  unfold reAddTrim
  have h1 : ¬ ("end" = "first") := by decide
  have h2 : ¬ ("end" = "middle") := by decide
  rw [if_neg h1, if_neg h2, if_pos rfl]

/-! ## Lemmas: the reassembly fold at one pixel -/

/-- Chunks whose trimmed rectangle misses a pixel leave it unchanged. -/
theorem reassemble_fold_skip (x y : Int) (chunks : List ImageTask) :
    ∀ dst : Image,
    (∀ c ∈ chunks, (Point.mk x y).In (reAddTrim c.Img.out.Bounds c.YPixelStart c.ChunkPart).1
      = false) →
    (chunks.foldl (fun acc c => acc.ReAddChunk c.Img c.YPixelStart c.ChunkPart) dst).out.At x y
      = dst.out.At x y := by
  induction chunks with
  | nil => intro dst _; rfl
  | cons c rest ih =>
    intro dst hc
    simp only [List.foldl_cons]
    rw [ih _ (fun c2 h2 => hc c2 (List.mem_cons_of_mem _ h2)), ReAddChunk_At]
    have hn : ¬ ((Point.mk x y).In (reAddRect dst c.Img c.YPixelStart c.ChunkPart) = true) := by
      intro h
      have h2 := (reAddRect_subset _ _ _ _ _ _ h).2
      rw [hc c (List.mem_cons_self _ _)] at h2
      exact Bool.false_ne_true h2
    rw [if_neg hn]

/-- The last chunk whose trimmed rectangle may contain a pixel decides it. -/
theorem reassemble_fold_last (x y : Int) (before after : List ImageTask) (c : ImageTask)
    (dst : Image)
    (hafter : ∀ c2 ∈ after,
      (Point.mk x y).In (reAddTrim c2.Img.out.Bounds c2.YPixelStart c2.ChunkPart).1 = false) :
    ((before ++ c :: after).foldl
        (fun acc c => acc.ReAddChunk c.Img c.YPixelStart c.ChunkPart) dst).out.At x y
      = ((before.foldl (fun acc c => acc.ReAddChunk c.Img c.YPixelStart c.ChunkPart)
          dst).ReAddChunk c.Img c.YPixelStart c.ChunkPart).out.At x y := by
  rw [List.foldl_append, List.foldl_cons]
  exact reassemble_fold_skip x y after _ hafter

theorem Intersect_self (r : Rectangle) :
    r.Intersect r = if r.Empty = true then ZR else r := by
  unfold Rectangle.Intersect
  simp

/-! ## Lemmas: the geometry of the chunks -/

/-- The rectangle of a grabbed chunk: empty, or the requested rows clipped to
the image. -/
theorem chunkRect_cases (w h : Nat) (a b : Int) (hab : a ≤ b) :
    (Rect 0 a w b).Intersect ⟨⟨0, 0⟩, ⟨w, h⟩⟩ = ZR ∨
    ∃ c d : Int, (Rect 0 a w b).Intersect ⟨⟨0, 0⟩, ⟨w, h⟩⟩ = ⟨⟨0, c⟩, ⟨w, d⟩⟩ ∧
      a ≤ c ∧ 0 ≤ c ∧ d ≤ b ∧ d ≤ h ∧ c < d ∧ (0 : Int) < w := by
  rw [Rect_of_le _ _ _ _ (Int.ofNat_nonneg w) hab]
  unfold Rectangle.Intersect
  simp only [lt_self_iff_false, gt_iff_lt, if_false, ite_self]
  by_cases he : (Rectangle.mk ⟨0, if a < 0 then 0 else a⟩
      ⟨(w : Int), if (h : Int) < b then (h : Int) else b⟩).Empty = true
  · rw [if_pos he]
    exact Or.inl rfl
  · rw [if_neg he]
    rw [Empty_iff] at he
    simp only [not_or, not_le] at he
    refine Or.inr ⟨if a < 0 then 0 else a, if (h : Int) < b then h else b, ?_, ?_, ?_, ?_, ?_,
      he.2, he.1⟩
    · simp
    · split <;> omega
    · split <;> omega
    · split <;> omega
    · split <;> omega

/-- A chunk requested inside the image is not clipped. -/
theorem chunkRect_exact (w h : Nat) (a b : Int) (hw : 0 < w) (ha : 0 ≤ a) (hab : a < b)
    (hb : b ≤ h) :
    (Rect 0 a w b).Intersect ⟨⟨0, 0⟩, ⟨w, h⟩⟩ = ⟨⟨0, a⟩, ⟨w, b⟩⟩ := by
  rw [Rect_of_le _ _ _ _ (Int.ofNat_nonneg w) (le_of_lt hab)]
  unfold Rectangle.Intersect
  simp only
  have hw2 : (0 : Int) < w := by exact_mod_cast hw
  have h1 : ¬ (a < 0) := by omega
  have h2 : ¬ (b > (h : Int)) := by omega
  rw [if_neg h1, if_neg h2]
  simp only [lt_self_iff_false, gt_iff_lt, if_false, ite_self]
  rw [if_neg]
  rw [Empty_iff]
  simp only [not_or, not_le]
  exact ⟨hw2, hab⟩

/-- A chunk requested with its rows in the wrong order below the image is
empty. -/
theorem chunkRect_swapped (w h : Nat) (a : Int) (hab : (h : Int) < a) :
    (Rect 0 a w h).Intersect ⟨⟨0, 0⟩, ⟨w, h⟩⟩ = ZR := by
  unfold Rect Rectangle.Intersect
  simp only
  rw [if_pos]
  rw [Empty_iff]
  right
  simp only
  split_ifs <;> omega

theorem rows_first (w h : Nat) (a b s x y : Int) (hab : a ≤ b)
    (hin : (Point.mk x y).In
      (reAddTrim ((Rect 0 a w (b + 4)).Intersect ⟨⟨0, 0⟩, ⟨w, h⟩⟩) s "first").1 = true) :
    a ≤ y ∧ y < b := by
  rw [reAddTrim_first, In_iff] at hin
  rcases chunkRect_cases w h a (b + 4) (by omega) with hz | ⟨c, d, hr, h1, h2, h3, h4, h5, h6⟩
  · rw [hz] at hin
    simp only [ZR] at hin
    omega
  · rw [hr] at hin
    simp only at hin
    omega

theorem rows_middle (w h : Nat) (a b s x y : Int) (hab : a ≤ b)
    (hin : (Point.mk x y).In
      (reAddTrim ((Rect 0 (a - 4) w (b + 4)).Intersect ⟨⟨0, 0⟩, ⟨w, h⟩⟩) s "middle").1 = true) :
    a ≤ y ∧ y < b := by
  rw [reAddTrim_middle, In_iff] at hin
  rcases chunkRect_cases w h (a - 4) (b + 4) (by omega) with
    hz | ⟨c, d, hr, h1, h2, h3, h4, h5, h6⟩
  · rw [hz] at hin
    simp only [ZR] at hin
    omega
  · rw [hr] at hin
    simp only at hin
    omega

theorem rows_end (w h : Nat) (a s x y : Int)
    (hin : (Point.mk x y).In
      (reAddTrim ((Rect 0 (a - 4) w h).Intersect ⟨⟨0, 0⟩, ⟨w, h⟩⟩) s "end").1 = true) :
    a ≤ y ∧ y < h := by
  rw [reAddTrim_end, In_iff] at hin
  by_cases hs : (h : Int) < a - 4
  · rw [chunkRect_swapped w h (a - 4) hs] at hin
    simp only [ZR] at hin
    omega
  · rcases chunkRect_cases w h (a - 4) h (by omega) with
      hz | ⟨c, d, hr, h1, h2, h3, h4, h5, h6⟩
    · rw [hz] at hin
      simp only [ZR] at hin
      omega
    · rw [hr] at hin
      simp only at hin
      omega

theorem rows_na (w h : Nat) (s x y : Int)
    (hin : (Point.mk x y).In
      (reAddTrim ((Rect 0 0 w h).Intersect ⟨⟨0, 0⟩, ⟨w, h⟩⟩) s "na").1 = true) :
    0 ≤ y ∧ y < h := by
  rw [reAddTrim_na, In_iff] at hin
  rcases chunkRect_cases w h 0 h (Int.ofNat_nonneg h) with
    hz | ⟨c, d, hr, h1, h2, h3, h4, h5, h6⟩
  · rw [hz] at hin
    simp only [ZR] at hin
    omega
  · rw [hr] at hin
    simp only at hin
    omega

/-- The trimmed rectangle of chunk `i` lies within the rows of its unpadded
range, for every chunk size `P ≥ 0`. -/
theorem chunk_trim_rows (w h : Nat) (N P : Int) (i : Nat) (hP : 0 ≤ P) (hi : (i : Int) < N)
    (s x y : Int)
    (hin : (Point.mk x y).In
      (reAddTrim ((Rect 0 (chunkPadded N i (chunkUnpadded h P N i)).2.1 w
          (chunkPadded N i (chunkUnpadded h P N i)).2.2).Intersect ⟨⟨0, 0⟩, ⟨w, h⟩⟩) s
        (chunkPadded N i (chunkUnpadded h P N i)).1).1 = true) :
    (chunkUnpadded h P N i).1 ≤ y ∧ y < (chunkUnpadded h P N i).2 := by
  unfold chunkPadded at hin
  by_cases hN : N > 1
  · rw [if_pos hN] at hin
    by_cases h0 : (i : Int) = 0
    · rw [if_pos h0] at hin
      simp only at hin
      have hu : chunkUnpadded h P N i = ((i : Int) * P, (i : Int) * P + P) := by
        unfold chunkUnpadded
        simp only
        rw [if_neg (by omega)]
      rw [hu] at hin ⊢
      exact rows_first w h _ _ s x y (by omega) hin
    · rw [if_neg h0] at hin
      by_cases hm : (i : Int) > 0 ∧ (i : Int) < N - 1
      · rw [if_pos hm] at hin
        simp only at hin
        have hu : chunkUnpadded h P N i = ((i : Int) * P, (i : Int) * P + P) := by
          unfold chunkUnpadded
          simp only
          rw [if_neg (by omega)]
        rw [hu] at hin ⊢
        exact rows_middle w h _ _ s x y (by omega) hin
      · rw [if_neg hm] at hin
        simp only at hin
        have hu : chunkUnpadded h P N i = ((i : Int) * P, (h : Int)) := by
          unfold chunkUnpadded
          simp only
          rw [if_pos (by omega)]
        rw [hu] at hin ⊢
        exact rows_end w h _ s x y hin
  · rw [if_neg hN] at hin
    simp only at hin
    have hi0 : (i : Int) = 0 := by omega
    have hu : chunkUnpadded h P N i = (0, (h : Int)) := by
      unfold chunkUnpadded
      simp only
      rw [if_pos (by omega), hi0, zero_mul]
    rw [hu] at hin ⊢
    exact rows_na w h s x y hin

/-! ## Identity on an empty effect list (C11) -/

theorem SubImage_At_blank (s : Surface) (r : Rectangle) (x y : Int)
    (h : ∀ a b, s.Pix a b = RGBA64.zero) (ho : s.Outside = RGBA64.zero) :
    (s.SubImage r).At x y = RGBA64.zero := by
  unfold Surface.SubImage Surface.At
  simp only
  split_ifs <;> simp [h, ho]

theorem reassemble_fold_blank (chunks : List ImageTask) (dst : Image)
    (hc : ∀ c ∈ chunks, ∀ a b, c.Img.out.Pix a b = RGBA64.zero)
    (hco : ∀ c ∈ chunks, c.Img.out.Outside = RGBA64.zero)
    (hd : ∀ x y, dst.out.At x y = RGBA64.zero) (x y : Int) :
    (chunks.foldl (fun acc c => acc.ReAddChunk c.Img c.YPixelStart c.ChunkPart) dst).out.At x y
      = RGBA64.zero := by
  induction chunks generalizing dst with
  | nil => exact hd x y
  | cons c rest ih =>
    simp only [List.foldl_cons]
    apply ih
    · intro c2 h2
      exact hc c2 (List.mem_cons_of_mem _ h2)
    · intro c2 h2
      exact hco c2 (List.mem_cons_of_mem _ h2)
    · intro x2 y2
      rw [ReAddChunk_At]
      split
      · unfold reAddSource
        exact SubImage_At_blank _ _ _ _ (hc c (List.mem_cons_self _ _))
          (hco c (List.mem_cons_self _ _))
      · exact hd x2 y2

theorem forRange_collect_int {β : Type} (g : Int → β) (hi : Int) :
    forRange 0 hi (fun i acc => acc ++ [g i]) []
      = (List.range hi.toNat).map (fun i : Nat => g i) := by
  unfold forRange
  have e : (hi - 0).toNat = hi.toNat := by simp
  rw [e]
  have := foldl_append_singleton (fun i : Nat => g (0 + (i : Int))) (List.range hi.toNat) []
  simp only [List.nil_append] at this
  rw [this]
  apply List.map_congr_left
  intro i _
  simp

theorem SplitImage_eq_int (imgTask : ImageTask) (threads : Int) :
    imgTask.SplitImage threads = (List.range threads.toNat).map (fun i : Nat =>
      let p := chunkPadded threads i
        (chunkUnpadded imgTask.Img.GetYPixels (pixelChunkOf imgTask.Img.GetYPixels threads)
          threads i)
      (⟨imgTask.InPath, imgTask.OutPath, imgTask.Effects, imgTask.Img.GrabChunk p.2.1 p.2.2,
        p.2.1, p.2.2, p.1⟩ : ImageTask)) := by
  unfold ImageTask.SplitImage
  exact forRange_collect_int _ threads

theorem SplitImage_blank (imgTask : ImageTask) (threads : Int) :
    ∀ c ∈ imgTask.SplitImage threads, ∀ a b, c.Img.out.Pix a b = RGBA64.zero := by
  intro c hc a b
  rw [SplitImage_eq_int] at hc
  simp only [List.mem_map] at hc
  obtain ⟨i, _, rfl⟩ := hc
  rfl

theorem SplitImage_out_Outside (imgTask : ImageTask) (threads : Int) :
    ∀ c ∈ imgTask.SplitImage threads, c.Img.out.Outside = RGBA64.zero := by
  intro c hc
  rw [SplitImage_eq_int] at hc
  simp only [List.mem_map] at hc
  obtain ⟨i, _, rfl⟩ := hc
  rfl

/-- C11: for every job whose effect list is empty, the surface handed to the
writer is the decoded input unchanged, in sequential mode and in parallel mode
for every worker count: `SaveImageTaskOut` selects the input surface, which the
reassembly keeps. The output surface it passes over is blank in both modes. -/
theorem identity_on_empty_effects (inPath outPath : String) (inImg : Surface) :
    runSequential (CreateImageTask inPath outPath [] inImg) = some inImg ∧
    (∀ threads : Int, runParallel threads (CreateImageTask inPath outPath [] inImg) = some inImg) ∧
    (∀ x y : Int, (CreateImageTask inPath outPath [] inImg).Img.out.At x y = RGBA64.zero) ∧
    (∀ (threads : Int) (x y : Int),
      (reassemble (CreateImageTask inPath outPath [] inImg)
        ((CreateImageTask inPath outPath [] inImg).SplitImage threads)).Img.out.At x y
        = RGBA64.zero) := by
  refine ⟨rfl, ?_, ?_, ?_⟩
  · intro threads
    simp only [runParallel, CreateImageTask, workerEffects, Option.map_some', reassemble,
      ImageTask.SaveImageTaskOut, List.length_nil, if_true]
    rw [(reassemble_fold_in _ _).1]
    rfl
  · intro x y
    simp [CreateImageTask, Load, NewRGBA64, Surface.At]
  · intro threads x y
    unfold reassemble
    simp only
    apply reassemble_fold_blank _ _ (SplitImage_blank _ threads)
      (SplitImage_out_Outside _ threads)
    intro x2 y2
    simp [CreateImageTask, Load, Image.NewImage, NewRGBA64, Surface.At]

/-! ## Lemmas: the chunk stream of the worker -/

theorem SplitImage_eq_splitChunk (imgTask : ImageTask) (threads : Int) :
    imgTask.SplitImage threads = (List.range threads.toNat).map (splitChunk imgTask threads) :=
  SplitImage_eq_int imgTask threads

theorem worker_eq_filteredChunk (imgTask : ImageTask) (threads : Int) :
    workerEffects 0 imgTask.Effects (imgTask.SplitImage threads)
      = some ((List.range threads.toNat).map (filteredChunk imgTask threads)) := by
  rw [workerEffects_eq, SplitImage_eq_splitChunk, List.map_map]
  rfl

theorem roundInt_nonneg (z : Int) (d : Nat) (hz : 0 ≤ z) : 0 ≤ roundInt z d := by
  rw [roundInt_of_nonneg z d hz]
  exact Int.ofNat_nonneg _

/-- The chunk size computed by `SplitImage` is never negative. -/
theorem pixelChunkOf_nonneg (h : Nat) (N : Int) (hN : 0 < N) : 0 ≤ pixelChunkOf h N := by
  unfold pixelChunkOf F64.toInt F64.ceil F64.div F64.ofInt
  simp only
  have hU : (0 : Int) < (unitsPerOne : Int) := by
    have : 0 < unitsPerOne := Nat.pow_pos (by decide)
    exact_mod_cast this
  have h1 : 0 ≤ roundInt ((h : Int) * unitsPerOne) 1 :=
    roundInt_nonneg _ _ (Int.mul_nonneg (Int.ofNat_nonneg h) (le_of_lt hU))
  have h2 : 0 ≤ roundInt (N * unitsPerOne) 1 :=
    roundInt_nonneg _ _ (Int.mul_nonneg (le_of_lt hN) (le_of_lt hU))
  have h3 : 0 ≤ roundInt (roundInt ((h : Int) * unitsPerOne) 1 * unitsPerOne *
      (roundInt (N * unitsPerOne) 1).sign) (roundInt (N * unitsPerOne) 1).natAbs := by
    apply roundInt_nonneg
    apply Int.mul_nonneg (Int.mul_nonneg h1 (le_of_lt hU))
    exact Int.sign_nonneg.2 h2
  apply Int.tdiv_nonneg _ (le_of_lt hU)
  apply Int.mul_nonneg _ (le_of_lt hU)
  have h4 : -roundInt (roundInt ((h : Int) * unitsPerOne) 1 * unitsPerOne *
      (roundInt (N * unitsPerOne) 1).sign) (roundInt (N * unitsPerOne) 1).natAbs
        / (unitsPerOne : Int) ≤ 0 := by
    rcases lt_or_eq_of_le h3 with hlt | heq
    · exact le_of_lt (Int.ediv_neg' (by omega) hU)
    · rw [← heq]
      simp
  omega

/-- The rows of the trimmed rectangle of a filtered chunk lie in the chunk's
unpadded row range. -/
theorem filteredChunk_rows (inPath outPath : String) (effects : List String) (w h : Nat)
    (pix : Int → Int → RGBA64) (outside : RGBA64) (N : Int) (i : Nat) (hi : (i : Int) < N) (x y : Int)
    (hin : (Point.mk x y).In
      (reAddTrim
        (filteredChunk (CreateImageTask inPath outPath effects (decodedPNG w h pix outside)) N i).Img.out.Bounds
        (filteredChunk (CreateImageTask inPath outPath effects (decodedPNG w h pix outside)) N i).YPixelStart
        (filteredChunk (CreateImageTask inPath outPath effects (decodedPNG w h pix outside)) N i).ChunkPart).1
      = true) :
    (chunkUnpadded h (pixelChunkOf h N) N i).1 ≤ y ∧
      y < (chunkUnpadded h (pixelChunkOf h N) N i).2 := by
  have hN : 0 < N := by omega
  apply chunk_trim_rows w h N (pixelChunkOf h N) i (pixelChunkOf_nonneg h N hN) hi
    (chunkPadded N i (chunkUnpadded h (pixelChunkOf h N) N i)).2.1 x y
  have e : (filteredChunk (CreateImageTask inPath outPath effects (decodedPNG w h pix outside)) N
      i).Img.out.Bounds = (Rect 0 (chunkPadded N i (chunkUnpadded h (pixelChunkOf h N) N i)).2.1 w
        (chunkPadded N i (chunkUnpadded h (pixelChunkOf h N) N i)).2.2).Intersect
          ⟨⟨0, 0⟩, ⟨w, h⟩⟩ := by
    show (chainImage 0 _ _).out.Rect = _
    rw [chainImage_out_Rect]
    exact SubImage_Rect _ _
  rw [e] at hin
  exact hin

/-- The unpadded row ranges of two distinct chunks do not overlap. -/
theorem unpadded_disjoint (h : Nat) (N P : Int) (i j : Nat) (hP : 0 ≤ P) (hij : i < j)
    (hj : (j : Int) < N) (y : Int)
    (h1 : (chunkUnpadded h P N i).1 ≤ y ∧ y < (chunkUnpadded h P N i).2)
    (h2 : (chunkUnpadded h P N j).1 ≤ y ∧ y < (chunkUnpadded h P N j).2) : False := by
  have hu : chunkUnpadded h P N i = ((i : Int) * P, (i : Int) * P + P) := by
    unfold chunkUnpadded
    simp only
    rw [if_neg (by omega)]
  have hv : (chunkUnpadded h P N j).1 = (j : Int) * P := by
    unfold chunkUnpadded
    simp only
    split <;> rfl
  rw [hu] at h1
  rw [hv] at h2
  have hle : ((i : Int) + 1) * P ≤ (j : Int) * P :=
    Int.mul_le_mul_of_nonneg_right (by omega) hP
  have e : ((i : Int) + 1) * P = (i : Int) * P + P := by ring
  simp only at h1
  omega

theorem ReAddChunk_Pix (img img2 : Image) (yMin : Int) (chunkPart : String) (x y : Int) :
    (img.ReAddChunk img2 yMin chunkPart).out.Pix x y =
      if (Point.mk x y).In (reAddRect img img2 yMin chunkPart) then
        reAddSource img img2 yMin chunkPart x y
      else img.out.Pix x y := by
  rw [ReAddChunk_eq]

/-- Two `ReAddChunk` calls whose trimmed rectangles share no pixel commute. -/
theorem ReAddChunk_comm (z a b : Image) (ya yb : Int) (pa pb : String)
    (hdisj : ∀ x y : Int, ¬ ((Point.mk x y).In (reAddTrim a.out.Bounds ya pa).1 = true ∧
      (Point.mk x y).In (reAddTrim b.out.Bounds yb pb).1 = true)) :
    (z.ReAddChunk a ya pa).ReAddChunk b yb pb = (z.ReAddChunk b yb pb).ReAddChunk a ya pa := by
  have hA : reAddRect (z.ReAddChunk a ya pa) b yb pb = reAddRect z b yb pb :=
    reAddRect_congr _ _ _ _ _ (ReAddChunk_out_Rect _ _ _ _)
  have hB : reAddRect (z.ReAddChunk b yb pb) a ya pa = reAddRect z a ya pa :=
    reAddRect_congr _ _ _ _ _ (ReAddChunk_out_Rect _ _ _ _)
  have hsA : ∀ x y, reAddSource (z.ReAddChunk a ya pa) b yb pb x y = reAddSource z b yb pb x y :=
    fun x y => reAddSource_congr _ _ _ _ _ _ _ (ReAddChunk_out_Rect _ _ _ _)
  have hsB : ∀ x y, reAddSource (z.ReAddChunk b yb pb) a ya pa x y = reAddSource z a ya pa x y :=
    fun x y => reAddSource_congr _ _ _ _ _ _ _ (ReAddChunk_out_Rect _ _ _ _)
  have e1 : (z.ReAddChunk a ya pa).ReAddChunk b yb pb = ⟨z.in_, ⟨z.out.Rect, fun x y =>
      if (Point.mk x y).In (reAddRect z b yb pb) then reAddSource z b yb pb x y
      else if (Point.mk x y).In (reAddRect z a ya pa) then reAddSource z a ya pa x y
      else z.out.Pix x y, z.out.Outside⟩⟩ := by
    rw [ReAddChunk_eq (z.ReAddChunk a ya pa), hA, ReAddChunk_in, ReAddChunk_out_Rect,
      ReAddChunk_out_Outside]
    simp only [hsA, ReAddChunk_Pix]
  have e2 : (z.ReAddChunk b yb pb).ReAddChunk a ya pa = ⟨z.in_, ⟨z.out.Rect, fun x y =>
      if (Point.mk x y).In (reAddRect z a ya pa) then reAddSource z a ya pa x y
      else if (Point.mk x y).In (reAddRect z b yb pb) then reAddSource z b yb pb x y
      else z.out.Pix x y, z.out.Outside⟩⟩ := by
    rw [ReAddChunk_eq (z.ReAddChunk b yb pb), hB, ReAddChunk_in, ReAddChunk_out_Rect,
      ReAddChunk_out_Outside]
    simp only [hsB, ReAddChunk_Pix]
  have key : (fun x y =>
      if (Point.mk x y).In (reAddRect z b yb pb) then reAddSource z b yb pb x y
      else if (Point.mk x y).In (reAddRect z a ya pa) then reAddSource z a ya pa x y
      else z.out.Pix x y) = (fun x y =>
      if (Point.mk x y).In (reAddRect z a ya pa) then reAddSource z a ya pa x y
      else if (Point.mk x y).In (reAddRect z b yb pb) then reAddSource z b yb pb x y
      else z.out.Pix x y) := by
    funext x y
    by_cases h1 : (Point.mk x y).In (reAddRect z a ya pa) = true
    · by_cases h2 : (Point.mk x y).In (reAddRect z b yb pb) = true
      · exact absurd ⟨(reAddRect_subset _ _ _ _ _ _ h1).2, (reAddRect_subset _ _ _ _ _ _ h2).2⟩
          (hdisj x y)
      · rw [if_neg h2, if_pos h1, if_pos h1]
    · by_cases h2 : (Point.mk x y).In (reAddRect z b yb pb) = true
      · rw [if_pos h2, if_neg h1, if_pos h2]
      · rw [if_neg h2, if_neg h1, if_neg h1, if_neg h2]
  rw [e1, e2, key]

/-! ## Disjoint reassembly writes (C12) -/

theorem hasRow_In (r : Rectangle) (y : Int) (h : r.hasRow y = true) :
    (Point.mk r.Min.X y).In r = true := by
  unfold Rectangle.hasRow at h
  simp only [Bool.and_eq_true, Bool.not_eq_true', decide_eq_true_eq] at h
  have he : ¬ (r.Empty = true) := by simp [h.1.1]
  rw [Empty_iff] at he
  rw [In_iff]
  omega

theorem filteredChunk_disjoint (inPath outPath : String) (effects : List String) (w h : Nat)
    (pix : Int → Int → RGBA64) (outside : RGBA64) (N : Int) (i j : Nat) (hij : i ≠ j) (hi : (i : Int) < N)
    (hj : (j : Int) < N) (x y : Int) :
    ¬ ((Point.mk x y).In (reAddTrim
        (filteredChunk (CreateImageTask inPath outPath effects (decodedPNG w h pix outside)) N i).Img.out.Bounds
        (filteredChunk (CreateImageTask inPath outPath effects (decodedPNG w h pix outside)) N i).YPixelStart
        (filteredChunk (CreateImageTask inPath outPath effects (decodedPNG w h pix outside)) N i).ChunkPart).1
        = true ∧
      (Point.mk x y).In (reAddTrim
        (filteredChunk (CreateImageTask inPath outPath effects (decodedPNG w h pix outside)) N j).Img.out.Bounds
        (filteredChunk (CreateImageTask inPath outPath effects (decodedPNG w h pix outside)) N j).YPixelStart
        (filteredChunk (CreateImageTask inPath outPath effects (decodedPNG w h pix outside)) N j).ChunkPart).1
        = true) := by
  rintro ⟨h1, h2⟩
  have r1 := filteredChunk_rows inPath outPath effects w h pix outside N i hi x y h1
  have r2 := filteredChunk_rows inPath outPath effects w h pix outside N j hj x y h2
  have hP := pixelChunkOf_nonneg h N (by omega)
  rcases Nat.lt_or_gt_of_ne hij with hlt | hgt
  · exact unpadded_disjoint h N _ i j hP hlt hj y r1 r2
  · exact unpadded_disjoint h N _ j i hP hgt hi y r2 r1

/-- C12: for every decoded image, every effect chain and every chunk count, the
worker's effect loop yields a chunk stream such that (a) the destination
rectangles that `ReAddChunk` writes for two distinct chunks of the stream have
no row in common, and (b) reassembling the stream in any order gives the same
task, output buffer included. -/
theorem disjoint_reassembly_writes (inPath outPath : String) (effects : List String)
    (w h : Nat) (pix : Int → Int → RGBA64) (outside : RGBA64) (threads : Int) :
    ∃ done : List ImageTask,
      workerEffects 0 effects
        ((CreateImageTask inPath outPath effects (decodedPNG w h pix outside)).SplitImage threads)
          = some done ∧
      (∀ (i j : Nat) (ci cj : ImageTask), i < j → done[i]? = some ci → done[j]? = some cj →
        ∀ y : Int,
          ¬ ((chunkDstRect (CreateImageTask inPath outPath effects (decodedPNG w h pix outside)) ci).hasRow y
              = true ∧
            (chunkDstRect (CreateImageTask inPath outPath effects (decodedPNG w h pix outside)) cj).hasRow y
              = true)) ∧
      (∀ order : List ImageTask, order.Perm done →
        reassemble (CreateImageTask inPath outPath effects (decodedPNG w h pix outside)) order
          = reassemble (CreateImageTask inPath outPath effects (decodedPNG w h pix outside)) done) := by
  refine ⟨(List.range threads.toNat).map
    (filteredChunk (CreateImageTask inPath outPath effects (decodedPNG w h pix outside)) threads),
    worker_eq_filteredChunk (CreateImageTask inPath outPath effects (decodedPNG w h pix outside)) threads,
    ?_, ?_⟩
  · intro i j ci cj hij hci hcj y
    have hjn : j < threads.toNat := by
      by_contra hc
      rw [List.getElem?_eq_none (by simp; omega)] at hcj
      exact Option.noConfusion hcj
    have hin : i < threads.toNat := by omega
    rw [List.getElem?_map, List.getElem?_range hin] at hci
    rw [List.getElem?_map, List.getElem?_range hjn] at hcj
    simp only [Option.map_some', Option.some.injEq] at hci hcj
    rintro ⟨a, b⟩
    have a2 := (reAddRect_subset _ _ _ _ _ _ (hasRow_In _ _ a)).2
    have b2 := (reAddRect_subset _ _ _ _ _ _ (hasRow_In _ _ b)).2
    rw [← hci] at a2
    rw [← hcj] at b2
    have r1 := filteredChunk_rows inPath outPath effects w h pix outside threads i (by omega) _ y a2
    have r2 := filteredChunk_rows inPath outPath effects w h pix outside threads j (by omega) _ y b2
    exact unpadded_disjoint h threads _ i j (pixelChunkOf_nonneg h threads (by omega)) hij
      (by omega) y r1 r2
  · intro order hperm
    unfold reassemble
    simp only
    have comm : ∀ c1 ∈ order, ∀ c2 ∈ order, ∀ z : Image,
        (z.ReAddChunk c1.Img c1.YPixelStart c1.ChunkPart).ReAddChunk c2.Img c2.YPixelStart
            c2.ChunkPart
          = (z.ReAddChunk c2.Img c2.YPixelStart c2.ChunkPart).ReAddChunk c1.Img c1.YPixelStart
            c1.ChunkPart := by
      intro c1 h1 c2 h2 z
      have m1 := (hperm.mem_iff).1 h1
      have m2 := (hperm.mem_iff).1 h2
      rw [List.mem_map] at m1 m2
      obtain ⟨i, hi, rfl⟩ := m1
      obtain ⟨j, hj, rfl⟩ := m2
      rw [List.mem_range] at hi hj
      by_cases hij : i = j
      · rw [hij]
      · exact ReAddChunk_comm z _ _ _ _ _ _ (fun x y =>
          filteredChunk_disjoint inPath outPath effects w h pix outside threads i j hij (by omega)
            (by omega) x y)
    rw [List.Perm.foldl_eq' hperm comm]

theorem disjoint_reassembly_writes_witness :
    ∃ done : List ImageTask,
      workerEffects 0 ["B"]
        ((CreateImageTask "in" "out" ["B"] (decodedPNG 1 8 (fun _ _ => px 1 2 3 4) RGBA64.zero)).SplitImage 2)
          = some done ∧
      reassemble (CreateImageTask "in" "out" ["B"] (decodedPNG 1 8 (fun _ _ => px 1 2 3 4) RGBA64.zero))
          done.reverse
        = reassemble (CreateImageTask "in" "out" ["B"] (decodedPNG 1 8 (fun _ _ => px 1 2 3 4) RGBA64.zero))
          done :=
  match disjoint_reassembly_writes "in" "out" ["B"] 1 8 (fun _ _ => px 1 2 3 4) RGBA64.zero 2 with
  | ⟨done, h1, _, h3⟩ => ⟨done, h1, h3 done.reverse (List.reverse_perm done)⟩

/-! ## Kernel selection (C13) and unknown effect codes (C18) -/

/-- C13: `ApplyConvolution` convolves with `[[0,-1,0],[-1,5,-1],[0,-1,0]]` for
effect code S, with `[[-1,-1,-1],[-1,8,-1],[-1,-1,-1]]` for E, and for B with
the 3x3 kernel whose every cell is `float64(1)/float64(9)`, the binary64 number
`8006399337547548 * 2^-56` nearest to one ninth (`9` times it is `1 - 2^-54`);
the integer weights are held exactly. -/
theorem kernel_selection :
    (∀ img : Image, img.ApplyConvolution "S" = img.Convolute
      [[F64.ofInt 0, F64.ofInt (-1), F64.ofInt 0],
       [F64.ofInt (-1), F64.ofInt 5, F64.ofInt (-1)],
       [F64.ofInt 0, F64.ofInt (-1), F64.ofInt 0]] 3) ∧
    (∀ img : Image, img.ApplyConvolution "E" = img.Convolute
      [[F64.ofInt (-1), F64.ofInt (-1), F64.ofInt (-1)],
       [F64.ofInt (-1), F64.ofInt 8, F64.ofInt (-1)],
       [F64.ofInt (-1), F64.ofInt (-1), F64.ofInt (-1)]] 3) ∧
    (∀ img : Image, img.ApplyConvolution "B" = img.Convolute
      [[F64.div (F64.ofInt 1) (F64.ofInt 9), F64.div (F64.ofInt 1) (F64.ofInt 9),
          F64.div (F64.ofInt 1) (F64.ofInt 9)],
       [F64.div (F64.ofInt 1) (F64.ofInt 9), F64.div (F64.ofInt 1) (F64.ofInt 9),
          F64.div (F64.ofInt 1) (F64.ofInt 9)],
       [F64.div (F64.ofInt 1) (F64.ofInt 9), F64.div (F64.ofInt 1) (F64.ofInt 9),
          F64.div (F64.ofInt 1) (F64.ofInt 9)]] 3) ∧
    (F64.div (F64.ofInt 1) (F64.ofInt 9)).units = ((8006399337547548 * 2 ^ 1018 : Nat) : Int) ∧
    9 * (8006399337547548 * 2 ^ 1018) = unitsPerOne - 2 ^ 1020 ∧
    (F64.ofInt 0).units = 0 ∧ (F64.ofInt (-1)).units = -(unitsPerOne : Int) ∧
    (F64.ofInt 5).units = 5 * (unitsPerOne : Int) ∧
    (F64.ofInt 8).units = 8 * (unitsPerOne : Int) :=
  ⟨ApplyConvolution_S, ApplyConvolution_E, ApplyConvolution_B, oneNinth_units, by decide,
    by decide, by decide, by decide, by decide⟩

theorem kernelOf_unknown (effect : String)
    (h : effect ≠ "S" ∧ effect ≠ "E" ∧ effect ≠ "B") : kernelOf effect = [] := by
  unfold kernelOf
  rw [if_neg h.1, if_neg h.2.1, if_neg h.2.2]

theorem clamp_zero : clamp (F64.ofInt 0) = 0 :=
  clamp_of_neg _ (by rw [ofInt_zero_units])

/-- C18: an effect code other than G, S, E and B is not rejected: both drivers
pass it to `ApplyConvolution`, which convolves with the empty kernel of length
zero, so for every image the job succeeds and every output pixel has
R = G = B = 0 and the alpha of the input pixel. -/
theorem unknown_effect_zero_output (inPath outPath effect : String) (inImg : Surface)
    (x y : Int)
    (heff : effect ≠ "G" ∧ effect ≠ "S" ∧ effect ≠ "E" ∧ effect ≠ "B")
    (hin : (Point.mk x y).In inImg.Rect = true) :
    (∀ img : Image, applyEffect effect img = img.Convolute [] 0) ∧
    ∃ s, runSequential (CreateImageTask inPath outPath [effect] inImg) = some s ∧
      s.At x y = ⟨0, 0, 0, (inImg.At x y).A⟩ := by
  have hk := kernelOf_unknown effect heff.2
  constructor
  · intro img
    unfold applyEffect
    rw [if_pos heff.1, ApplyConvolution_eq, hk]
    rfl
  · have hl : ¬ ([effect].length = 0) := by simp
    refine ⟨(effImage effect (Load inImg)).out, ?_, ?_⟩
    · simp only [runSequential, CreateImageTask, sequentialEffects_eq, Option.map_some',
        ImageTask.SaveImageTaskOut, hl, if_false, chainImage]
      rfl
    · have hin2 : (Point.mk x y).In (Load inImg).out.Rect = true := hin
      simp only [effImage, Surface.At, hin2, if_true, effPixel, heff.1, if_false, hk]
      have : convAccumulate (Load inImg).in_ [] (([] : List (List F64)).length : Int) x y
          = some ⟨F64.ofInt 0, F64.ofInt 0, F64.ofInt 0⟩ := rfl
      rw [this]
      simp only [Option.getD_some, clamp_zero]
      rfl

/-- Witness for C18: the effect code `X` on the 2x1 image. -/
theorem unknown_effect_zero_output_witness :
    (("X" : String) ≠ "G" ∧ ("X" : String) ≠ "S" ∧ ("X" : String) ≠ "E" ∧ ("X" : String) ≠ "B") ∧
    (Point.mk 0 0).In twoPixelImage.Rect = true ∧
    ∃ s, runSequential (CreateImageTask "in.png" "out.png" ["X"] twoPixelImage) = some s ∧
      s.At 0 0 = px 0 0 0 65535 := by
  refine ⟨by decide, by decide, ?_⟩
  obtain ⟨_, s, hs, hp⟩ := unknown_effect_zero_output "in.png" "out.png" "X" twoPixelImage 0 0
    (by decide) (by decide)
  exact ⟨s, hs, by rw [hp]; decide⟩

/-! ## Lemmas: chunks that fit their padding -/

theorem chunk_products (N P : Int) (i : Nat) (hP : 0 ≤ P) :
    0 ≤ (i : Int) * P ∧ ((i : Int) = 0 → (i : Int) * P = 0) ∧
    (1 ≤ (i : Int) → P ≤ (i : Int) * P) ∧
    ((i : Int) + 1 ≤ N - 1 → (i : Int) * P + P ≤ (N - 1) * P) ∧
    ((i : Int) = N - 1 → (i : Int) * P = (N - 1) * P) := by
  refine ⟨Int.mul_nonneg (Int.ofNat_nonneg i) hP, ?_, ?_, ?_, ?_⟩
  · intro h0
    rw [h0, zero_mul]
  · intro h1
    have := Int.mul_le_mul_of_nonneg_right h1 hP
    rw [one_mul] at this
    exact this
  · intro h1
    have := Int.mul_le_mul_of_nonneg_right h1 hP
    have e : ((i : Int) + 1) * P = (i : Int) * P + P := by ring
    rw [e] at this
    exact this
  · intro h1
    rw [h1]

/-- When `p ≥ 4` and `(N-1)*p + 4 ≤ h`, the padded range of every chunk lies in
the image, contains the unpadded range, and keeps four rows of padding at each
interior boundary. -/
theorem chunk_bounds (h : Nat) (N P : Int) (i : Nat) (hN : 2 ≤ N) (hi : (i : Int) < N)
    (hP : 4 ≤ P) (hfit : (N - 1) * P + 4 ≤ h) :
    0 ≤ (chunkPadded N i (chunkUnpadded h P N i)).2.1 ∧
    (chunkPadded N i (chunkUnpadded h P N i)).2.1 ≤ (chunkUnpadded h P N i).1 ∧
    (chunkUnpadded h P N i).1 < (chunkUnpadded h P N i).2 ∧
    (chunkUnpadded h P N i).2 ≤ (chunkPadded N i (chunkUnpadded h P N i)).2.2 ∧
    (chunkPadded N i (chunkUnpadded h P N i)).2.2 ≤ h ∧
    ((i : Int) = 0 ∧ (chunkPadded N i (chunkUnpadded h P N i)).2.1 = 0 ∨
      (chunkPadded N i (chunkUnpadded h P N i)).2.1 + 4 ≤ (chunkUnpadded h P N i).1) ∧
    ((i : Int) = N - 1 ∧ (chunkPadded N i (chunkUnpadded h P N i)).2.2 = h ∨
      (chunkUnpadded h P N i).2 + 4 ≤ (chunkPadded N i (chunkUnpadded h P N i)).2.2) := by
  obtain ⟨f1, f2, f3, f4, f5⟩ := chunk_products N P i (by omega)
  unfold chunkPadded chunkUnpadded
  simp only
  rw [if_pos (by omega)]
  by_cases h0 : (i : Int) = 0
  · rw [if_pos h0, if_neg (by omega)]
    simp only
    have := f2 h0
    have := f4 (by omega)
    omega
  · rw [if_neg h0]
    by_cases hm : (i : Int) > 0 ∧ (i : Int) < N - 1
    · rw [if_pos hm, if_neg (by omega)]
      simp only
      have := f3 (by omega)
      have := f4 (by omega)
      omega
    · rw [if_neg hm, if_pos (by omega)]
      simp only
      simp only [and_true]
      have := f3 (by omega)
      have := f5 (by omega)
      omega

/-- Under the same conditions the trimmed rectangle of a chunk is the rectangle
of its unpadded rows, and the adjusted start row is its first row. -/
theorem chunk_trim_exact (w h : Nat) (N P : Int) (i : Nat) (hw : 0 < w) (hN : 2 ≤ N)
    (hi : (i : Int) < N) (hP : 4 ≤ P) (hfit : (N - 1) * P + 4 ≤ h) :
    (Rect 0 (chunkPadded N i (chunkUnpadded h P N i)).2.1 w
      (chunkPadded N i (chunkUnpadded h P N i)).2.2).Intersect ⟨⟨0, 0⟩, ⟨w, h⟩⟩
      = ⟨⟨0, (chunkPadded N i (chunkUnpadded h P N i)).2.1⟩,
          ⟨w, (chunkPadded N i (chunkUnpadded h P N i)).2.2⟩⟩ ∧
    reAddTrim ⟨⟨0, (chunkPadded N i (chunkUnpadded h P N i)).2.1⟩,
          ⟨w, (chunkPadded N i (chunkUnpadded h P N i)).2.2⟩⟩
        (chunkPadded N i (chunkUnpadded h P N i)).2.1
        (chunkPadded N i (chunkUnpadded h P N i)).1
      = (⟨⟨0, (chunkUnpadded h P N i).1⟩, ⟨w, (chunkUnpadded h P N i).2⟩⟩,
          (chunkUnpadded h P N i).1) := by
  obtain ⟨b1, b2, b3, b4, b5, b6, b7⟩ := chunk_bounds h N P i hN hi hP hfit
  refine ⟨chunkRect_exact w h _ _ hw b1 (by omega) b5, ?_⟩
  obtain ⟨f1, f2, f3, f4, f5⟩ := chunk_products N P i (by omega)
  unfold chunkPadded chunkUnpadded
  simp only
  rw [if_pos (by omega)]
  by_cases h0 : (i : Int) = 0
  · rw [if_pos h0, if_neg (by omega)]
    simp only
    rw [reAddTrim_first]
    simp
  · rw [if_neg h0]
    by_cases hm : (i : Int) > 0 ∧ (i : Int) < N - 1
    · rw [if_pos hm, if_neg (by omega)]
      simp only
      rw [reAddTrim_middle]
      simp
    · rw [if_neg hm, if_pos (by omega)]
      simp only
      rw [reAddTrim_end]
      simp

/-! ## The per-effect barrier of the worker (C14) -/

theorem covers_of_nodup (l : List Nat) (n : Nat) (hnd : l.Nodup) (hb : ∀ x ∈ l, x < n)
    (hlen : n ≤ l.length) : ∀ c : Nat, c < n → c ∈ l := by
  intro c hc
  have hsub : l.toFinset ⊆ Finset.range n := by
    intro x hx
    rw [List.mem_toFinset] at hx
    exact Finset.mem_range.2 (hb x hx)
  have hcard : (Finset.range n).card ≤ l.toFinset.card := by
    rw [Finset.card_range, List.toFinset_card_of_nodup hnd]
    exact hlen
  have heq := Finset.eq_of_subset_of_card_le hsub hcard
  have : c ∈ l.toFinset := by
    rw [heq]
    exact Finset.mem_range.2 hc
  exact List.mem_toFinset.1 this

theorem nodup_concat_of (l : List (Nat × Nat)) (a : Nat × Nat) (h : l.Nodup) (ha : a ∉ l) :
    (l ++ [a]).Nodup := by
  rw [List.nodup_append_comm]
  exact List.nodup_cons.2 ⟨ha, h⟩

theorem mem_of_count_lt (l : List (Nat × Nat)) (a : Nat × Nat) (n : Nat) (h : n < l.count a) :
    a ∈ l :=
  List.count_pos_iff.1 (by omega)

theorem count_le_of_chain (l1 l2 : List (Nat × Nat)) (h : ∀ x, l1.count x ≤ l2.count x)
    (a : Nat × Nat) (ha : a ∈ l1) : a ∈ l2 := by
  have := List.count_pos_iff.2 ha
  exact List.count_pos_iff.1 (by have := h a; omega)

theorem count_bridge (l : List (Nat × Nat)) (a : Nat × Nat) :
    l.count a = @List.count (Nat × Nat) instBEqOfDecidableEq a l := by
  unfold List.count
  congr 1
  funext x
  rw [Bool.eq_iff_iff]
  simp only [beq_iff_eq]
  exact (decide_eq_true_iff (p := x = a)).symm

theorem nodup_of_chain (l1 l2 : List (Nat × Nat)) (h : ∀ x, l1.count x ≤ l2.count x)
    (h2 : l2.Nodup) : l1.Nodup := by
  rw [List.nodup_iff_count_le_one] at h2 ⊢
  intro a
  have := h a
  rw [count_bridge, count_bridge] at this
  exact le_trans this (h2 a)

theorem nodup_chunks (l : List (Nat × Nat)) (k : Nat) (h : l.Nodup) :
    ((l.filter fun x => decide (x.1 = k)).map Prod.snd).Nodup := by
  apply List.Nodup.map_on _ (h.filter _)
  intro x hx y hy hxy
  rw [List.mem_filter] at hx hy
  have h1 := of_decide_eq_true hx.2
  have h2 := of_decide_eq_true hy.2
  exact Prod.ext (h1.trans h2.symm) hxy

theorem workerInit_inv (imgTask : ImageTask) (threads : Nat) :
    WorkerInv threads (workerInit imgTask threads) := by
  refine ⟨fun x => ⟨le_refl _, le_refl _, le_refl _⟩, List.nodup_nil, ?_, ?_, rfl, ?_, ?_⟩
  · intro x hx
    exact absurd hx (List.not_mem_nil x)
  · refine ⟨List.nodup_range _, ?_⟩
    intro c hc
    rw [workerInit, SplitImage_length, List.mem_range] at hc
    exact ⟨hc, List.not_mem_nil _⟩
  · intro c
    exact List.not_mem_nil _
  · intro k hk
    exact absurd hk (Nat.not_lt_zero k)

theorem workerStep_next_inv (threads numEffects : Nat) (s s2 : WorkerState)
    (hinv : WorkerInv threads s)
    (hstep : workerStep threads numEffects s WorkerEvent.next = some s2) :
    WorkerInv threads s2 := by
  obtain ⟨k, waiting, stream, fstream, spawned, sentL, applied, signalled⟩ := s
  obtain ⟨hchain, hnodup, hbound, hstream, hsent, hcount, hpast⟩ := hinv
  simp only at hchain hnodup hbound hstream hsent hcount hpast
  unfold workerStep at hstep
  simp only at hstep
  cases waiting with
  | some i => simp at hstep
  | none =>
    cases stream with
    | nil => simp at hstep
    | cons chunk rest =>
      simp only at hstep
      split at hstep
      · rw [Option.some.injEq] at hstep
        subst hstep
        have hcr := List.nodup_cons.1 hstream.1
        refine ⟨?_, ?_, ?_, ?_, hsent, hcount, hpast⟩
        · intro x
          have := hchain x
          simp only [List.count_append]
          omega
        · exact nodup_concat_of _ _ hnodup (hstream.2 chunk (List.mem_cons_self _ _)).2
        · intro x hx
          rw [List.mem_append, List.mem_singleton] at hx
          rcases hx with hx | hx
          · exact hbound x hx
          · rw [hx]
            exact ⟨le_refl _, (hstream.2 chunk (List.mem_cons_self _ _)).1⟩
        · refine ⟨hcr.2, ?_⟩
          intro c hc
          have hc2 := hstream.2 c (List.mem_cons_of_mem _ hc)
          refine ⟨hc2.1, ?_⟩
          intro hm
          rw [List.mem_append, List.mem_singleton] at hm
          rcases hm with hm | hm
          · exact hc2.2 hm
          · have : c = chunk := (Prod.mk.inj hm).2
            rw [this] at hc
            exact hcr.1 hc
      · exact Option.noConfusion hstep

theorem workerStep_drained_inv (threads numEffects : Nat) (s s2 : WorkerState)
    (hinv : WorkerInv threads s)
    (hstep : workerStep threads numEffects s WorkerEvent.drained = some s2) :
    WorkerInv threads s2 := by
  obtain ⟨k, waiting, stream, fstream, spawned, sentL, applied, signalled⟩ := s
  obtain ⟨hchain, hnodup, hbound, hstream, hsent, hcount, hpast⟩ := hinv
  simp only at hchain hnodup hbound hstream hsent hcount hpast
  unfold workerStep at hstep
  simp only at hstep
  cases waiting with
  | some i => simp at hstep
  | none =>
    cases stream with
    | cons chunk rest => simp at hstep
    | nil =>
      simp only at hstep
      split at hstep
      · rw [Option.some.injEq] at hstep
        subst hstep
        refine ⟨hchain, hnodup, hbound, hstream, hsent, ?_, hpast⟩
        simp only at hcount ⊢
        symm
        rw [List.length_eq_zero, List.filter_eq_nil_iff]
        intro x hx hd
        have := of_decide_eq_true hd
        apply hcount x.2
        rw [← this]
        exact hx
      · exact Option.noConfusion hstep

theorem workerStep_send_inv (threads numEffects : Nat) (s s2 : WorkerState) (effect chunk : Nat)
    (hinv : WorkerInv threads s)
    (hstep : workerStep threads numEffects s (WorkerEvent.send effect chunk) = some s2) :
    WorkerInv threads s2 := by
  obtain ⟨k, waiting, stream, fstream, spawned, sentL, applied, signalled⟩ := s
  obtain ⟨hchain, hnodup, hbound, hstream, hsent, hcount, hpast⟩ := hinv
  simp only at hchain hnodup hbound hstream hsent hcount hpast
  unfold workerStep at hstep
  simp only at hstep
  split at hstep
  · rename_i hg
    rw [Option.some.injEq] at hstep
    subst hstep
    refine ⟨?_, hnodup, hbound, hstream, ?_, hcount, hpast⟩
    · intro x
      have := hchain x
      simp only [List.count_append, List.count_singleton]
      refine ⟨by omega, by omega, ?_⟩
      by_cases hx : (effect, chunk) = x
      · rw [← hx]
        simp only [beq_self_eq_true, if_true]
        omega
      · have hb : ((effect, chunk) == x) = false := by
          rw [beq_eq_false_iff_ne]
          exact hx
        rw [hb]
        simp only [Bool.false_eq_true, if_false]
        omega
    · simp only
      rw [List.filter_append, List.map_append, ← hsent]
      have : decide ((effect, chunk).1 = k) = true := decide_eq_true hg.1
      simp [List.filter_cons, hg.1]
  · exact Option.noConfusion hstep

theorem workerStep_filtered_inv (threads numEffects : Nat) (s s2 : WorkerState)
    (effect chunk : Nat) (hinv : WorkerInv threads s)
    (hstep : workerStep threads numEffects s (WorkerEvent.filtered effect chunk) = some s2) :
    WorkerInv threads s2 := by
  obtain ⟨k, waiting, stream, fstream, spawned, sentL, applied, signalled⟩ := s
  obtain ⟨hchain, hnodup, hbound, hstream, hsent, hcount, hpast⟩ := hinv
  simp only at hchain hnodup hbound hstream hsent hcount hpast
  unfold workerStep at hstep
  simp only at hstep
  split at hstep
  · rename_i hg
    rw [Option.some.injEq] at hstep
    subst hstep
    refine ⟨?_, hnodup, hbound, hstream, hsent, hcount, hpast⟩
    intro x
    have := hchain x
    simp only [List.count_append, List.count_singleton]
    refine ⟨by omega, ?_, by omega⟩
    by_cases hx : (effect, chunk) = x
    · rw [← hx]
      simp only [beq_self_eq_true, if_true]
      omega
    · have hb : ((effect, chunk) == x) = false := by
        rw [beq_eq_false_iff_ne]
        exact hx
      rw [hb]
      simp only [Bool.false_eq_true, if_false]
      omega
  · exact Option.noConfusion hstep

theorem workerStep_signal_inv (threads numEffects : Nat) (s s2 : WorkerState)
    (effect chunk : Nat) (hinv : WorkerInv threads s)
    (hstep : workerStep threads numEffects s (WorkerEvent.signal effect chunk) = some s2) :
    WorkerInv threads s2 := by
  obtain ⟨k, waiting, stream, fstream, spawned, sentL, applied, signalled⟩ := s
  obtain ⟨hchain, hnodup, hbound, hstream, hsent, hcount, hpast⟩ := hinv
  simp only at hchain hnodup hbound hstream hsent hcount hpast
  unfold workerStep at hstep
  simp only at hstep
  cases waiting with
  | none => simp at hstep
  | some i =>
    simp only at hstep
    split at hstep
    · rename_i hg
      rw [Option.some.injEq] at hstep
      subst hstep
      refine ⟨?_, hnodup, hbound, hstream, hsent, ?_, ?_⟩
      · intro x
        have := hchain x
        simp only [List.count_append, List.count_singleton]
        refine ⟨?_, by omega, by omega⟩
        by_cases hx : (effect, chunk) = x
        · rw [← hx]
          simp only [beq_self_eq_true, if_true]
          omega
        · have hb : ((effect, chunk) == x) = false := by
            rw [beq_eq_false_iff_ne]
            exact hx
          rw [hb]
          simp only [Bool.false_eq_true, if_false]
          omega
      · simp only at hcount ⊢
        rw [List.filter_append, List.length_append, ← hcount]
        simp [List.filter_cons, hg.1]
      · intro j hj c hc
        exact List.mem_append_left _ (hpast j hj c hc)
    · exact Option.noConfusion hstep

theorem workerStep_ret_inv (threads numEffects : Nat) (s s2 : WorkerState)
    (hinv : WorkerInv threads s)
    (hstep : workerStep threads numEffects s WorkerEvent.ret = some s2) :
    WorkerInv threads s2 := by
  obtain ⟨k, waiting, stream, fstream, spawned, sentL, applied, signalled⟩ := s
  obtain ⟨hchain, hnodup, hbound, hstream, hsent, hcount, hpast⟩ := hinv
  simp only at hchain hnodup hbound hstream hsent hcount hpast
  unfold workerStep at hstep
  simp only at hstep
  cases waiting with
  | none => simp at hstep
  | some i =>
    simp only at hstep
    split at hstep
    · rename_i hg
      rw [Option.some.injEq] at hstep
      subst hstep
      have hsentSp : ∀ x, sentL.count x ≤ spawned.count x := fun x => (hchain x).2.2
      have hsigSp : ∀ x, signalled.count x ≤ spawned.count x := fun x =>
        le_trans (hchain x).1 (le_trans (hchain x).2.1 (hchain x).2.2)
      refine ⟨hchain, hnodup, ?_, ?_, ?_, ?_, ?_⟩
      · intro x hx
        exact ⟨Nat.le_succ_of_le (hbound x hx).1, (hbound x hx).2⟩
      · simp only
        rw [hsent]
        refine ⟨nodup_chunks _ _ (nodup_of_chain _ _ hsentSp hnodup), ?_⟩
        intro c hc
        rw [List.mem_map] at hc
        obtain ⟨x, hx, rfl⟩ := hc
        rw [List.mem_filter] at hx
        have hxs := count_le_of_chain _ _ hsentSp x hx.1
        refine ⟨(hbound x hxs).2, ?_⟩
        intro hm
        have := (hbound _ hm).1
        simp only at this
        omega
      · simp only
        symm
        rw [List.map_eq_nil_iff, List.filter_eq_nil_iff]
        intro x hx hd
        have h1 := of_decide_eq_true hd
        have := (hbound x (count_le_of_chain _ _ hsentSp x hx)).1
        omega
      · simp only
        intro c hm
        have := (hbound _ (count_le_of_chain _ _ hsigSp _ hm)).1
        simp only at this
        omega
      · intro j hj c hc
        simp only at hj
        by_cases hjk : j < k
        · exact hpast j hjk c hc
        · have hjk2 : j = k := by omega
          subst hjk2
          simp only at hcount
          have hcov := covers_of_nodup
            ((signalled.filter fun x => decide (x.1 = j)).map Prod.snd) threads
            (nodup_chunks _ _ (nodup_of_chain _ _ hsigSp hnodup))
            (by
              intro c2 hc2
              rw [List.mem_map] at hc2
              obtain ⟨x, hx, rfl⟩ := hc2
              rw [List.mem_filter] at hx
              exact (hbound x (count_le_of_chain _ _ hsigSp x hx.1)).2)
            (by
              rw [List.length_map, ← hcount]
              omega)
            c hc
          rw [List.mem_map] at hcov
          obtain ⟨x, hx, hxc⟩ := hcov
          rw [List.mem_filter] at hx
          have h1 := of_decide_eq_true hx.2
          have : x = (j, c) := Prod.ext h1 hxc
          rw [← this]
          exact hx.1
    · exact Option.noConfusion hstep

theorem workerStep_inv (threads numEffects : Nat) (s s2 : WorkerState) (e : WorkerEvent)
    (hinv : WorkerInv threads s) (hstep : workerStep threads numEffects s e = some s2) :
    WorkerInv threads s2 := by
  cases e with
  | next => exact workerStep_next_inv threads numEffects s s2 hinv hstep
  | drained => exact workerStep_drained_inv threads numEffects s s2 hinv hstep
  | send effect chunk => exact workerStep_send_inv threads numEffects s s2 effect chunk hinv hstep
  | filtered effect chunk =>
    exact workerStep_filtered_inv threads numEffects s s2 effect chunk hinv hstep
  | signal effect chunk =>
    exact workerStep_signal_inv threads numEffects s s2 effect chunk hinv hstep
  | ret => exact workerStep_ret_inv threads numEffects s s2 hinv hstep

theorem workerRun_inv (threads numEffects : Nat) (events : List WorkerEvent) :
    ∀ s s2 : WorkerState, WorkerInv threads s → workerRun threads numEffects s events = some s2 →
      WorkerInv threads s2 := by
  induction events with
  | nil =>
    intro s s2 hinv hrun
    rw [workerRun, Option.some.injEq] at hrun
    rw [← hrun]
    exact hinv
  | cons e rest ih =>
    intro s s2 hinv hrun
    rw [workerRun] at hrun
    cases hs : workerStep threads numEffects s e with
    | none =>
      rw [hs] at hrun
      exact Option.noConfusion hrun
    | some s1 =>
      rw [hs, Option.some_bind] at hrun
      exact ih s1 s2 (workerStep_inv threads numEffects s s1 e hinv hs) hrun

/-- C14: in every state that the worker reaches on any schedule of its filter
goroutines, `SplitImage(threads)` has produced `threads` chunks, and whenever
the filter task of some chunk for effect `k+1` has been started (swap of the
surfaces and `go`), the filter tasks of all `threads` chunks for effect `k`
have signalled completion. -/
theorem per_effect_barrier (imgTask : ImageTask) (threads : Nat) (events : List WorkerEvent)
    (s : WorkerState)
    (hrun : workerRun threads imgTask.Effects.length (workerInit imgTask threads) events
      = some s) :
    (imgTask.SplitImage threads).length = threads ∧
    ∀ k chunk : Nat, (k + 1, chunk) ∈ s.spawnedLog →
      ∀ other : Nat, other < threads → (k, other) ∈ s.signalledLog := by
  refine ⟨SplitImage_length _ _, ?_⟩
  have hinv := workerRun_inv threads imgTask.Effects.length events _ s
    (workerInit_inv imgTask threads) hrun
  intro k chunk hk other ho
  have hb := (hinv.bound _ hk).1
  exact hinv.past k (by simp only at hb; omega) other ho

/-- Witness for C14: two chunks, two effects; a schedule in which both tasks of
effect 0 signal before the task of chunk 0 for effect 1 is started. -/
theorem per_effect_barrier_witness :
    ∃ s : WorkerState,
      workerRun 2 (CreateImageTask "in" "out" ["G", "B"] (decodedPNG 1 8 (fun _ _ => px 1 2 3 4) RGBA64.zero)).Effects.length
        (workerInit (CreateImageTask "in" "out" ["G", "B"] (decodedPNG 1 8 (fun _ _ => px 1 2 3 4) RGBA64.zero)) 2)
        [WorkerEvent.next, WorkerEvent.next, WorkerEvent.drained, WorkerEvent.send 0 0,
          WorkerEvent.filtered 0 0, WorkerEvent.send 0 1, WorkerEvent.filtered 0 1,
          WorkerEvent.signal 0 1, WorkerEvent.signal 0 0, WorkerEvent.ret, WorkerEvent.next]
        = some s ∧
      (1, 0) ∈ s.spawnedLog ∧ (0, 1) ∈ s.signalledLog :=
  have hrun : workerRun 2 (CreateImageTask "in" "out" ["G", "B"] (decodedPNG 1 8 (fun _ _ => px 1 2 3 4) RGBA64.zero)).Effects.length
      (workerInit (CreateImageTask "in" "out" ["G", "B"] (decodedPNG 1 8 (fun _ _ => px 1 2 3 4) RGBA64.zero)) 2)
      [WorkerEvent.next, WorkerEvent.next, WorkerEvent.drained, WorkerEvent.send 0 0,
        WorkerEvent.filtered 0 0, WorkerEvent.send 0 1, WorkerEvent.filtered 0 1,
        WorkerEvent.signal 0 1, WorkerEvent.signal 0 0, WorkerEvent.ret, WorkerEvent.next]
      = some ⟨1, none, [1], [], [(0, 0), (0, 1), (1, 0)], [(0, 0), (0, 1)], [(0, 0), (0, 1)],
          [(0, 1), (0, 0)]⟩ := by decide
  ⟨_, hrun, by decide,
    (per_effect_barrier _ 2 _ _ hrun).2 0 0 (by decide) 1 (by decide)⟩

/-! ## Conditional exact reassembly (C16) -/

theorem unpadded_cover (h N p : Nat) (hN : 1 ≤ N) (hp : 0 < p) (y : Int) (hy0 : 0 ≤ y)
    (hyh : y < h) :
    ∃! i : Nat, i < N ∧ (chunkUnpadded h p N i).1 ≤ y ∧ y < (chunkUnpadded h p N i).2 := by
  obtain ⟨yn, rfl⟩ := Int.eq_ofNat_of_zero_le hy0
  have hyn : yn < h := by exact_mod_cast hyh
  have key := cover_nat h N p yn hN hp hyn
  have conv : ∀ i : Nat, ((chunkUnpadded h p N i).1 ≤ (yn : Int) ∧
      (yn : Int) < (chunkUnpadded h p N i).2) ↔
      (i * p ≤ yn ∧ yn < (if i = N - 1 then h else (i + 1) * p)) := by
    intro i
    rw [chunkUnpadded_eq]
    by_cases hi : i + 1 = N
    · have hi2 : i = N - 1 := by omega
      simp only [if_pos hi, if_pos hi2]
      constructor
      · rintro ⟨a, b⟩; exact ⟨by exact_mod_cast a, by exact_mod_cast b⟩
      · rintro ⟨a, b⟩; exact ⟨by exact_mod_cast a, by exact_mod_cast b⟩
    · have hi2 : ¬ i = N - 1 := by omega
      simp only [if_neg hi, if_neg hi2]
      constructor
      · rintro ⟨a, b⟩; exact ⟨by exact_mod_cast a, by exact_mod_cast b⟩
      · rintro ⟨a, b⟩; exact ⟨by exact_mod_cast a, by exact_mod_cast b⟩
  obtain ⟨i, ⟨hi, hr⟩, huniq⟩ := key
  refine ⟨i, ⟨hi, (conv i).2 hr⟩, ?_⟩
  rintro j ⟨hj, hjr⟩
  exact huniq j ⟨hj, (conv j).1 hjr⟩

theorem range_split (n i : Nat) (hi : i < n) :
    List.range n = List.range i ++ i :: List.range' (i + 1) (n - (i + 1)) := by
  rw [List.range_eq_range', List.range_eq_range']
  have e : n = ((n - (i + 1)) + 1) + i := by omega
  conv_lhs => rw [e]
  rw [← List.range'_append_1, List.range'_succ]
  simp

theorem filteredChunk_out_Rect (inPath outPath : String) (effects : List String) (w h : Nat)
    (pix : Int → Int → RGBA64) (outside : RGBA64) (N : Int) (i : Nat) :
    (filteredChunk (CreateImageTask inPath outPath effects (decodedPNG w h pix outside)) N i).Img.out.Rect
      = (Rect 0 (chunkPadded N i (chunkUnpadded h (pixelChunkOf h N) N i)).2.1 w
        (chunkPadded N i (chunkUnpadded h (pixelChunkOf h N) N i)).2.2).Intersect
          ⟨⟨0, 0⟩, ⟨w, h⟩⟩ := by
  show (chainImage 0 _ _).out.Rect = _
  rw [chainImage_out_Rect]
  exact SubImage_Rect _ _

/-- Under the fit conditions, `ReAddChunk` of filtered chunk `i` onto any
destination with the bounds of the output copies the chunk's own pixel onto
each pixel of its unpadded rows and leaves the other pixels unchanged. -/
theorem filteredChunk_readd (inPath outPath : String) (effects : List String) (w h : Nat)
    (pix : Int → Int → RGBA64) (outside : RGBA64) (N : Int) (i : Nat) (hw : 0 < w) (hN : 2 ≤ N)
    (hi : (i : Int) < N) (hP : 4 ≤ pixelChunkOf h N) (hfit : (N - 1) * pixelChunkOf h N + 4 ≤ h)
    (dst : Image) (hdst : dst.out.Rect = ⟨⟨0, 0⟩, ⟨w, h⟩⟩) (x y : Int) :
    ((Point.mk x y).In (reAddRect dst
        (filteredChunk (CreateImageTask inPath outPath effects (decodedPNG w h pix outside)) N i).Img
        (filteredChunk (CreateImageTask inPath outPath effects (decodedPNG w h pix outside)) N i).YPixelStart
        (filteredChunk (CreateImageTask inPath outPath effects (decodedPNG w h pix outside)) N i).ChunkPart)
        = true ↔
      (0 ≤ x ∧ x < w ∧ (chunkUnpadded h (pixelChunkOf h N) N i).1 ≤ y ∧
        y < (chunkUnpadded h (pixelChunkOf h N) N i).2)) ∧
    ((0 ≤ x ∧ x < w ∧ (chunkUnpadded h (pixelChunkOf h N) N i).1 ≤ y ∧
        y < (chunkUnpadded h (pixelChunkOf h N) N i).2) →
      reAddSource dst
        (filteredChunk (CreateImageTask inPath outPath effects (decodedPNG w h pix outside)) N i).Img
        (filteredChunk (CreateImageTask inPath outPath effects (decodedPNG w h pix outside)) N i).YPixelStart
        (filteredChunk (CreateImageTask inPath outPath effects (decodedPNG w h pix outside)) N i).ChunkPart
        x y
      = (filteredChunk (CreateImageTask inPath outPath effects (decodedPNG w h pix outside)) N
          i).Img.out.At x y) := by
  obtain ⟨b1, b2, b3, b4, b5, b6, b7⟩ := chunk_bounds h N (pixelChunkOf h N) i hN hi hP hfit
  obtain ⟨t1, t2⟩ := chunk_trim_exact w h N (pixelChunkOf h N) i hw hN hi hP hfit
  have hout := filteredChunk_out_Rect inPath outPath effects w h pix outside N i
  rw [t1] at hout
  have hT : reAddTrim
      (filteredChunk (CreateImageTask inPath outPath effects (decodedPNG w h pix outside)) N i).Img.out.Bounds
      (filteredChunk (CreateImageTask inPath outPath effects (decodedPNG w h pix outside)) N i).YPixelStart
      (filteredChunk (CreateImageTask inPath outPath effects (decodedPNG w h pix outside)) N i).ChunkPart
      = ((⟨⟨0, (chunkUnpadded h (pixelChunkOf h N) N i).1⟩,
          ⟨w, (chunkUnpadded h (pixelChunkOf h N) N i).2⟩⟩ : Rectangle),
        (Rectangle.mk ⟨0, (chunkUnpadded h (pixelChunkOf h N) N i).1⟩
          ⟨w, (chunkUnpadded h (pixelChunkOf h N) N i).2⟩).Min.Y) := by
    show reAddTrim
      (filteredChunk (CreateImageTask inPath outPath effects (decodedPNG w h pix outside)) N i).Img.out.Rect
      _ _ = _
    rw [hout]
    exact t2
  have hrect := reAddRect_aligned dst _ _ _ _ x y hT rfl (Int.ofNat_nonneg w) (le_of_lt b3)
  have hiff : (Point.mk x y).In (reAddRect dst
        (filteredChunk (CreateImageTask inPath outPath effects (decodedPNG w h pix outside)) N i).Img
        (filteredChunk (CreateImageTask inPath outPath effects (decodedPNG w h pix outside)) N i).YPixelStart
        (filteredChunk (CreateImageTask inPath outPath effects (decodedPNG w h pix outside)) N i).ChunkPart)
        = true ↔
      (0 ≤ x ∧ x < w ∧ (chunkUnpadded h (pixelChunkOf h N) N i).1 ≤ y ∧
        y < (chunkUnpadded h (pixelChunkOf h N) N i).2) := by
    rw [hrect, hdst, hout]
    simp only [In_iff]
    constructor
    · rintro ⟨a, _, _⟩
      exact a
    · rintro ⟨a1, a2, a3, a4⟩
      exact ⟨⟨a1, a2, a3, a4⟩, ⟨a1, a2, by omega, by omega⟩, ⟨a1, a2, by omega, by omega⟩⟩
  refine ⟨hiff, ?_⟩
  intro hxy
  apply reAddSource_aligned dst _ _ _ _ x y hT rfl (Int.ofNat_nonneg w) (le_of_lt b3)
  rw [In_iff]
  exact hxy

/-- Under the fit conditions the reassembled output holds, on the unpadded rows
of chunk `i`, the pixels of filtered chunk `i`. -/
theorem reassemble_pixel (inPath outPath : String) (effects : List String) (w h : Nat)
    (pix : Int → Int → RGBA64) (outside : RGBA64) (N i : Nat) (hw : 0 < w) (hN : 2 ≤ N) (hi : i < N)
    (hP : 4 ≤ pixelChunkOf h N) (hfit : ((N : Int) - 1) * pixelChunkOf h N + 4 ≤ h)
    (x y : Int)
    (hxy : 0 ≤ x ∧ x < w ∧ (chunkUnpadded h (pixelChunkOf h N) N i).1 ≤ y ∧
        y < (chunkUnpadded h (pixelChunkOf h N) N i).2) :
    (reassemble (CreateImageTask inPath outPath effects (decodedPNG w h pix outside))
      ((List.range N).map
        (filteredChunk (CreateImageTask inPath outPath effects (decodedPNG w h pix outside)) N))).Img.out.At
        x y
      = (filteredChunk (CreateImageTask inPath outPath effects (decodedPNG w h pix outside)) N
          i).Img.out.At x y := by
  unfold reassemble
  simp only
  rw [range_split N i hi, List.map_append, List.map_cons]
  have hafter : ∀ c2 ∈ (List.range' (i + 1) (N - (i + 1))).map
      (filteredChunk (CreateImageTask inPath outPath effects (decodedPNG w h pix outside)) N),
      (Point.mk x y).In (reAddTrim c2.Img.out.Bounds c2.YPixelStart c2.ChunkPart).1 = false := by
    intro c2 hc2
    rw [List.mem_map] at hc2
    obtain ⟨j, hj, rfl⟩ := hc2
    rw [List.mem_range'_1] at hj
    rw [Bool.eq_false_iff]
    intro hin
    have r2 := filteredChunk_rows inPath outPath effects w h pix outside N j (by omega) x y hin
    exact unpadded_disjoint h N _ i j (by omega) (by omega) (by omega) y ⟨hxy.2.2.1, hxy.2.2.2⟩ r2
  rw [reassemble_fold_last x y _ _ _ _ hafter]
  have hdst : (((List.range i).map
      (filteredChunk (CreateImageTask inPath outPath effects (decodedPNG w h pix outside)) N)).foldl
        (fun acc c => acc.ReAddChunk c.Img c.YPixelStart c.ChunkPart)
        (CreateImageTask inPath outPath effects (decodedPNG w h pix outside)).Img.NewImage).out.Rect
      = ⟨⟨0, 0⟩, ⟨w, h⟩⟩ := by
    rw [(reassemble_fold_in _ _).2]
    exact Rect_of_le _ _ _ _ (Int.ofNat_nonneg w) (Int.ofNat_nonneg h)
  have k := filteredChunk_readd inPath outPath effects w h pix outside N i hw (by omega) (by omega) hP hfit
    _ hdst x y
  rw [ReAddChunk_At, if_pos (k.1.2 hxy)]
  exact k.2 hxy

/-- C16: for every decoded image of height `h` and every chunk count `N ≥ 2`
(both below `2^52`) with `p = ceil(h / N)`, `p ≥ 4` and `(N-1)*p + 4 ≤ h`, and
for every chunk `i` of `SplitImage(N)`: (a) `GrabChunk` does not clip it, the
chunk holds exactly the pixels of the requested rows; (b) after the effect loop
the destination rectangle of its `ReAddChunk` call holds exactly the pixels of
its unpadded rows `[i*p, (i+1)*p)` (`[(N-1)*p, h)` for the last chunk); (c) the
pixel copied to such a position is the chunk's pixel at the same position; (d)
the reassembled output has at each such position the chunk's pixel. And every
row of `[0, h)` lies in the unpadded rows of exactly one chunk. -/
theorem conditional_exact_reassembly (inPath outPath : String) (effects : List String)
    (w h N : Nat) (pix : Int → Int → RGBA64) (outside : RGBA64)
    (hN : 2 ≤ N) (hh : h < 2 ^ 52) (hN2 : N < 2 ^ 52)
    (hp : 4 ≤ (h + N - 1) / N) (hfit : (N - 1) * ((h + N - 1) / N) + 4 ≤ h) :
    ∃ split done : List ImageTask,
      (CreateImageTask inPath outPath effects (decodedPNG w h pix outside)).SplitImage N = split ∧
      workerEffects 0 effects split = some done ∧
      (∀ i : Nat, i < N → ∃ c0 c : ImageTask, split[i]? = some c0 ∧ done[i]? = some c ∧
        (∀ x y : Int, (Point.mk x y).In c0.Img.in_.Rect = true ↔
          (0 ≤ x ∧ x < w ∧ c0.YPixelStart ≤ y ∧ y < c0.YPixelEnd)) ∧
        (∀ x y : Int,
          (Point.mk x y).In
            (chunkDstRect (CreateImageTask inPath outPath effects (decodedPNG w h pix outside)) c) = true ↔
          (0 ≤ x ∧ x < w ∧ (i : Int) * (((h + N - 1) / N : Nat) : Int) ≤ y ∧
            y < (if i + 1 = N then (h : Int)
                 else ((i : Int) + 1) * (((h + N - 1) / N : Nat) : Int)))) ∧
        (∀ x y : Int,
          (Point.mk x y).In
            (chunkDstRect (CreateImageTask inPath outPath effects (decodedPNG w h pix outside)) c) = true →
          reAddSource (CreateImageTask inPath outPath effects (decodedPNG w h pix outside)).Img.NewImage
            c.Img c.YPixelStart c.ChunkPart x y = c.Img.out.At x y) ∧
        (∀ x y : Int, 0 ≤ x → x < w → (i : Int) * (((h + N - 1) / N : Nat) : Int) ≤ y →
          y < (if i + 1 = N then (h : Int)
               else ((i : Int) + 1) * (((h + N - 1) / N : Nat) : Int)) →
          (reassemble (CreateImageTask inPath outPath effects (decodedPNG w h pix outside))
            done).Img.out.At x y = c.Img.out.At x y)) ∧
      (∀ y : Int, 0 ≤ y → y < h → ∃! i : Nat, i < N ∧
        (i : Int) * (((h + N - 1) / N : Nat) : Int) ≤ y ∧
        y < (if i + 1 = N then (h : Int)
             else ((i : Int) + 1) * (((h + N - 1) / N : Nat) : Int))) := by
  have hpe := pixelChunkOf_eq h N hh (by omega) hN2
  have hu : ∀ i : Nat, chunkUnpadded h (pixelChunkOf h N) N i
      = ((i : Int) * (((h + N - 1) / N : Nat) : Int),
          if i + 1 = N then (h : Int) else ((i : Int) + 1) * (((h + N - 1) / N : Nat) : Int)) := by
    intro i
    rw [hpe]
    exact chunkUnpadded_eq _ _ _ _
  have hP4 : 4 ≤ pixelChunkOf h N := by
    rw [hpe]
    exact_mod_cast hp
  have hfit2 : ((N : Int) - 1) * pixelChunkOf h N + 4 ≤ h := by
    rw [hpe]
    have e : ((N : Int) - 1) = ((N - 1 : Nat) : Int) := by omega
    rw [e]
    exact_mod_cast hfit
  have hNat : ((N : Nat) : Int).toNat = N := Int.toNat_ofNat N
  refine ⟨(List.range N).map
      (splitChunk (CreateImageTask inPath outPath effects (decodedPNG w h pix outside)) N),
    (List.range N).map
      (filteredChunk (CreateImageTask inPath outPath effects (decodedPNG w h pix outside)) N),
    ?_, ?_, ?_, ?_⟩
  · rw [SplitImage_eq_splitChunk, hNat]
  · have k := worker_eq_filteredChunk
      (CreateImageTask inPath outPath effects (decodedPNG w h pix outside)) N
    rw [SplitImage_eq_splitChunk, hNat] at k
    exact k
  · intro i hi
    obtain ⟨b1, b2, b3, b4, b5, b6, b7⟩ :=
      chunk_bounds h N (pixelChunkOf h N) i (by omega) (by omega) hP4 hfit2
    refine ⟨splitChunk (CreateImageTask inPath outPath effects (decodedPNG w h pix outside)) N i,
      filteredChunk (CreateImageTask inPath outPath effects (decodedPNG w h pix outside)) N i,
      ?_, ?_, ?_, ?_, ?_, ?_⟩
    · rw [List.getElem?_map, List.getElem?_range hi]
      rfl
    · rw [List.getElem?_map, List.getElem?_range hi]
      rfl
    · intro x y
      have e : (splitChunk (CreateImageTask inPath outPath effects (decodedPNG w h pix outside)) N
          i).Img.in_.Rect
          = (Rect 0 (chunkPadded N i (chunkUnpadded h (pixelChunkOf h N) N i)).2.1 w
            (chunkPadded N i (chunkUnpadded h (pixelChunkOf h N) N i)).2.2).Intersect
              ⟨⟨0, 0⟩, ⟨w, h⟩⟩ := SubImage_Rect _ _
      rw [e, In_Intersect, Rect_of_le _ _ _ _ (Int.ofNat_nonneg w) (by omega)]
      simp only [In_iff]
      show _ ↔ (0 ≤ x ∧ x < w ∧
        (chunkPadded N i (chunkUnpadded h (pixelChunkOf h N) N i)).2.1 ≤ y ∧
        y < (chunkPadded N i (chunkUnpadded h (pixelChunkOf h N) N i)).2.2)
      constructor
      · rintro ⟨a, _⟩
        exact a
      · rintro ⟨a1, a2, a3, a4⟩
        exact ⟨⟨a1, a2, a3, a4⟩, a1, a2, by omega, by omega⟩
    · intro x y
      by_cases hw : 0 < w
      · have k := (filteredChunk_readd inPath outPath effects w h pix outside N i hw (by omega)
          (by omega) hP4 hfit2
          (CreateImageTask inPath outPath effects (decodedPNG w h pix outside)).Img.NewImage
          (Rect_of_le _ _ _ _ (Int.ofNat_nonneg w) (Int.ofNat_nonneg h)) x y).1
        rw [hu i] at k
        exact k
      · constructor
        · intro hin
          have k := (reAddRect_subset _ _ _ _ _ _ hin).1
          have e : (CreateImageTask inPath outPath effects
              (decodedPNG w h pix outside)).Img.NewImage.out.Rect = ⟨⟨0, 0⟩, ⟨w, h⟩⟩ :=
            Rect_of_le _ _ _ _ (Int.ofNat_nonneg w) (Int.ofNat_nonneg h)
          rw [e, In_iff] at k
          simp only at k
          omega
        · rintro ⟨a1, a2, _⟩
          omega
    · intro x y hin
      have hw : 0 < w := by
        have k := (reAddRect_subset _ _ _ _ _ _ hin).1
        have e : (CreateImageTask inPath outPath effects
            (decodedPNG w h pix outside)).Img.NewImage.out.Rect = ⟨⟨0, 0⟩, ⟨w, h⟩⟩ :=
          Rect_of_le _ _ _ _ (Int.ofNat_nonneg w) (Int.ofNat_nonneg h)
        rw [e, In_iff] at k
        simp only at k
        omega
      have k := filteredChunk_readd inPath outPath effects w h pix outside N i hw (by omega)
          (by omega) hP4 hfit2
          (CreateImageTask inPath outPath effects (decodedPNG w h pix outside)).Img.NewImage
          (Rect_of_le _ _ _ _ (Int.ofNat_nonneg w) (Int.ofNat_nonneg h)) x y
      exact k.2 (k.1.1 hin)
    · intro x y hx0 hxw hy0 hy1
      have hw : 0 < w := by omega
      apply reassemble_pixel inPath outPath effects w h pix outside N i hw hN hi hP4 hfit2 x y
      rw [hu i]
      exact ⟨hx0, hxw, hy0, hy1⟩
  · intro y hy0 hyh
    have k := unpadded_cover h N ((h + N - 1) / N) (by omega) (by omega) y hy0 hyh
    simp only [chunkUnpadded_eq] at k
    exact k

/-- Witness for C16: a 1x8 image split into two chunks (`p = 4`) after one
blur: output pixel `(0, 5)` is pixel `(0, 5)` of chunk 1. -/
theorem conditional_exact_reassembly_witness :
    (2 ≤ 2 ∧ 8 < 2 ^ 52 ∧ 2 < 2 ^ 52 ∧ 4 ≤ (8 + 2 - 1) / 2 ∧
      (2 - 1) * ((8 + 2 - 1) / 2) + 4 ≤ 8) ∧
    ∃ done : List ImageTask, ∃ c : ImageTask,
      workerEffects 0 ["B"]
        ((CreateImageTask "in" "out" ["B"] (decodedPNG 1 8 (fun _ _ => px 1 2 3 4) RGBA64.zero)).SplitImage
          (2 : Nat)) = some done ∧
      done[1]? = some c ∧
      (reassemble (CreateImageTask "in" "out" ["B"] (decodedPNG 1 8 (fun _ _ => px 1 2 3 4) RGBA64.zero))
        done).Img.out.At 0 5 = c.Img.out.At 0 5 :=
  ⟨⟨by decide, by decide, by decide, by decide, by decide⟩,
    match conditional_exact_reassembly "in" "out" ["B"] 1 8 2 (fun _ _ => px 1 2 3 4) RGBA64.zero
      (by decide) (by decide) (by decide) (by decide) (by decide) with
    | ⟨_, done, h1, h2, h3, _⟩ =>
      match h3 1 (by decide) with
      | ⟨_, c, _, hc, _, _, _, hd⟩ =>
        ⟨done, c, h1 ▸ h2, hc, hd 0 5 (by decide) (by decide) (by decide) (by decide)⟩⟩

/-! ## Single-chunk parallel mode (C17) -/

theorem SplitImage_one (imgTask : ImageTask) :
    imgTask.SplitImage 1 =
      [⟨imgTask.InPath, imgTask.OutPath, imgTask.Effects,
        imgTask.Img.GrabChunk 0 imgTask.Img.GetYPixels, 0, imgTask.Img.GetYPixels, "na"⟩] := by
  rw [SplitImage_eq_int]
  have e : (1 : Int).toNat = 1 := rfl
  rw [e]
  simp [List.range_succ, chunkPadded, chunkUnpadded]

theorem curSurface_pos (i : Nat) (img : Image) (h : 0 < i) : curSurface i img = img.out := by
  unfold curSurface
  rw [if_pos h]

theorem NewImage_At (img : Image) (x y : Int) : img.NewImage.out.At x y = RGBA64.zero := by
  unfold Image.NewImage NewRGBA64 Surface.At
  simp

theorem curSurface_zero (img : Image) : curSurface 0 img = img.in_ := rfl

/-- C17: for every decoded image and every effect chain, the parallel pipeline
with one chunk and the sequential pipeline both produce a surface, and the two
surfaces have the same bounds and the same pixel at every position. -/
theorem single_chunk_equals_sequential (inPath outPath : String) (effects : List String)
    (w h : Nat) (pix : Int → Int → RGBA64) (outside : RGBA64) :
    ∃ par seq : Surface,
      runParallel 1 (CreateImageTask inPath outPath effects (decodedPNG w h pix outside)) = some par ∧
      runSequential (CreateImageTask inPath outPath effects (decodedPNG w h pix outside)) = some seq ∧
      par.Rect = seq.Rect ∧ ∀ x y : Int, par.At x y = seq.At x y := by
  have hRS : Rect 0 0 (w : Int) (h : Int) = ⟨⟨0, 0⟩, ⟨w, h⟩⟩ :=
    Rect_of_le _ _ _ _ (Int.ofNat_nonneg w) (Int.ofNat_nonneg h)
  cases effects with
  | nil =>
    refine ⟨decodedPNG w h pix outside, decodedPNG w h pix outside, ?_, rfl, rfl, fun _ _ => rfl⟩
    simp only [runParallel, CreateImageTask, workerEffects, Option.map_some', reassemble,
      ImageTask.SaveImageTaskOut, List.length_nil, if_true]
    rw [(reassemble_fold_in _ _).1]
    rfl
  | cons e es =>
    have hlen : ¬ ((e :: es).length = 0) := by simp
    have hpos : 0 < 0 + (e :: es).length := by simp
    let S : Image := Load (decodedPNG w h pix outside)
    let C : Image := S.GrabChunk 0 h
    have hCout : C.out.Rect = (Rect 0 0 (w : Int) (h : Int)).Intersect ⟨⟨0, 0⟩, ⟨w, h⟩⟩ :=
      SubImage_Rect _ _
    have hgeo : ∀ x y : Int, (Point.mk x y).In C.out.Rect = (Point.mk x y).In S.out.Rect := by
      intro x y
      apply Bool_eq_of_iff
      rw [hCout, In_Intersect, hRS]
      exact ⟨fun a => a.1, fun a => ⟨a, a⟩⟩
    have hchain : ∀ x y : Int, (chainImage 0 (e :: es) C).out.At x y
        = (chainImage 0 (e :: es) S).out.At x y := by
      intro x y
      have k := chain_inv C.out.Rect S.out.Rect True True 0 0 (fun _ x y _ _ => hgeo x y)
        (e :: es) 0 0 C S rfl rfl rfl rfl
        (fun x y _ _ => by
          rw [curSurface_zero, curSurface_zero]
          show ((decodedPNG w h pix outside).SubImage (Rect 0 0 (w : Int) (h : Int))).At x y = _
          rw [SubImage_At]
          have g := hgeo x y
          rw [hCout] at g
          show _ = if (Point.mk x y).In S.out.Rect = true then pix x y else outside
          rw [← g]
          rfl)
        x y (Or.inl trivial) (Or.inl trivial)
      rw [curSurface_pos _ _ hpos, curSurface_pos _ _ hpos] at k
      exact k
    refine ⟨((S.NewImage).ReAddChunk (chainImage 0 (e :: es) C) 0 "na").out,
      (chainImage 0 (e :: es) S).out, ?_, ?_, ?_, ?_⟩
    · simp only [runParallel, workerEffects_eq, Option.map_some', CreateImageTask, SplitImage_one,
        List.map_cons, List.map_nil, reassemble, List.foldl_cons, List.foldl_nil,
        ImageTask.SaveImageTaskOut]
      rw [if_neg hlen]
      rfl
    · simp only [runSequential, sequentialEffects_eq, Option.map_some', CreateImageTask,
        ImageTask.SaveImageTaskOut]
      rw [if_neg hlen]
    · rw [ReAddChunk_out_Rect, chainImage_out_Rect]
      exact hRS
    · intro x y
      have hT : reAddTrim (chainImage 0 (e :: es) C).out.Bounds 0 "na"
          = (C.out.Rect, C.out.Rect.Min.Y) := by
        rw [reAddTrim_na]
        show ((chainImage 0 (e :: es) C).out.Rect, (0 : Int)) = _
        rw [chainImage_out_Rect, hCout, hRS, Intersect_self]
        split <;> rfl
      have hmin : C.out.Rect.Min.X = 0 ∧ C.out.Rect.Min.X ≤ C.out.Rect.Max.X ∧
          C.out.Rect.Min.Y ≤ C.out.Rect.Max.Y := by
        rw [hCout, hRS, Intersect_self]
        split
        · simp [ZR]
        · simp
      rw [ReAddChunk_At_aligned _ _ _ _ C.out.Rect x y hT hmin.1 hmin.2.1 hmin.2.2]
      rw [chainImage_out_Rect, hgeo x y]
      by_cases hin : (Point.mk x y).In S.out.Rect = true
      · have hd : (Point.mk x y).In S.NewImage.out.Rect = true := by
          show (Point.mk x y).In (Rect 0 0 (w : Int) (h : Int)) = true
          rw [hRS]
          exact hin
        rw [if_pos ⟨hin, hd, hin⟩]
        exact hchain x y
      · rw [if_neg (fun a => hin a.1)]
        have hz : (chainImage 0 (e :: es) S).out.At x y = RGBA64.zero := by
          unfold Surface.At
          rw [chainImage_out_Rect, if_neg hin]
          exact chainImage_out_Outside _ _ _ rfl
        rw [hz]
        exact NewImage_At _ x y

/-! ## Conditional chunk-invariance (C15) -/

/-- Under the fit conditions and with at most four convolutions, filtered chunk
`i` agrees with the sequentially filtered image on its unpadded rows. -/
theorem filteredChunk_eq_sequential (inPath outPath : String) (e : String) (es : List String)
    (w h : Nat) (pix : Int → Int → RGBA64) (outside : RGBA64) (N : Int) (i : Nat) (hw : 0 < w) (hN : 2 ≤ N)
    (hi : (i : Int) < N) (hP : 4 ≤ pixelChunkOf h N)
    (hfit : (N - 1) * pixelChunkOf h N + 4 ≤ h) (hconv : convCount (e :: es) ≤ 4)
    (x y : Int)
    (hy : (chunkUnpadded h (pixelChunkOf h N) N i).1 ≤ y ∧
      y < (chunkUnpadded h (pixelChunkOf h N) N i).2) :
    (filteredChunk (CreateImageTask inPath outPath (e :: es) (decodedPNG w h pix outside)) N
        i).Img.out.At x y
      = (chainImage 0 (e :: es) (Load (decodedPNG w h pix outside))).out.At x y := by
  obtain ⟨b1, b2, b3, b4, b5, b6, b7⟩ := chunk_bounds h N (pixelChunkOf h N) i hN hi hP hfit
  obtain ⟨t1, _⟩ := chunk_trim_exact w h N (pixelChunkOf h N) i hw hN hi hP hfit
  have hpos : 0 < 0 + (e :: es).length := by simp
  have hC : (splitChunk (CreateImageTask inPath outPath (e :: es) (decodedPNG w h pix outside)) N
      i).Img.out.Rect = ⟨⟨0, (chunkPadded N i (chunkUnpadded h (pixelChunkOf h N) N i)).2.1⟩,
          ⟨w, (chunkPadded N i (chunkUnpadded h (pixelChunkOf h N) N i)).2.2⟩⟩ := by
    rw [← t1]
    exact SubImage_Rect _ _
  have hgeo : ∀ (m : Nat) (x y : Int),
      ((chunkPadded N i (chunkUnpadded h (pixelChunkOf h N) N i)).2.1 = 0 ∨
        (chunkPadded N i (chunkUnpadded h (pixelChunkOf h N) N i)).2.1 + m ≤ y) →
      ((chunkPadded N i (chunkUnpadded h (pixelChunkOf h N) N i)).2.2 = h ∨
        y < (chunkPadded N i (chunkUnpadded h (pixelChunkOf h N) N i)).2.2 - m) →
      (Point.mk x y).In (Rectangle.mk
        ⟨0, (chunkPadded N i (chunkUnpadded h (pixelChunkOf h N) N i)).2.1⟩
        ⟨w, (chunkPadded N i (chunkUnpadded h (pixelChunkOf h N) N i)).2.2⟩)
      = (Point.mk x y).In (Rectangle.mk ⟨0, 0⟩ ⟨w, h⟩) := by
    intro m x y g1 g2
    apply Bool_eq_of_iff
    simp only [In_iff]
    constructor
    · rintro ⟨a1, a2, a3, a4⟩
      exact ⟨a1, a2, by omega, by omega⟩
    · rintro ⟨a1, a2, a3, a4⟩
      exact ⟨a1, a2, by omega, by omega⟩
  have k := chain_inv _ _ _ _ _ _ hgeo (e :: es) 0 0
    (splitChunk (CreateImageTask inPath outPath (e :: es) (decodedPNG w h pix outside)) N i).Img
    (Load (decodedPNG w h pix outside)) hC rfl rfl rfl
    (fun x y g1 g2 => by
      rw [curSurface_zero, curSurface_zero]
      show ((decodedPNG w h pix outside).SubImage
        (Rect 0 (chunkPadded N i (chunkUnpadded h (pixelChunkOf h N) N i)).2.1 w
          (chunkPadded N i (chunkUnpadded h (pixelChunkOf h N) N i)).2.2)).At x y = _
      rw [SubImage_At]
      have g := hgeo 0 x y g1 g2
      have t1b : (Rect 0 (chunkPadded N i (chunkUnpadded h (pixelChunkOf h N) N i)).2.1 w
          (chunkPadded N i (chunkUnpadded h (pixelChunkOf h N) N i)).2.2).Intersect
            (decodedPNG w h pix outside).Rect = _ := t1
      rw [t1b, g]
      rfl)
    x y (by omega) (by omega)
  rw [curSurface_pos _ _ hpos, curSurface_pos _ _ hpos] at k
  exact k

/-- C15: for every decoded image of height `h`, every chunk count `N ≥ 2` (both
below `2^52`) with `p = ceil(h / N)`, `p ≥ 4` and `(N-1)*p + 4 ≤ h`, and every
effect chain with at most four effects other than `G`, the parallel pipeline
and the sequential pipeline both produce a surface, and the two surfaces have
the same bounds and the same pixel at every position. -/
theorem conditional_chunk_invariance (inPath outPath : String) (effects : List String)
    (w h N : Nat) (pix : Int → Int → RGBA64) (outside : RGBA64)
    (hN : 2 ≤ N) (hh : h < 2 ^ 52) (hN2 : N < 2 ^ 52)
    (hp : 4 ≤ (h + N - 1) / N) (hfit : (N - 1) * ((h + N - 1) / N) + 4 ≤ h)
    (hconv : convCount effects ≤ 4) :
    ∃ par seq : Surface,
      runParallel N (CreateImageTask inPath outPath effects (decodedPNG w h pix outside)) = some par ∧
      runSequential (CreateImageTask inPath outPath effects (decodedPNG w h pix outside)) = some seq ∧
      par.Rect = seq.Rect ∧ ∀ x y : Int, par.At x y = seq.At x y := by
  have hRS : Rect 0 0 (w : Int) (h : Int) = ⟨⟨0, 0⟩, ⟨w, h⟩⟩ :=
    Rect_of_le _ _ _ _ (Int.ofNat_nonneg w) (Int.ofNat_nonneg h)
  cases effects with
  | nil =>
    refine ⟨decodedPNG w h pix outside, decodedPNG w h pix outside, ?_, rfl, rfl, fun _ _ => rfl⟩
    simp only [runParallel, CreateImageTask, workerEffects, Option.map_some', reassemble,
      ImageTask.SaveImageTaskOut, List.length_nil, if_true]
    rw [(reassemble_fold_in _ _).1]
    rfl
  | cons e es =>
    have hlen : ¬ ((e :: es).length = 0) := by simp
    have hpe := pixelChunkOf_eq h N hh (by omega) hN2
    have hP4 : 4 ≤ pixelChunkOf h N := by
      rw [hpe]
      exact_mod_cast hp
    have hfit2 : ((N : Int) - 1) * pixelChunkOf h N + 4 ≤ h := by
      rw [hpe]
      have e : ((N : Int) - 1) = ((N - 1 : Nat) : Int) := by omega
      rw [e]
      exact_mod_cast hfit
    have hNat : ((N : Nat) : Int).toNat = N := Int.toNat_ofNat N
    have hwork := worker_eq_filteredChunk
      (CreateImageTask inPath outPath (e :: es) (decodedPNG w h pix outside)) N
    rw [hNat] at hwork
    refine ⟨(reassemble (CreateImageTask inPath outPath (e :: es) (decodedPNG w h pix outside))
        ((List.range N).map
          (filteredChunk (CreateImageTask inPath outPath (e :: es) (decodedPNG w h pix outside))
            N))).Img.out,
      (chainImage 0 (e :: es) (Load (decodedPNG w h pix outside))).out, ?_, ?_, ?_, ?_⟩
    · unfold runParallel
      have hw2 : workerEffects 0 (CreateImageTask inPath outPath (e :: es)
          (decodedPNG w h pix outside)).Effects
          ((CreateImageTask inPath outPath (e :: es) (decodedPNG w h pix outside)).SplitImage N) = _ :=
        hwork
      rw [hw2, Option.map_some']
      unfold ImageTask.SaveImageTaskOut
      have hl : ¬ ((reassemble (CreateImageTask inPath outPath (e :: es) (decodedPNG w h pix outside))
        ((List.range N).map
          (filteredChunk (CreateImageTask inPath outPath (e :: es) (decodedPNG w h pix outside))
            N))).Effects.length = 0) := hlen
      rw [if_neg hl]
    · simp only [runSequential, sequentialEffects_eq, Option.map_some', CreateImageTask,
        ImageTask.SaveImageTaskOut]
      rw [if_neg hlen]
    · unfold reassemble
      simp only
      rw [(reassemble_fold_in _ _).2, chainImage_out_Rect]
      exact hRS
    · intro x y
      by_cases hin : (Point.mk x y).In (Rectangle.mk ⟨0, 0⟩ ⟨w, h⟩) = true
      · have hin2 := hin
        rw [In_iff] at hin2
        simp only at hin2
        have hw : 0 < w := by omega
        obtain ⟨i, ⟨hi, hr⟩, _⟩ :=
          unpadded_cover h N ((h + N - 1) / N) (by omega) (by omega) y hin2.2.2.1 hin2.2.2.2
        rw [← hpe] at hr
        rw [reassemble_pixel inPath outPath (e :: es) w h pix outside N i hw hN hi hP4 hfit2 x y
          ⟨hin2.1, hin2.2.1, hr.1, hr.2⟩]
        exact filteredChunk_eq_sequential inPath outPath e es w h pix outside N i hw (by omega)
          (by omega) hP4 hfit2 hconv x y hr
      · have h1 : (reassemble (CreateImageTask inPath outPath (e :: es) (decodedPNG w h pix outside))
            ((List.range N).map
              (filteredChunk (CreateImageTask inPath outPath (e :: es) (decodedPNG w h pix outside))
                N))).Img.out.At x y = RGBA64.zero := by
          unfold Surface.At
          rw [if_neg]
          · unfold reassemble
            simp only
            rw [reassemble_fold_out_Outside]
            rfl
          · unfold reassemble
            simp only
            rw [(reassemble_fold_in _ _).2]
            show ¬ ((Point.mk x y).In (Rect 0 0 (w : Int) (h : Int)) = true)
            rw [hRS]
            exact hin
        have h2 : (chainImage 0 (e :: es) (Load (decodedPNG w h pix outside))).out.At x y
            = RGBA64.zero := by
          unfold Surface.At
          rw [chainImage_out_Rect]
          have hin3 : ¬ ((Point.mk x y).In (Load (decodedPNG w h pix outside)).out.Rect = true) := hin
          rw [if_neg hin3]
          exact chainImage_out_Outside _ _ _ rfl
        rw [h1, h2]

/-- Witness for C15: a 1x8 image split into two chunks (`p = 4`), one blur. -/
theorem conditional_chunk_invariance_witness :
    (2 ≤ 2 ∧ 8 < 2 ^ 52 ∧ 2 < 2 ^ 52 ∧ 4 ≤ (8 + 2 - 1) / 2 ∧
      (2 - 1) * ((8 + 2 - 1) / 2) + 4 ≤ 8 ∧ convCount ["B"] ≤ 4) ∧
    ∃ par seq : Surface,
      runParallel (2 : Nat)
        (CreateImageTask "in" "out" ["B"] (decodedPNG 1 8 (fun _ _ => px 1 2 3 4) RGBA64.zero)) = some par ∧
      runSequential
        (CreateImageTask "in" "out" ["B"] (decodedPNG 1 8 (fun _ _ => px 1 2 3 4) RGBA64.zero)) = some seq ∧
      par.Rect = seq.Rect ∧ ∀ x y : Int, par.At x y = seq.At x y :=
  ⟨⟨by decide, by decide, by decide, by decide, by decide, by decide⟩,
    conditional_chunk_invariance "in" "out" ["B"] 1 8 2 (fun _ _ => px 1 2 3 4) RGBA64.zero
      (by decide) (by decide) (by decide) (by decide) (by decide) (by decide)⟩

end ImageFilter

